import Mathlib

/-!
# iAIPathFind: best-first path search and path smoothing

A shallow embedding of `Engine/immersiveAI/seek/path/iAIPathFind.cc`.

* Node handles (`iAIPathNode*`) are indices `Fin n` into a graph of `n` nodes;
  the graph is the store `Fin n → PathNode F n`, and every write through a
  pointer is an update of that store.
* `F32` values are elements of a linearly ordered field `F` (exact arithmetic:
  no rounding, no NaN); the one place where IEEE division by zero matters,
  the angle test of `smoothPath`, handles the zero divisor explicitly.
* What the file uses but does not define is a parameter: the constants of
  `iAIPathGlobal.h`, the engine's `mSqrt`, `mRadToDeg` and `castRay`, all
  fields of `World`; the tie-breaking of the binary heap is the oracle `tie`.
* Loops take a fuel argument that bounds the number of executed iterations;
  running out of it is the fault `outOfFuel`, an out-of-range `Vector` access
  is the fault `outOfBounds`.
-/

namespace iAIPathFind

set_option linter.unusedSectionVars false

/-- Faults of the embedding: a loop that exceeded its iteration budget, a
`Vector` access outside the current size, a heap that gave no front element. -/
inductive Fault where
  | outOfFuel
  | outOfBounds
  | noFront
  deriving DecidableEq, Repr

/-- The engine's `Point3F`: three `F32` components. -/
structure Point3F (F : Type) where
  x : F
  y : F
  z : F
  deriving DecidableEq, Repr

namespace Point3F

variable {F : Type} [LinearOrderedField F]

/-- Engine `Point3F::operator-`: componentwise difference. -/
def sub (a b : Point3F F) : Point3F F := ⟨a.x - b.x, a.y - b.y, a.z - b.z⟩

/-- Engine `Point3F::operator*(const Point3F&)`: componentwise product. -/
def mul (a b : Point3F F) : Point3F F := ⟨a.x * b.x, a.y * b.y, a.z * b.z⟩

/-- Engine `mDot`: the dot product. -/
def mDot (a b : Point3F F) : F := a.x * b.x + a.y * b.y + a.z * b.z

/-- The argument of the square root in `Point3F::len`. -/
def lenSquared (a : Point3F F) : F := a.x * a.x + a.y * a.y + a.z * a.z

end Point3F

/-- What `iAIPathFind.cc` uses without defining it: the constants of
`iAIPathGlobal.h`, the engine's square root and radian-to-degree conversion,
and the ray cast of the server container (with the fixed collision mask),
which answers `true` when the segment hits something. -/
structure World (F : Type) where
  mSqrt : F → F
  mRadToDeg : F → F
  castRay : Point3F F → Point3F F → Bool
  IAIPATHGLOBAL_MOVE_MODIFIER_UNTRAVERSAL : F
  IAIPATHGLOBAL_MAX_SMOOTHED_SLOPE : F
  IAIPATHGLOBAL_PATH_SMOOTH_ANGLE_THRESHOLD : F
  IAIPATHGLOBAL_NODE_CLEARANCE : Point3F F

/-- The `iAIPathNode` fields the path finder reads and writes: position,
neighbour handles and move modifier are static, the other six are the
transient search state. -/
structure PathNode (F : Type) (n : Nat) where
  mPosition : Point3F F
  mNeighbours : List (Fin n)
  mMoveModifier : F
  mFitness : F
  mLowestCostFromStart : F
  mHeuristicCostToGoal : F
  mParent : Option (Fin n)
  mOpen : Bool
  mClosed : Bool
  deriving DecidableEq

/-- The node store: handle to node. -/
abbrev Graph (F : Type) (n : Nat) := Fin n → PathNode F n

section Defs

variable {F : Type} [LinearOrderedField F] {n : Nat}

/-- A write through a node pointer: the store with node `v` replaced. -/
def setNode (g : Graph F n) (v : Fin n) (nd : PathNode F n) : Graph F n :=
  fun w => if w = v then nd else g w

/-- Engine `Point3F::len`. -/
def World.len (W : World F) (p : Point3F F) : F := W.mSqrt p.lenSquared

/-- `iAIPathFind::estimateCostToGoal` (lines 159-162). -/
def estimateCostToGoal (W : World F) (g : Graph F n) (frm goal : Fin n) : F :=
  W.len ((g goal).mPosition.sub (g frm).mPosition)

/-- `pathNodeFitnessCompare` (lines 26-34): the sign of the fitness difference. -/
def pathNodeFitnessCompare (g : Graph F n) (a b : Fin n) : Int :=
  let diff := (g a).mFitness - (g b).mFitness
  if diff < 0 then -1 else (if diff > 0 then 1 else 0)

/-- Modelled from the spec: `BinaryHeap` of `immersiveAI/core/tBinaryHeap.h`,
which is not in the source tree. The heap holds node handles; its front is an
element that no queued element compares below under the injected comparator.
The candidates, in insertion order. -/
def frontCandidates (g : Graph F n) (items : List (Fin n)) : List (Fin n) :=
  items.filter (fun v => items.all (fun w => decide (0 ≤ pathNodeFitnessCompare g w v)))

/-- Modelled from the spec: `BinaryHeap::front`. Among equal-fitness candidates
the order is implementation-defined; the number `t` selects one. -/
def heapFront (t : Nat) (g : Graph F n) (items : List (Fin n)) : Option (Fin n) :=
  let c := frontCandidates g items
  c.get? (t % c.length)

/-- Modelled from the spec: `BinaryHeap::pop` removes the front element. -/
def heapPop (cur : Fin n) (items : List (Fin n)) : List (Fin n) := items.erase cur

/-- The local state of `generatePath`: the node store, the open list and the
affected list. -/
structure Search (F : Type) (n : Nat) where
  graph : Graph F n
  openList : List (Fin n)
  affectedList : List (Fin n)

/-- Lines 47-50: the start node gets heuristic and fitness, is marked open and
pushed. -/
def seed (W : World F) (g : Graph F n) (start goal : Fin n) : Search F n :=
  let h := estimateCostToGoal W g start goal
  { graph := setNode g start
      { g start with
        mHeuristicCostToGoal := h
        mFitness := (g start).mLowestCostFromStart + h
        mOpen := true }
    openList := [start]
    affectedList := [] }

/-- Lines 71-116, one pass of the neighbour loop body for neighbour `nb` of the
expanded node `cur`. The flag is the goal test of line 116; it is `false` when
the body left through `continue`. -/
def visitNeighbour (W : World F) (goal cur : Fin n) (s : Search F n) (nb : Fin n) :
    Search F n × Bool :=
  let aff := s.affectedList ++ [nb]
  let nd := s.graph nb
  if nd.mClosed = true ∨ W.IAIPATHGLOBAL_MOVE_MODIFIER_UNTRAVERSAL ≤ nd.mMoveModifier then
    ({ s with affectedList := aff }, false)
  else if nd.mOpen = false then
    let low := (s.graph cur).mLowestCostFromStart + estimateCostToGoal W s.graph nb cur
    let heu := estimateCostToGoal W s.graph nb goal
    ({ graph := setNode s.graph nb
        { nd with
          mParent := some cur
          mLowestCostFromStart := low
          mHeuristicCostToGoal := heu
          mFitness := low + heu + nd.mMoveModifier
          mOpen := true }
       openList := s.openList ++ [nb]
       affectedList := aff }, decide (nb = goal))
  else
    let costFromThisNode :=
      (s.graph cur).mLowestCostFromStart + estimateCostToGoal W s.graph nb cur + nd.mMoveModifier
    let nd1 :=
      if nd.mParent ≠ some cur ∧ costFromThisNode < nd.mLowestCostFromStart then
        { nd with mLowestCostFromStart := costFromThisNode, mParent := some cur }
      else nd
    ({ graph := setNode s.graph nb { nd1 with mClosed := false }
       openList := s.openList
       affectedList := aff }, decide (nb = goal))

/-- Lines 69-148: the loop over the neighbours of `cur`; it stops with flag
`true` at the first neighbour that passes the goal test. -/
def neighbourLoop (W : World F) (goal cur : Fin n) :
    List (Fin n) → Search F n → Search F n × Bool
  | [], s => (s, false)
  | nb :: rest, s =>
    match visitNeighbour W goal cur s nb with
    | (s1, true) => (s1, true)
    | (s1, false) => neighbourLoop W goal cur rest s1

/-- Lines 56-66: take the front node off the open list, record it as affected,
mark it closed. -/
def closeFront (s : Search F n) (cur : Fin n) : Search F n :=
  { graph := setNode s.graph cur { s.graph cur with mOpen := false, mClosed := true }
    openList := heapPop cur s.openList
    affectedList := s.affectedList ++ [cur] }

/-- Lines 53-149: the main loop. The flag of the result is `true` when the goal
test succeeded (the search is left at line 116) and `false` when the open list
ran empty. `tie k` breaks the ties of the `k`-th pop. -/
def searchLoop (W : World F) (goal : Fin n) :
    Nat → (Nat → Nat) → Search F n → Except Fault (Search F n × Bool)
  | 0, _, s => if 0 < s.openList.length then .error .outOfFuel else .ok (s, false)
  | fuel + 1, tie, s =>
    if 0 < s.openList.length then
      match heapFront (tie 0) s.graph s.openList with
      | none => .error .noFront
      | some cur =>
        let s1 := closeFront s cur
        match neighbourLoop W goal cur (s1.graph cur).mNeighbours s1 with
        | (s2, true) => .ok (s2, true)
        | (s2, false) => searchLoop W goal fuel (fun k => tie (k + 1)) s2
    else .ok (s, false)

/-- Lines 119-129: walk the parent links from `cur`, pushing each node on the
front of the reply list. -/
def tracePath (g : Graph F n) :
    Nat → Option (Fin n) → List (Fin n) → Except Fault (List (Fin n))
  | _, none, reply => .ok reply
  | 0, some _, _ => .error .outOfFuel
  | fuel + 1, some v, reply => tracePath g fuel (g v).mParent (v :: reply)

/-- Lines 206-207: a position raised by the node clearance. -/
def World.raise (W : World F) (p : Point3F F) : Point3F F :=
  { p with z := p.z + W.IAIPATHGLOBAL_NODE_CLEARANCE.z }

/-- `iAIPathFind::smoothPathConnectionValid` (lines 203-216): both end points
are raised by the clearance, then the ray cast decides. -/
def smoothPathConnectionValid (W : World F) (frm dest : Point3F F) : Bool :=
  if W.castRay (W.raise frm) (W.raise dest) = true then false else true

/-- Lines 182-185: the angle test. The quotient of line 182 has the divisor
`(a * c).len()`; when that is zero the `F32` quotient is a NaN or an infinity,
and then at least one of the two strict comparisons of line 185 is false. -/
def angleInRange (W : World F) (a c : Point3F F) : Bool :=
  let d := W.len (a.mul c)
  if d = 0 then false
  else
    let angle := W.mRadToDeg (a.mDot c / d)
    decide (90 - W.IAIPATHGLOBAL_PATH_SMOOTH_ANGLE_THRESHOLD < angle ∧
      angle < 90 + W.IAIPATHGLOBAL_PATH_SMOOTH_ANGLE_THRESHOLD)

/-- The loop bound of line 169, `replyList.size() - 2` in `U32` arithmetic. -/
def smoothBound (size : Nat) : Nat := (size + 2 ^ 32 - 2) % 2 ^ 32

/-- Lines 169-200: the smoothing loop from cursor `iter`. -/
def smoothPathLoop (W : World F) (g : Graph F n) :
    Nat → Nat → List (Fin n) → Except Fault (List (Fin n))
  | 0, iter, reply =>
    if iter < smoothBound reply.length then .error .outOfFuel else .ok reply
  | fuel + 1, iter, reply =>
    if iter < smoothBound reply.length then
      match reply.get? iter, reply.get? (iter + 1) with
      | some a, some b =>
        let vec := (g a).mPosition.sub (g b).mPosition
        let zSq := vec.z * vec.z
        if zSq < W.IAIPATHGLOBAL_MAX_SMOOTHED_SLOPE then
          match reply.get? (iter + 2) with
          | some c =>
            if angleInRange W (g a).mPosition (g c).mPosition = true ∧
                smoothPathConnectionValid W (g a).mPosition (g c).mPosition = true then
              smoothPathLoop W g fuel iter (reply.eraseIdx (iter + 1))
            else smoothPathLoop W g fuel (iter + 1) reply
          | none => .error .outOfBounds
        else smoothPathLoop W g fuel (iter + 1) reply
      | _, _ => .error .outOfBounds
    else .ok reply

/-- `iAIPathFind::smoothPath` (lines 164-201). -/
def smoothPath (W : World F) (g : Graph F n) (fuel : Nat) (reply : List (Fin n)) :
    Except Fault (List (Fin n)) :=
  smoothPathLoop W g fuel 0 reply

/-- The body of the loop of `resetNodeVariables` (lines 225-230). -/
def resetNode (g : Graph F n) (v : Fin n) : Graph F n :=
  setNode g v
    { g v with
      mFitness := 0
      mLowestCostFromStart := 0
      mHeuristicCostToGoal := 0
      mParent := none
      mOpen := false
      mClosed := false }

/-- `iAIPathFind::resetNodeVariables` (lines 218-232). -/
def resetNodeVariables (g : Graph F n) (affectedList : List (Fin n)) : Graph F n :=
  affectedList.foldl resetNode g

/-- What a call of `generatePath` leaves behind: the returned flag, the node
store and the reply list. -/
structure PathResult (F : Type) (n : Nat) where
  found : Bool
  graph : Graph F n
  replyList : List (Fin n)

/-- `iAIPathFind::generatePath` (lines 36-157). -/
def generatePath (W : World F) (tie : Nat → Nat) (fuel : Nat) (g : Graph F n)
    (startNode goalNode : Fin n) (replyList : List (Fin n)) (smooth : Bool) :
    Except Fault (PathResult F n) :=
  match searchLoop W goalNode fuel tie (seed W g startNode goalNode) with
  | .error e => .error e
  | .ok (s, true) =>
    match tracePath s.graph fuel (some goalNode) replyList with
    | .error e => .error e
    | .ok reply =>
      if smooth = true then
        match smoothPath W s.graph fuel reply with
        | .error e => .error e
        | .ok reply1 =>
          .ok { found := true, graph := resetNodeVariables s.graph s.affectedList,
                replyList := reply1 }
      else
        .ok { found := true, graph := resetNodeVariables s.graph s.affectedList,
              replyList := reply }
  | .ok (s, false) =>
    .ok { found := false, graph := resetNodeVariables s.graph s.affectedList,
          replyList := replyList }

/-! ### Predicates used by the statements -/

/-- The six transient fields of a node are at their defaults. -/
def PathNode.IsDefault (nd : PathNode F n) : Prop :=
  nd.mFitness = 0 ∧ nd.mLowestCostFromStart = 0 ∧ nd.mHeuristicCostToGoal = 0 ∧
    nd.mParent = none ∧ nd.mOpen = false ∧ nd.mClosed = false

/-- Two nodes agree on position, neighbour list and move modifier. -/
def PathNode.SameStatic (a b : PathNode F n) : Prop :=
  a.mPosition = b.mPosition ∧ a.mNeighbours = b.mNeighbours ∧ a.mMoveModifier = b.mMoveModifier

/-- A clean graph: every node has default transient fields. -/
def IsClean (g : Graph F n) : Prop := ∀ v, (g v).IsDefault

/-- The edge relation a returned path has to follow: `q` is in the neighbour
list of `p` and the move modifier of `q` is below the untraversable mark. -/
def Edge (W : World F) (g : Graph F n) (p q : Fin n) : Prop :=
  q ∈ (g p).mNeighbours ∧ (g q).mMoveModifier < W.IAIPATHGLOBAL_MOVE_MODIFIER_UNTRAVERSAL

/-- The plain neighbour relation: `q` is in the neighbour list of `p`. -/
def Neighbour (g : Graph F n) (p q : Fin n) : Prop := q ∈ (g p).mNeighbours

/-- The list `rl` is what the parent walk visits from `o`: it starts at `o`,
each next element is the parent of the one before, and the last has no parent. -/
def IsTrace (g : Graph F n) : Option (Fin n) → List (Fin n) → Prop
  | o, [] => o = none
  | o, v :: rest => o = some v ∧ IsTrace g (g v).mParent rest

/-- Forward paths from `start` along traversable neighbour edges. -/
inductive PathTo (W : World F) (g : Graph F n) (start : Fin n) : Fin n → List (Fin n) → Prop
  | root : PathTo W g start start [start]
  | snoc {p q : Fin n} {l : List (Fin n)} :
      PathTo W g start p l → Edge W g p q → PathTo W g start q (l ++ [q])

/-- Number of nodes that are not closed. -/
def openCount (g : Graph F n) : Nat :=
  (Finset.univ.filter (fun v => (g v).mClosed = false)).card

/-- The invariant of the search from the first pop on, relative to the graph
`g0` the call started with. -/
structure Inv (W : World F) (g0 : Graph F n) (start : Fin n) (s : Search F n) : Prop where
  static : ∀ v, (s.graph v).SameStatic (g0 v)
  touched : ∀ v, v ∈ s.affectedList ∨ s.graph v = g0 v
  nodup : s.openList.Nodup
  queued : ∀ v ∈ s.openList, (s.graph v).mOpen = true ∧ (s.graph v).mClosed = false
  startClosed : (s.graph start).mClosed = true
  startRoot : (s.graph start).mParent = none
  parentOf : ∀ v, v ≠ start → ((s.graph v).mOpen = true ∨ (s.graph v).mClosed = true) →
    ∃ p, (s.graph v).mParent = some p ∧ (s.graph p).mClosed = true ∧ Edge W g0 p v
  chains : ∀ v, (s.graph v).mClosed = true →
    ∃ rl, IsTrace s.graph (some v) rl ∧ (∀ u ∈ rl, (s.graph u).mClosed = true) ∧
      rl.length + openCount s.graph ≤ n

/-- The transient fields of a node set to their defaults. -/
def PathNode.reset (nd : PathNode F n) : PathNode F n :=
  { nd with
    mFitness := 0
    mLowestCostFromStart := 0
    mHeuristicCostToGoal := 0
    mParent := none
    mOpen := false
    mClosed := false }

/-- The erase decision of lines 174-188 for the triple `a`, `b`, `c`: slope
test on `a`, `b`, then angle test and connection test on `a`, `c`. -/
def smoothErase (W : World F) (g : Graph F n) (a b c : Fin n) : Bool :=
  decide (((g a).mPosition.sub (g b).mPosition).z * ((g a).mPosition.sub (g b).mPosition).z
      < W.IAIPATHGLOBAL_MAX_SMOOTHED_SLOPE) &&
    (angleInRange W (g a).mPosition (g c).mPosition &&
      smoothPathConnectionValid W (g a).mPosition (g c).mPosition)

/-- One erasure that the connection test allowed: the element between `a` at
index `i` and `c` at index `i + 2` is removed and
`smoothPathConnectionValid` holds for the positions of `a` and `c`. -/
inductive ValidErase (W : World F) (g : Graph F n) : List (Fin n) → List (Fin n) → Prop
  | erase (reply : List (Fin n)) (i : Nat) (a c : Fin n) :
      reply.get? i = some a → reply.get? (i + 2) = some c →
      smoothPathConnectionValid W (g a).mPosition (g c).mPosition = true →
      ValidErase W g reply (reply.eraseIdx (i + 1))

/-! ### Sample inputs -/

/-- A node with the given static fields and default transient fields. -/
def cleanNode (p : Point3F F) (nbs : List (Fin n)) (m : F) : PathNode F n :=
  { mPosition := p, mNeighbours := nbs, mMoveModifier := m, mFitness := 0,
    mLowestCostFromStart := 0, mHeuristicCostToGoal := 0, mParent := none,
    mOpen := false, mClosed := false }

/-- Neighbour handles of node `i` on a line of `n` nodes: `i - 1` and `i + 1`,
where they exist. -/
def lineNeighbours (n : Nat) (i : Fin n) : List (Fin n) :=
  (if h : 0 < i.val then [⟨i.val - 1, by omega⟩] else []) ++
    (if h : i.val + 1 < n then [⟨i.val + 1, h⟩] else [])

/-- The clean line graph: node `i` at `(i, 0, 0)`, neighbours `i - 1` and
`i + 1`, all move modifiers zero. -/
def lineGraph (F : Type) [LinearOrderedField F] (n : Nat) : Graph F n :=
  fun i => cleanNode ⟨(i.val : F), 0, 0⟩ (lineNeighbours n i) 0

/-- The summed straight-line lengths of the steps of a path. -/
def pathCost (W : World F) (g : Graph F n) : List (Fin n) → F
  | [] => 0
  | [_] => 0
  | a :: b :: rest => estimateCostToGoal W g a b + pathCost W g (b :: rest)

/-- The search on the line graph of `n` nodes from node 0, at the head of the
main loop with node `k` alone on the open list: nodes below `k` are closed,
nodes above `k` are untouched, and every node from 1 to `k` has its left
neighbour as parent. -/
structure LineInv (n k : Nat) (s : Search F n) : Prop where
  static : ∀ v, (s.graph v).SameStatic (lineGraph F n v)
  queue : s.openList.map Fin.val = [k]
  root : ∀ v : Fin n, v.val = 0 → (s.graph v).mParent = none
  parent : ∀ v : Fin n, 0 < v.val → v.val ≤ k →
    ∃ p : Fin n, (s.graph v).mParent = some p ∧ p.val + 1 = v.val
  closed : ∀ v : Fin n, v.val < k → (s.graph v).mClosed = true
  fresh : ∀ v : Fin n, k < v.val → (s.graph v).mOpen = false ∧ (s.graph v).mClosed = false
  current : ∀ v : Fin n, v.val = k → (s.graph v).mClosed = false

/-- The largest `k` at most `bound` with `k * k ≤ x`. -/
def natSqrt (x : Nat) : Nat → Nat
  | 0 => 0
  | k + 1 => if (k + 1) * (k + 1) ≤ x then k + 1 else natSqrt x k

/-- A square root on the rationals, exact on squares of rationals. -/
def ratSqrt (x : ℚ) : ℚ :=
  (natSqrt x.num.toNat x.num.toNat : ℚ) / (natSqrt x.den x.den : ℚ)

/-- A sample world over the rationals in which no segment is obstructed. -/
def sampleWorld : World ℚ :=
  { mSqrt := ratSqrt
    mRadToDeg := fun r => r * 180 * 113 / 355
    castRay := fun _ _ => false
    IAIPATHGLOBAL_MOVE_MODIFIER_UNTRAVERSAL := 1000
    IAIPATHGLOBAL_MAX_SMOOTHED_SLOPE := 4
    IAIPATHGLOBAL_PATH_SMOOTH_ANGLE_THRESHOLD := 45
    IAIPATHGLOBAL_NODE_CLEARANCE := ⟨0, 0, 1 / 2⟩ }

/-- The sample world with every segment obstructed. -/
def blockedWorld : World ℚ := { sampleWorld with castRay := fun _ _ => true }

/-- The sample world with one obstruction: the ray cast reports a hit exactly
for segments that run from `x = 1` to `x = 3`. -/
def pillarWorld : World ℚ :=
  { sampleWorld with castRay := fun p q => decide (p.x = 1 ∧ q.x = 3) }

/-- Two nodes without neighbours. -/
def isolatedGraph : Graph ℚ 2 := fun i => cleanNode ⟨(i.val : ℚ), 0, 0⟩ [] 0

/-- A graph state in which node 1 is queued: node 0 is closed, node 1 is open
with parent none and a lowest cost of 5, both at unit distance. -/
def relaxGraph : Graph ℚ 2 := fun i =>
  if i = 0 then
    { cleanNode ⟨0, 0, 0⟩ [1] 0 with mClosed := true }
  else
    { cleanNode ⟨1, 0, 0⟩ [0] 0 with mOpen := true, mLowestCostFromStart := 5, mFitness := 7 }

/-- A search state over `relaxGraph` with node 1 on the open list. -/
def relaxState : Search ℚ 2 :=
  { graph := relaxGraph, openList := [1], affectedList := [0, 1] }

/-! ### Points of the search loop -/

/-- Where the search of lines 53-149 stands: at the test of the `while` loop
(line 53), inside the `for` loop over the neighbours of `cur` with `rest`
still to visit (line 69), or at the taken goal test (line 116). -/
inductive LoopPos (n : Nat) where
  | head : LoopPos n
  | inside (cur : Fin n) (rest : List (Fin n)) : LoopPos n
  | found : LoopPos n

/-- A point of the search: the state and the position in the loop. -/
structure Config (F : Type) (n : Nat) where
  state : Search F n
  pos : LoopPos n

/-- One step between two points of the search loop: `pop` is lines 56-66 (any
heap tie-break `t`), `visit` is one neighbour through lines 71-116, `next` is
the end of the `for` loop. No step leaves the taken goal test. -/
inductive SearchStep (W : World F) (goal : Fin n) : Config F n → Config F n → Prop
  | pop (s : Search F n) (t : Nat) (cur : Fin n) :
      0 < s.openList.length → heapFront t s.graph s.openList = some cur →
      SearchStep W goal { state := s, pos := .head }
        { state := closeFront s cur
          pos := .inside cur ((closeFront s cur).graph cur).mNeighbours }
  | visit (s : Search F n) (cur nb : Fin n) (rest : List (Fin n)) :
      SearchStep W goal { state := s, pos := .inside cur (nb :: rest) }
        { state := (visitNeighbour W goal cur s nb).1
          pos := if (visitNeighbour W goal cur s nb).2 = true then .found
            else .inside cur rest }
  | next (s : Search F n) (cur : Fin n) :
      SearchStep W goal { state := s, pos := .inside cur [] } { state := s, pos := .head }

/-- The point after the seed of lines 47-50. -/
def seedPoint (W : World F) (g : Graph F n) (start goal : Fin n) : Config F n :=
  { state := seed W g start goal, pos := .head }

/-- The points of a search from `g`: those reached from the seed by steps. -/
def SearchPoint (W : World F) (g : Graph F n) (start goal : Fin n) (c : Config F n) : Prop :=
  Relation.ReflTransGen (SearchStep W goal) (seedPoint W g start goal) c

/-- Node `v` has its open or its closed flag set. -/
def Flagged (g : Graph F n) (v : Fin n) : Prop :=
  (g v).mOpen = true ∨ (g v).mClosed = true

/-- The flag invariant of the points of a search from the clean graph `g`. -/
structure FlagInv (W : World F) (g : Graph F n) (start goal : Fin n) (c : Config F n) :
    Prop where
  static : ∀ v, (c.state.graph v).SameStatic (g v)
  noBoth : ∀ v, (c.state.graph v).mOpen = true → (c.state.graph v).mClosed = false
  queued : ∀ v, v ∈ c.state.openList ↔ (c.state.graph v).mOpen = true
  nodup : c.state.openList.Nodup
  closedAffected : ∀ v, (c.state.graph v).mClosed = true → v ∈ c.state.affectedList
  affected : ∀ v ∈ c.state.affectedList,
    (g v).mMoveModifier < W.IAIPATHGLOBAL_MOVE_MODIFIER_UNTRAVERSAL → Flagged c.state.graph v
  startFlagged : Flagged c.state.graph start
  blocked : ∀ v, v ≠ start →
    W.IAIPATHGLOBAL_MOVE_MODIFIER_UNTRAVERSAL ≤ (g v).mMoveModifier → ¬ Flagged c.state.graph v
  fresh : ∀ v, ¬ Flagged c.state.graph v → c.state.graph v = g v
  goalFresh : goal ≠ start → c.pos ≠ .found → ¬ Flagged c.state.graph goal
  expanded : ∀ p, (c.state.graph p).mClosed = true → ∀ q ∈ (g p).mNeighbours,
    (g q).mMoveModifier < W.IAIPATHGLOBAL_MOVE_MODIFIER_UNTRAVERSAL →
    Flagged c.state.graph q ∨ c.pos = .found ∨ ∃ rest, c.pos = .inside p rest ∧ q ∈ rest
  inside : ∀ cur rest, c.pos = .inside cur rest →
    (c.state.graph cur).mClosed = true ∧ ∀ q ∈ rest, q ∈ (g cur).mNeighbours

/-- Two nodes: node 0 lists node 1 as its neighbour, and node 1 carries the
move modifier 1000, the untraversable mark of `sampleWorld`. -/
def wallGraph : Graph ℚ 2 := fun i =>
  if i = 0 then cleanNode ⟨0, 0, 0⟩ [1] 0 else cleanNode ⟨1, 0, 0⟩ [0] 1000

/-- The point of the search from node 0 to node 1 on `wallGraph` after node 0
was popped and its neighbour 1 was visited. -/
def wallPoint : Config ℚ 2 :=
  { state := (visitNeighbour sampleWorld 1 0 (closeFront (seed sampleWorld wallGraph 0 1) 0) 1).1
    pos := .inside 0 [] }

/-- The point of the search from node 0 to node 1 on the two-node line after
node 0 was popped and its neighbour 1, the goal, was visited. -/
def linePoint : Config ℚ 2 :=
  { state :=
      (visitNeighbour sampleWorld 1 0 (closeFront (seed sampleWorld (lineGraph ℚ 2) 0 1) 0) 1).1
    pos := .found }

end Defs

/-! ## Basic facts -/

section Basic

variable {F : Type} [LinearOrderedField F] {n : Nat}

@[simp] theorem setNode_same (g : Graph F n) (v : Fin n) (nd : PathNode F n) :
    setNode g v nd v = nd := by
  simp [setNode]

theorem setNode_other (g : Graph F n) {v w : Fin n} (nd : PathNode F n) (h : w ≠ v) :
    setNode g v nd w = g w := by
  simp [setNode, h]

theorem setNode_apply (g : Graph F n) (v w : Fin n) (nd : PathNode F n) :
    setNode g v nd w = if w = v then nd else g w := rfl

theorem PathNode.reset_reset (nd : PathNode F n) : nd.reset.reset = nd.reset := rfl

theorem resetNode_apply (g : Graph F n) (v w : Fin n) :
    resetNode g v w = if w = v then (g v).reset else g w := rfl

theorem resetNodeVariables_apply (l : List (Fin n)) (g : Graph F n) (w : Fin n) :
    resetNodeVariables g l w = if w ∈ l then (g w).reset else g w := by
  induction l generalizing g with
  | nil => simp [resetNodeVariables]
  | cons a t ih =>
    have h := ih (resetNode g a)
    simp only [resetNodeVariables, List.foldl_cons] at h ⊢
    rw [h, resetNode_apply]
    by_cases hwa : w = a
    · subst hwa
      simp [PathNode.reset_reset]
    · simp [hwa]

theorem PathNode.reset_eq_of_default {a b : PathNode F n} (hs : a.SameStatic b)
    (hb : b.IsDefault) : a.reset = b := by
  obtain ⟨h1, h2, h3⟩ := hs
  obtain ⟨d1, d2, d3, d4, d5, d6⟩ := hb
  cases a
  cases b
  simp only [PathNode.reset] at *
  simp_all

theorem pathNodeFitnessCompare_nonneg (g : Graph F n) (a b : Fin n) :
    0 ≤ pathNodeFitnessCompare g a b ↔ (g b).mFitness ≤ (g a).mFitness := by
  unfold pathNodeFitnessCompare
  simp only
  by_cases h1 : (g a).mFitness - (g b).mFitness < 0
  · rw [if_pos h1]
    constructor
    · intro h
      omega
    · intro h
      linarith
  · rw [if_neg h1]
    have h2 : (g b).mFitness ≤ (g a).mFitness := by linarith
    simp only [h2, iff_true]
    split_ifs <;> omega

theorem frontCandidates_ne_nil (g : Graph F n) {items : List (Fin n)} (h : items ≠ []) :
    frontCandidates g items ≠ [] := by
  have hne : items.toFinset.Nonempty := by
    obtain ⟨a, ha⟩ := List.exists_mem_of_ne_nil items h
    exact ⟨a, List.mem_toFinset.mpr ha⟩
  obtain ⟨v, hv, hmin⟩ := items.toFinset.exists_min_image (fun v => (g v).mFitness) hne
  have hv1 : v ∈ items := List.mem_toFinset.mp hv
  have : v ∈ frontCandidates g items := by
    unfold frontCandidates
    rw [List.mem_filter]
    refine ⟨hv1, ?_⟩
    rw [List.all_eq_true]
    intro w hw
    rw [decide_eq_true_eq, pathNodeFitnessCompare_nonneg]
    exact hmin w (List.mem_toFinset.mpr hw)
  exact List.ne_nil_of_mem this

theorem heapFront_mem (t : Nat) (g : Graph F n) {items : List (Fin n)} (h : items ≠ []) :
    ∃ cur, heapFront t g items = some cur ∧ cur ∈ items := by
  have hc := frontCandidates_ne_nil g h
  have hlen : 0 < (frontCandidates g items).length := List.length_pos.mpr hc
  have hlt : t % (frontCandidates g items).length < (frontCandidates g items).length :=
    Nat.mod_lt _ hlen
  refine ⟨(frontCandidates g items).get ⟨_, hlt⟩, ?_, ?_⟩
  · unfold heapFront
    simp only
    exact List.get?_eq_get hlt
  · have hm : (frontCandidates g items).get ⟨_, hlt⟩ ∈ frontCandidates g items :=
      List.get_mem _ _ _
    unfold frontCandidates at hm
    exact (List.mem_filter.mp hm).1

theorem heapFront_singleton (t : Nat) (g : Graph F n) (v : Fin n) :
    heapFront t g [v] = some v := by
  obtain ⟨cur, h1, h2⟩ := heapFront_mem t g (List.cons_ne_nil v [])
  rw [h1]
  simp only [List.mem_singleton] at h2
  rw [h2]

theorem IsTrace_congr {g g1 : Graph F n} {rl : List (Fin n)}
    (h : ∀ u ∈ rl, (g1 u).mParent = (g u).mParent) :
    ∀ o, IsTrace g o rl → IsTrace g1 o rl := by
  induction rl with
  | nil => intro o ho; exact ho
  | cons v rest ih =>
    intro o ho
    obtain ⟨h1, h2⟩ := ho
    refine ⟨h1, ?_⟩
    rw [h v (List.mem_cons_self v rest)]
    exact ih (fun u hu => h u (List.mem_cons_of_mem v hu)) _ h2

theorem ne_of_closed {g : Graph F n} {u nb : Fin n} (hu : (g u).mClosed = true)
    (hnb : (g nb).mClosed = false) : u ≠ nb := by
  intro h
  rw [h, hnb] at hu
  exact Bool.noConfusion hu

theorem openCount_le (g : Graph F n) : openCount g ≤ n := by
  unfold openCount
  calc (Finset.univ.filter (fun v => (g v).mClosed = false)).card
      ≤ (Finset.univ : Finset (Fin n)).card := Finset.card_filter_le _ _
    _ = n := by simp

theorem openCount_pos {g : Graph F n} {v : Fin n} (h : (g v).mClosed = false) :
    0 < openCount g := by
  unfold openCount
  apply Finset.card_pos.mpr
  exact ⟨v, Finset.mem_filter.mpr ⟨Finset.mem_univ v, h⟩⟩

theorem openCount_congr {g g1 : Graph F n} (h : ∀ v, (g1 v).mClosed = (g v).mClosed) :
    openCount g1 = openCount g := by
  unfold openCount
  congr 1
  ext v
  simp [h v]

theorem openCount_setNode_keep (g : Graph F n) (v : Fin n) (nd : PathNode F n)
    (h : nd.mClosed = (g v).mClosed) : openCount (setNode g v nd) = openCount g := by
  apply openCount_congr
  intro w
  by_cases hw : w = v
  · subst hw
    simp [h]
  · rw [setNode_other g nd hw]

theorem openCount_setNode_close (g : Graph F n) (v : Fin n) (nd : PathNode F n)
    (hold : (g v).mClosed = false) (hnew : nd.mClosed = true) :
    openCount (setNode g v nd) + 1 = openCount g := by
  unfold openCount
  have hsub : Finset.univ.filter (fun w => (setNode g v nd w).mClosed = false) =
      (Finset.univ.filter (fun w => (g w).mClosed = false)).erase v := by
    ext w
    simp only [Finset.mem_filter, Finset.mem_univ, true_and, Finset.mem_erase]
    by_cases hw : w = v
    · subst hw
      simp [hnew]
    · rw [setNode_other g nd hw]
      simp [hw]
  rw [hsub]
  apply Finset.card_erase_add_one
  exact Finset.mem_filter.mpr ⟨Finset.mem_univ v, hold⟩

theorem openCount_clean {g : Graph F n} (h : IsClean g) : openCount g = n := by
  unfold openCount
  have : Finset.univ.filter (fun v => (g v).mClosed = false) = Finset.univ := by
    ext v
    simp [(h v).2.2.2.2.2]
  rw [this]
  simp

end Basic

/-! ## The search invariant -/

section Invariant

variable {F : Type} [LinearOrderedField F] {n : Nat}
variable {W : World F} {g0 : Graph F n} {start : Fin n}

/-- A write to a node that is not closed, which keeps its static fields and
its closed flag, leaves it open and gives it a closed parent along an edge,
keeps the invariant; the node may be appended to the open list when it was
not open. -/
theorem inv_update {s : Search F n} (hinv : Inv W g0 start s) {nb : Fin n}
    {nd : PathNode F n} {ol : List (Fin n)}
    (hnc : (s.graph nb).mClosed = false)
    (hst : nd.SameStatic (s.graph nb))
    (hc : nd.mClosed = false) (ho : nd.mOpen = true)
    (hp : ∃ p, nd.mParent = some p ∧ (s.graph p).mClosed = true ∧ Edge W g0 p nb)
    (hol : ol = s.openList ∨ (ol = s.openList ++ [nb] ∧ (s.graph nb).mOpen = false)) :
    Inv W g0 start
      { graph := setNode s.graph nb nd, openList := ol,
        affectedList := s.affectedList ++ [nb] } := by
  have hkeep : ∀ u, (s.graph u).mClosed = true → setNode s.graph nb nd u = s.graph u :=
    fun u hu => setNode_other _ _ (ne_of_closed hu hnc)
  have hcount : openCount (setNode s.graph nb nd) = openCount s.graph :=
    openCount_setNode_keep _ _ _ (by rw [hc, hnc])
  constructor
  · intro v
    simp only
    by_cases hv : v = nb
    · subst hv
      rw [setNode_same]
      obtain ⟨a, b, c⟩ := hst
      obtain ⟨a1, b1, c1⟩ := hinv.static v
      exact ⟨a.trans a1, b.trans b1, c.trans c1⟩
    · rw [setNode_other _ _ hv]
      exact hinv.static v
  · intro v
    simp only
    by_cases hv : v = nb
    · left
      subst hv
      simp
    · rcases hinv.touched v with h | h
      · left
        exact List.mem_append_left _ h
      · right
        rw [setNode_other _ _ hv]
        exact h
  · simp only
    rcases hol with h | ⟨h, hno⟩
    · rw [h]
      exact hinv.nodup
    · rw [h]
      apply List.Nodup.append hinv.nodup (List.nodup_singleton nb)
      intro a ha hb
      simp only [List.mem_singleton] at hb
      subst hb
      have := (hinv.queued a ha).1
      rw [hno] at this
      exact Bool.noConfusion this
  · intro v hv
    simp only at hv ⊢
    by_cases hvn : v = nb
    · subst hvn
      rw [setNode_same]
      exact ⟨ho, hc⟩
    · rw [setNode_other _ _ hvn]
      apply hinv.queued
      rcases hol with h | ⟨h, _⟩
      · rw [h] at hv
        exact hv
      · rw [h] at hv
        rcases List.mem_append.mp hv with h1 | h1
        · exact h1
        · exact absurd (List.mem_singleton.mp h1) hvn
  · simp only
    rw [hkeep start hinv.startClosed]
    exact hinv.startClosed
  · simp only
    rw [hkeep start hinv.startClosed]
    exact hinv.startRoot
  · intro v hvs hflag
    simp only at hflag ⊢
    by_cases hvn : v = nb
    · subst hvn
      rw [setNode_same]
      obtain ⟨p, hp1, hp2, hp3⟩ := hp
      exact ⟨p, hp1, by rw [hkeep p hp2]; exact hp2, hp3⟩
    · rw [setNode_other _ _ hvn] at hflag ⊢
      obtain ⟨p, hp1, hp2, hp3⟩ := hinv.parentOf v hvs hflag
      exact ⟨p, hp1, by rw [hkeep p hp2]; exact hp2, hp3⟩
  · intro v hv
    simp only at hv ⊢
    have hvn : v ≠ nb := by
      intro h
      subst h
      rw [setNode_same, hc] at hv
      exact Bool.noConfusion hv
    rw [setNode_other _ _ hvn] at hv
    obtain ⟨rl, h1, h2, h3⟩ := hinv.chains v hv
    refine ⟨rl, ?_, ?_, ?_⟩
    · exact IsTrace_congr (fun u hu => by rw [hkeep u (h2 u hu)]) _ h1
    · intro u hu
      rw [hkeep u (h2 u hu)]
      exact h2 u hu
    · rw [hcount]
      exact h3

theorem inv_affected {s : Search F n} (hinv : Inv W g0 start s) (nb : Fin n) :
    Inv W g0 start { s with affectedList := s.affectedList ++ [nb] } := by
  constructor
  · exact hinv.static
  · intro v
    rcases hinv.touched v with h | h
    · left
      exact List.mem_append_left _ h
    · right
      exact h
  · exact hinv.nodup
  · exact hinv.queued
  · exact hinv.startClosed
  · exact hinv.startRoot
  · exact hinv.parentOf
  · exact hinv.chains

/-- What one pass of the neighbour loop body keeps and establishes. -/
theorem visitNeighbour_spec {s : Search F n} (hinv : Inv W g0 start s) {cur nb : Fin n}
    (goal : Fin n) (hcur : (s.graph cur).mClosed = true) (hnb : nb ∈ (g0 cur).mNeighbours) :
    Inv W g0 start (visitNeighbour W goal cur s nb).1 ∧
    openCount (visitNeighbour W goal cur s nb).1.graph = openCount s.graph ∧
    ((visitNeighbour W goal cur s nb).1.graph cur).mClosed = true ∧
    ((visitNeighbour W goal cur s nb).2 = true →
      ((visitNeighbour W goal cur s nb).1.graph goal).mOpen = true ∧
      ((visitNeighbour W goal cur s nb).1.graph goal).mClosed = false) := by
  unfold visitNeighbour
  simp only
  by_cases h1 : (s.graph nb).mClosed = true ∨
      W.IAIPATHGLOBAL_MOVE_MODIFIER_UNTRAVERSAL ≤ (s.graph nb).mMoveModifier
  · rw [if_pos h1]
    refine ⟨inv_affected hinv nb, rfl, hcur, ?_⟩
    intro h
    exact Bool.noConfusion h
  · rw [if_neg h1]
    have hnc : (s.graph nb).mClosed = false := by
      cases hb : (s.graph nb).mClosed
      · rfl
      · exact absurd (Or.inl hb) h1
    have hmod : (g0 nb).mMoveModifier < W.IAIPATHGLOBAL_MOVE_MODIFIER_UNTRAVERSAL := by
      rw [← (hinv.static nb).2.2]
      exact lt_of_not_le (fun h => h1 (Or.inr h))
    have hedge : Edge W g0 cur nb := ⟨hnb, hmod⟩
    have hcn : cur ≠ nb := ne_of_closed hcur hnc
    by_cases h2 : (s.graph nb).mOpen = false
    · rw [if_pos h2]
      refine ⟨?_, ?_, ?_, ?_⟩
      · exact inv_update hinv hnc ⟨rfl, rfl, rfl⟩ hnc rfl ⟨cur, rfl, hcur, hedge⟩
          (Or.inr ⟨rfl, h2⟩)
      · exact openCount_setNode_keep _ _ _ rfl
      · simp only
        rw [setNode_other _ _ hcn]
        exact hcur
      · intro h
        simp only [decide_eq_true_eq] at h
        subst h
        refine ⟨?_, ?_⟩
        · simp
        · simp [hnc]
    · rw [if_neg h2]
      have hopen : (s.graph nb).mOpen = true := by
        cases hb : (s.graph nb).mOpen
        · exact absurd hb h2
        · rfl
      have hns : nb ≠ start := (ne_of_closed hinv.startClosed hnc).symm
      obtain ⟨p, hp1, hp2, hp3⟩ := hinv.parentOf nb hns (Or.inl hopen)
      refine ⟨?_, ?_, ?_, ?_⟩
      · apply inv_update hinv hnc _ rfl _ _ (Or.inl rfl)
        · split_ifs <;> exact ⟨rfl, rfl, rfl⟩
        · simp only
          split_ifs <;> exact hopen
        · simp only
          split_ifs
          · exact ⟨cur, rfl, hcur, hedge⟩
          · exact ⟨p, hp1, hp2, hp3⟩
      · exact openCount_setNode_keep _ _ _ (by rw [hnc])
      · simp only
        rw [setNode_other _ _ hcn]
        exact hcur
      · intro h
        simp only [decide_eq_true_eq] at h
        subst h
        refine ⟨?_, ?_⟩
        · simp only [setNode_same]
          split_ifs <;> simp [hopen]
        · simp

/-- What the neighbour loop keeps and establishes. -/
theorem neighbourLoop_spec (goal cur : Fin n) :
    ∀ (nbs : List (Fin n)) (s : Search F n), Inv W g0 start s →
      (s.graph cur).mClosed = true → (∀ nb ∈ nbs, nb ∈ (g0 cur).mNeighbours) →
      Inv W g0 start (neighbourLoop W goal cur nbs s).1 ∧
      openCount (neighbourLoop W goal cur nbs s).1.graph = openCount s.graph ∧
      ((neighbourLoop W goal cur nbs s).2 = true →
        ((neighbourLoop W goal cur nbs s).1.graph goal).mOpen = true ∧
        ((neighbourLoop W goal cur nbs s).1.graph goal).mClosed = false) := by
  intro nbs
  induction nbs with
  | nil =>
    intro s hinv _ _
    refine ⟨hinv, rfl, ?_⟩
    intro h
    exact Bool.noConfusion h
  | cons nb rest ih =>
    intro s hinv hcur hsub
    obtain ⟨v1, v2, v3, v4⟩ :=
      visitNeighbour_spec hinv goal hcur (hsub nb (List.mem_cons_self nb rest))
    unfold neighbourLoop
    rcases hv : visitNeighbour W goal cur s nb with ⟨s1, flag⟩
    rw [hv] at v1 v2 v3 v4
    cases flag
    · simp only
      obtain ⟨i1, i2, i3⟩ := ih s1 v1 v3 (fun x hx => hsub x (List.mem_cons_of_mem nb hx))
      exact ⟨i1, i2.trans v2, i3⟩
    · simp only
      exact ⟨v1, v2, fun _ => v4 rfl⟩

/-- Popping a queued node and closing it keeps the invariant and lowers the
number of unclosed nodes by one. -/
theorem inv_closeFront {s : Search F n} (hinv : Inv W g0 start s) {cur : Fin n}
    (hmem : cur ∈ s.openList) :
    Inv W g0 start (closeFront s cur) ∧
    openCount (closeFront s cur).graph + 1 = openCount s.graph ∧
    ((closeFront s cur).graph cur).mClosed = true := by
  obtain ⟨hopen, hnc⟩ := hinv.queued cur hmem
  have hcs : cur ≠ start := (ne_of_closed hinv.startClosed hnc).symm
  have hkeep : ∀ (nd : PathNode F n) (u : Fin n), (s.graph u).mClosed = true →
      setNode s.graph cur nd u = s.graph u :=
    fun nd u hu => setNode_other _ _ (ne_of_closed hu hnc)
  have hclosed : ∀ (nd : PathNode F n) (u : Fin n), (s.graph u).mClosed = true →
      (setNode s.graph cur nd u).mClosed = true := by
    intro nd u hu
    rw [hkeep nd u hu]
    exact hu
  refine ⟨?_, openCount_setNode_close _ _ _ hnc rfl, ?_⟩
  · unfold closeFront
    constructor
    · intro v
      simp only
      by_cases hv : v = cur
      · subst hv
        rw [setNode_same]
        exact hinv.static v
      · rw [setNode_other _ _ hv]
        exact hinv.static v
    · intro v
      simp only
      by_cases hv : v = cur
      · left
        subst hv
        simp
      · rcases hinv.touched v with h | h
        · left
          exact List.mem_append_left _ h
        · right
          rw [setNode_other _ _ hv]
          exact h
    · exact hinv.nodup.erase cur
    · intro v hv
      simp only [heapPop] at hv
      rw [hinv.nodup.mem_erase_iff] at hv
      simp only
      rw [setNode_other _ _ hv.1]
      exact hinv.queued v hv.2
    · exact hclosed _ start hinv.startClosed
    · simp only
      rw [hkeep _ start hinv.startClosed]
      exact hinv.startRoot
    · intro v hvs hflag
      simp only at hflag ⊢
      by_cases hv : v = cur
      · subst hv
        rw [setNode_same]
        obtain ⟨p, hp1, hp2, hp3⟩ := hinv.parentOf v hvs (Or.inl hopen)
        exact ⟨p, hp1, hclosed _ p hp2, hp3⟩
      · rw [setNode_other _ _ hv] at hflag ⊢
        obtain ⟨p, hp1, hp2, hp3⟩ := hinv.parentOf v hvs hflag
        exact ⟨p, hp1, hclosed _ p hp2, hp3⟩
    · intro v hv
      simp only at hv ⊢
      by_cases hvc : v = cur
      · subst hvc
        obtain ⟨p, hp1, hp2, _⟩ := hinv.parentOf v hcs (Or.inl hopen)
        obtain ⟨rl, h1, h2, h3⟩ := hinv.chains p hp2
        refine ⟨v :: rl, ⟨rfl, ?_⟩, ?_, ?_⟩
        · rw [setNode_same]
          simp only
          rw [hp1]
          exact IsTrace_congr (fun u hu => by rw [hkeep _ u (h2 u hu)]) _ h1
        · intro u hu
          rcases List.mem_cons.mp hu with h | h
          · rw [h, setNode_same]
          · exact hclosed _ u (h2 u h)
        · have hcount := openCount_setNode_close s.graph v
            { s.graph v with mOpen := false, mClosed := true } hnc rfl
          simp only at hcount
          simp only [List.length_cons]
          omega
      · rw [setNode_other _ _ hvc] at hv
        obtain ⟨rl, h1, h2, h3⟩ := hinv.chains v hv
        refine ⟨rl, ?_, ?_, ?_⟩
        · exact IsTrace_congr (fun u hu => by rw [hkeep _ u (h2 u hu)]) _ h1
        · intro u hu
          exact hclosed _ u (h2 u hu)
        · have hcount := openCount_setNode_close s.graph cur
            { s.graph cur with mOpen := false, mClosed := true } hnc rfl
          simp only at hcount
          omega
  · unfold closeFront
    simp

/-- The main loop, from a state that satisfies the invariant and with fuel for
every node that is not closed yet, returns; the invariant holds in the final
state, and when the goal test succeeded the goal is open and not closed. -/
theorem searchLoop_spec (goal : Fin n) :
    ∀ (fuel : Nat) (tie : Nat → Nat) (s : Search F n), Inv W g0 start s →
      openCount s.graph ≤ fuel →
      ∃ s1 hit, searchLoop W goal fuel tie s = .ok (s1, hit) ∧ Inv W g0 start s1 ∧
        (hit = true → (s1.graph goal).mOpen = true ∧ (s1.graph goal).mClosed = false) := by
  intro fuel
  induction fuel with
  | zero =>
    intro tie s hinv hfuel
    have hempty : s.openList = [] := by
      rcases hl : s.openList with _ | ⟨a, t⟩
      · rfl
      · have ha : a ∈ s.openList := by rw [hl]; exact List.mem_cons_self a t
        have := openCount_pos (hinv.queued a ha).2
        omega
    refine ⟨s, false, ?_, hinv, ?_⟩
    · unfold searchLoop
      simp [hempty]
    · intro h
      exact Bool.noConfusion h
  | succ fuel ih =>
    intro tie s hinv hfuel
    unfold searchLoop
    by_cases hlen : 0 < s.openList.length
    · rw [if_pos hlen]
      obtain ⟨cur, hf, hmem⟩ := heapFront_mem (tie 0) s.graph (List.length_pos.mp hlen)
      rw [hf]
      simp only
      obtain ⟨c1, c2, c3⟩ := inv_closeFront hinv hmem
      have hnbs : ∀ nb ∈ ((closeFront s cur).graph cur).mNeighbours,
          nb ∈ (g0 cur).mNeighbours := by
        intro nb h
        rw [(c1.static cur).2.1] at h
        exact h
      obtain ⟨l1, l2, l3⟩ := neighbourLoop_spec goal cur _ _ c1 c3 hnbs
      rcases hloop : neighbourLoop W goal cur ((closeFront s cur).graph cur).mNeighbours
        (closeFront s cur) with ⟨s2, flag⟩
      rw [hloop] at l1 l2 l3
      cases flag
      · simp only
        apply ih _ s2 l1
        simp only at l2
        omega
      · simp only
        exact ⟨s2, true, rfl, l1, l3⟩
    · rw [if_neg hlen]
      refine ⟨s, false, rfl, hinv, ?_⟩
      intro h
      exact Bool.noConfusion h

/-- After the seed and the first pop of a call on a clean graph the invariant
holds. -/
theorem inv_first (W : World F) {g : Graph F n} (hclean : IsClean g) (start goal : Fin n) :
    Inv W g start (closeFront (seed W g start goal) start) ∧
    openCount (closeFront (seed W g start goal) start).graph + 1 = n ∧
    ((closeFront (seed W g start goal) start).graph start).mClosed = true := by
  have hother : ∀ v, v ≠ start → (closeFront (seed W g start goal) start).graph v = g v := by
    intro v hv
    simp only [closeFront, seed]
    rw [setNode_other _ _ hv, setNode_other _ _ hv]
  have hcl : ((closeFront (seed W g start goal) start).graph start).mClosed = true := by
    simp [closeFront]
  have hpar : ((closeFront (seed W g start goal) start).graph start).mParent = none := by
    simp only [closeFront, seed, setNode_same]
    exact (hclean start).2.2.2.1
  have hcount : openCount (closeFront (seed W g start goal) start).graph + 1 = n := by
    have h1 : openCount (seed W g start goal).graph = openCount g := by
      simp only [seed]
      exact openCount_setNode_keep _ _ _ rfl
    have h2 : openCount (closeFront (seed W g start goal) start).graph + 1 =
        openCount (seed W g start goal).graph := by
      simp only [closeFront]
      apply openCount_setNode_close
      · simp only [seed, setNode_same]
        exact (hclean start).2.2.2.2.2
      · rfl
    rw [h2, h1, openCount_clean hclean]
  have hflags : ∀ v, v ≠ start →
      ((closeFront (seed W g start goal) start).graph v).mOpen = false ∧
      ((closeFront (seed W g start goal) start).graph v).mClosed = false := by
    intro v hv
    rw [hother v hv]
    exact ⟨(hclean v).2.2.2.2.1, (hclean v).2.2.2.2.2⟩
  refine ⟨?_, hcount, hcl⟩
  constructor
  · intro v
    by_cases hv : v = start
    · subst hv
      simp only [closeFront, seed, setNode_same]
      exact ⟨rfl, rfl, rfl⟩
    · rw [hother v hv]
      exact ⟨rfl, rfl, rfl⟩
  · intro v
    by_cases hv : v = start
    · left
      subst hv
      simp [closeFront, seed]
    · right
      exact hother v hv
  · simp [closeFront, seed, heapPop]
  · intro v hv
    simp [closeFront, seed, heapPop] at hv
  · exact hcl
  · exact hpar
  · intro v hvs hflag
    obtain ⟨h1, h2⟩ := hflags v hvs
    rw [h1, h2] at hflag
    rcases hflag with h | h <;> exact Bool.noConfusion h
  · intro v hv
    have hvs : v = start := by
      by_contra hne
      rw [(hflags v hne).2] at hv
      exact Bool.noConfusion hv
    subst hvs
    refine ⟨[v], ⟨rfl, ?_⟩, ?_, ?_⟩
    · rw [hpar]
      rfl
    · intro u hu
      rw [List.mem_singleton.mp hu]
      exact hcl
    · simp only [List.length_singleton]
      omega

/-- The parent walk along a trace list returns the reversed list in front of
the reply list. -/
theorem tracePath_of_isTrace (g : Graph F n) :
    ∀ (rl : List (Fin n)) (fuel : Nat) (o : Option (Fin n)) (reply : List (Fin n)),
      IsTrace g o rl → rl.length ≤ fuel →
      tracePath g fuel o reply = .ok (rl.reverse ++ reply) := by
  intro rl
  induction rl with
  | nil =>
    intro fuel o reply h _
    simp only [IsTrace] at h
    subst h
    cases fuel <;> simp [tracePath]
  | cons v rest ih =>
    intro fuel o reply h hlen
    obtain ⟨h1, h2⟩ := h
    subst h1
    cases fuel with
    | zero => simp at hlen
    | succ fuel =>
      simp only [tracePath]
      rw [ih fuel _ (v :: reply) h2 (by simpa using hlen)]
      simp

/-- A trace from a node that the search has reached is, reversed, a forward
path from the start node along traversable neighbour edges. -/
theorem pathTo_of_isTrace {s : Search F n} (hinv : Inv W g0 start s) :
    ∀ (rl : List (Fin n)) (v : Fin n), IsTrace s.graph (some v) rl →
      ((s.graph v).mOpen = true ∨ (s.graph v).mClosed = true) →
      PathTo W g0 start v rl.reverse := by
  intro rl
  induction rl with
  | nil =>
    intro v h _
    simp [IsTrace] at h
  | cons w rest ih =>
    intro v h hflag
    obtain ⟨h1, h2⟩ := h
    have hwv : v = w := Option.some.inj h1
    subst hwv
    by_cases hvs : v = start
    · subst hvs
      rw [hinv.startRoot] at h2
      cases rest with
      | nil => exact PathTo.root
      | cons x t => simp [IsTrace] at h2
    · obtain ⟨p, hp1, hp2, hp3⟩ := hinv.parentOf v hvs hflag
      rw [hp1] at h2
      have := ih p h2 (Or.inr hp2)
      rw [List.reverse_cons]
      exact PathTo.snoc this hp3

theorem PathTo.head {g : Graph F n} {v : Fin n} {l : List (Fin n)}
    (h : PathTo W g start v l) : l.head? = some start := by
  induction h with
  | root => rfl
  | snoc _ _ ih =>
    rw [List.head?_append, ih]
    rfl

theorem PathTo.last {g : Graph F n} {v : Fin n} {l : List (Fin n)}
    (h : PathTo W g start v l) : l.getLast? = some v := by
  cases h with
  | root => rfl
  | snoc _ _ => simp

theorem PathTo.chain {g : Graph F n} {v : Fin n} {l : List (Fin n)}
    (h : PathTo W g start v l) : List.Chain' (Edge W g) l := by
  induction h with
  | root => exact List.chain'_singleton _
  | @snoc p q l hp he ih =>
    apply List.Chain'.append ih (List.chain'_singleton q)
    intro x hx y hy
    rw [hp.last] at hx
    simp only [List.head?_cons, Option.mem_def, Option.some.injEq] at hx hy
    subst hx
    subst hy
    exact he

theorem PathTo.reach {g : Graph F n} {v : Fin n} {l : List (Fin n)}
    (h : PathTo W g start v l) :
    (v = start ∧ l = [start]) ∨ (Relation.TransGen (Neighbour g) start v ∧ 2 ≤ l.length) := by
  induction h with
  | root => exact Or.inl ⟨rfl, rfl⟩
  | @snoc p q l hp he ih =>
    right
    have hstep : Neighbour g p q := he.1
    rcases ih with ⟨h1, h2⟩ | ⟨h1, h2⟩
    · subst h1
      subst h2
      exact ⟨Relation.TransGen.single hstep, by simp⟩
    · exact ⟨Relation.TransGen.tail h1 hstep, by simp; omega⟩

/-- Resetting the affected list of a state that satisfies the invariant gives
back the clean graph the call started with. -/
theorem inv_reset_eq {s : Search F n} (hinv : Inv W g0 start s) (hclean : IsClean g0) :
    resetNodeVariables s.graph s.affectedList = g0 := by
  funext v
  rw [resetNodeVariables_apply]
  by_cases hv : v ∈ s.affectedList
  · rw [if_pos hv]
    exact PathNode.reset_eq_of_default (hinv.static v) (hclean v)
  · rw [if_neg hv]
    rcases hinv.touched v with h | h
    · exact absurd h hv
    · exact h

/-- The search of a call on a clean graph: with fuel for every node the main
loop returns; resetting its affected list gives back the graph; and when the
goal test succeeded the parent walk from the goal returns a forward path from
start to goal, of at most `n` nodes, in front of the reply list. -/
theorem search_core (W : World F) (tie : Nat → Nat) {fuel : Nat} {g : Graph F n}
    (start goal : Fin n) (hclean : IsClean g) (hfuel : n ≤ fuel) :
    ∃ s hit, searchLoop W goal fuel tie (seed W g start goal) = .ok (s, hit) ∧
      resetNodeVariables s.graph s.affectedList = g ∧
      (∀ v, (s.graph v).mPosition = (g v).mPosition) ∧
      (hit = true → ∃ P, PathTo W g start goal P ∧ goal ≠ start ∧ P.length ≤ n ∧
        ∀ reply, tracePath s.graph fuel (some goal) reply = .ok (P ++ reply)) := by
  have hn : 0 < n := Fin.pos start
  obtain ⟨f1, f2, f3⟩ := inv_first W hclean start goal
  have hkey : ∃ s hit, searchLoop W goal fuel tie (seed W g start goal) = .ok (s, hit) ∧
      Inv W g start s ∧
      (hit = true → (s.graph goal).mOpen = true ∧ (s.graph goal).mClosed = false) := by
    cases fuel with
    | zero => omega
    | succ fuel =>
      unfold searchLoop
      have hseed : (seed W g start goal).openList = [start] := rfl
      rw [hseed, heapFront_singleton]
      simp only [List.length_singleton, Nat.lt_one_iff, if_true]
      have hnbs : ∀ nb ∈ ((closeFront (seed W g start goal) start).graph start).mNeighbours,
          nb ∈ (g start).mNeighbours := by
        intro nb h
        rw [(f1.static start).2.1] at h
        exact h
      obtain ⟨l1, l2, l3⟩ := neighbourLoop_spec goal start _ _ f1 f3 hnbs
      rcases hloop : neighbourLoop W goal start
        ((closeFront (seed W g start goal) start).graph start).mNeighbours
        (closeFront (seed W g start goal) start) with ⟨s2, flag⟩
      rw [hloop] at l1 l2 l3
      cases flag
      · simp only
        apply searchLoop_spec goal fuel _ s2 l1
        simp only at l2
        omega
      · simp only
        exact ⟨s2, true, rfl, l1, l3⟩
  obtain ⟨s, hit, hs, hinv, hgoal⟩ := hkey
  refine ⟨s, hit, hs, inv_reset_eq hinv hclean, fun v => (hinv.static v).1, ?_⟩
  intro hhit
  obtain ⟨ho, hc⟩ := hgoal hhit
  have hgs : goal ≠ start := (ne_of_closed hinv.startClosed hc).symm
  obtain ⟨p, hp1, hp2, hp3⟩ := hinv.parentOf goal hgs (Or.inl ho)
  obtain ⟨rl, r1, r2, r3⟩ := hinv.chains p hp2
  have htrace : IsTrace s.graph (some goal) (goal :: rl) := ⟨rfl, by rw [hp1]; exact r1⟩
  have hpos := openCount_pos hc
  refine ⟨(goal :: rl).reverse, pathTo_of_isTrace hinv _ goal htrace (Or.inl ho), hgs, ?_, ?_⟩
  · simp only [List.length_reverse, List.length_cons]
    omega
  · intro reply
    apply tracePath_of_isTrace _ _ _ _ _ htrace
    simp only [List.length_cons]
    omega

end Invariant

/-! ## The smoothing loop -/

section Smoothing

variable {F : Type} [LinearOrderedField F] {n : Nat}

theorem smoothBound_le {len : Nat} (h : 2 ≤ len) : smoothBound len ≤ len - 2 := by
  unfold smoothBound
  have h1 : len + 2 ^ 32 - 2 = (len - 2) + 2 ^ 32 := by omega
  rw [h1, Nat.add_mod_right]
  exact Nat.mod_le _ _

theorem smoothBound_eq {len : Nat} (h : 2 ≤ len) (hlt : len < 2 ^ 32) :
    smoothBound len = len - 2 := by
  unfold smoothBound
  have h1 : len + 2 ^ 32 - 2 = (len - 2) + 2 ^ 32 := by omega
  rw [h1, Nat.add_mod_right]
  exact Nat.mod_eq_of_lt (by omega)

/-- One executed iteration of the smoothing loop on a list of at least two
nodes: the three reads are in range and the loop goes on by the erase
decision. -/
theorem smoothPathLoop_step (W : World F) (g : Graph F n) (fuel iter : Nat)
    (reply : List (Fin n)) (h2 : 2 ≤ reply.length) (hlt : iter < smoothBound reply.length) :
    ∃ a b c, reply.get? iter = some a ∧ reply.get? (iter + 1) = some b ∧
      reply.get? (iter + 2) = some c ∧
      smoothPathLoop W g (fuel + 1) iter reply =
        if smoothErase W g a b c = true then
          smoothPathLoop W g fuel iter (reply.eraseIdx (iter + 1))
        else smoothPathLoop W g fuel (iter + 1) reply := by
  have hb := smoothBound_le h2
  have h0 : iter < reply.length := by omega
  have h1 : iter + 1 < reply.length := by omega
  have h3 : iter + 2 < reply.length := by omega
  refine ⟨reply.get ⟨iter, h0⟩, reply.get ⟨iter + 1, h1⟩, reply.get ⟨iter + 2, h3⟩,
    List.get?_eq_get h0, List.get?_eq_get h1, List.get?_eq_get h3, ?_⟩
  rw [smoothPathLoop, if_pos hlt, List.get?_eq_get h0, List.get?_eq_get h1]
  simp only [List.get?_eq_get h3, smoothErase, Bool.and_eq_true, decide_eq_true_eq]
  by_cases hz : ((g (reply.get ⟨iter, h0⟩)).mPosition.sub
      (g (reply.get ⟨iter + 1, h1⟩)).mPosition).z *
      ((g (reply.get ⟨iter, h0⟩)).mPosition.sub (g (reply.get ⟨iter + 1, h1⟩)).mPosition).z
      < W.IAIPATHGLOBAL_MAX_SMOOTHED_SLOPE
  · simp only [hz, if_true, true_and]
  · simp only [hz, if_false, false_and]

/-- Termination and shape of the smoothing loop on a list of at least two
nodes: with fuel for the nodes ahead of the cursor it returns a sublist of the
list that keeps the elements up to the cursor and the last element. -/
theorem smoothPathLoop_spec (W : World F) (g : Graph F n) :
    ∀ (fuel iter : Nat) (reply : List (Fin n)), 2 ≤ reply.length →
      reply.length ≤ fuel + iter + 2 →
      ∃ out, smoothPathLoop W g fuel iter reply = .ok out ∧ out.Sublist reply ∧
        out.take (iter + 1) = reply.take (iter + 1) ∧ out.getLast? = reply.getLast? ∧
        2 ≤ out.length := by
  intro fuel
  induction fuel with
  | zero =>
    intro iter reply h2 hlen
    have hb := smoothBound_le h2
    have hn : ¬ iter < smoothBound reply.length := by omega
    exact ⟨reply, by rw [smoothPathLoop, if_neg hn], List.Sublist.refl _, rfl, rfl, h2⟩
  | succ fuel ih =>
    intro iter reply h2 hlen
    by_cases hlt : iter < smoothBound reply.length
    · have hb := smoothBound_le h2
      obtain ⟨a, b, c, _, _, _, hstep⟩ := smoothPathLoop_step W g fuel iter reply h2 hlt
      rw [hstep]
      by_cases he : smoothErase W g a b c = true
      · rw [if_pos he]
        have hl : (reply.eraseIdx (iter + 1)).length = reply.length - 1 :=
          List.length_eraseIdx_of_lt (by omega)
        obtain ⟨out, o1, o2, o3, o4, o5⟩ :=
          ih iter (reply.eraseIdx (iter + 1)) (by omega) (by omega)
        refine ⟨out, o1, o2.trans (List.eraseIdx_sublist _ _), ?_, ?_, o5⟩
        · rw [o3, List.eraseIdx_eq_take_drop_succ]
          rw [List.take_append_of_le_length (by rw [List.length_take]; omega)]
          rw [List.take_take]
          simp
        · rw [o4, List.eraseIdx_eq_take_drop_succ, List.getLast?_append, List.getLast?_drop]
          rw [if_neg (by omega)]
          cases hlast : reply.getLast? with
          | none =>
            rw [List.getLast?_eq_none_iff] at hlast
            rw [hlast] at h2
            simp at h2
          | some x => rfl
      · rw [if_neg he]
        obtain ⟨out, o1, o2, o3, o4, o5⟩ := ih (iter + 1) reply h2 (by omega)
        refine ⟨out, o1, o2, ?_, o4, o5⟩
        have := congrArg (List.take (iter + 1)) o3
        rw [List.take_take, List.take_take] at this
        simpa using this
    · exact ⟨reply, by rw [smoothPathLoop, if_neg hlt], List.Sublist.refl _, rfl, rfl, h2⟩

/-- The smoothing loop reads the graph only through the node positions. -/
theorem smoothPathLoop_congr (W : World F) {g g1 : Graph F n}
    (h : ∀ v, (g1 v).mPosition = (g v).mPosition) :
    ∀ (fuel iter : Nat) (reply : List (Fin n)),
      smoothPathLoop W g1 fuel iter reply = smoothPathLoop W g fuel iter reply := by
  intro fuel
  induction fuel with
  | zero =>
    intro iter reply
    simp [smoothPathLoop]
  | succ fuel ih =>
    intro iter reply
    simp only [smoothPathLoop, h, ih]

/-- Every erasure the smoothing loop makes is one the connection test allowed. -/
theorem smoothPathLoop_erases (W : World F) (g : Graph F n) :
    ∀ (fuel iter : Nat) (reply out : List (Fin n)),
      smoothPathLoop W g fuel iter reply = .ok out →
      Relation.ReflTransGen (ValidErase W g) reply out := by
  intro fuel
  induction fuel with
  | zero =>
    intro iter reply out h
    rw [smoothPathLoop] at h
    split_ifs at h
    cases h
    exact Relation.ReflTransGen.refl
  | succ fuel ih =>
    intro iter reply out h
    rw [smoothPathLoop] at h
    split_ifs at h with hlt
    · split at h
      · rename_i a b ha hb
        simp only at h
        split_ifs at h with hz
        · split at h
          · rename_i c hc
            split_ifs at h with hcond
            · exact Relation.ReflTransGen.head
                (ValidErase.erase reply iter a c ha hc hcond.2) (ih _ _ _ h)
            · exact ih _ _ _ h
          · cases h
        · exact ih _ _ _ h
      · cases h
    · cases h
      exact Relation.ReflTransGen.refl

theorem eq_ok_of_toOption {α : Type} {x : Except Fault α} {a : α}
    (h : x.toOption = some a) : x = .ok a := by
  cases x with
  | error e => cases h
  | ok b =>
    have hb : b = a := Option.some.inj h
    rw [hb]

/-- Whatever the fuel, a list the smoothing loop returns agrees with its input
up to the cursor. -/
theorem smoothPathLoop_prefix (W : World F) (g : Graph F n) :
    ∀ (fuel iter : Nat) (reply out : List (Fin n)), 2 ≤ reply.length →
      smoothPathLoop W g fuel iter reply = .ok out →
      out.take (iter + 1) = reply.take (iter + 1) := by
  intro fuel
  induction fuel with
  | zero =>
    intro iter reply out _ h
    rw [smoothPathLoop] at h
    split_ifs at h
    cases h
    rfl
  | succ fuel ih =>
    intro iter reply out h2 h
    by_cases hlt : iter < smoothBound reply.length
    · have hb := smoothBound_le h2
      obtain ⟨a, b, c, _, _, _, hstep⟩ := smoothPathLoop_step W g fuel iter reply h2 hlt
      rw [hstep] at h
      by_cases he : smoothErase W g a b c = true
      · rw [if_pos he] at h
        have hl : (reply.eraseIdx (iter + 1)).length = reply.length - 1 :=
          List.length_eraseIdx_of_lt (by omega)
        rw [ih iter _ out (by omega) h, List.eraseIdx_eq_take_drop_succ]
        rw [List.take_append_of_le_length (by rw [List.length_take]; omega)]
        rw [List.take_take]
        simp
      · rw [if_neg he] at h
        have := congrArg (List.take (iter + 1)) (ih (iter + 1) reply out h2 h)
        rw [List.take_take, List.take_take] at this
        simpa using this
    · rw [smoothPathLoop, if_neg hlt] at h
      cases h
      rfl

/-- With positive slope constant, equal heights of `a` and `b`, the angle test
passed for `a` and `c` and no obstruction, the erase decision is taken. -/
theorem smoothErase_of_flat (W : World F) (g : Graph F n) {a b c : Fin n}
    (hmax : 0 < W.IAIPATHGLOBAL_MAX_SMOOTHED_SLOPE)
    (hz : (g b).mPosition.z = (g a).mPosition.z)
    (hangle : angleInRange W (g a).mPosition (g c).mPosition = true)
    (hclear : ∀ p q, W.castRay p q = false) :
    smoothErase W g a b c = true := by
  have hconn : smoothPathConnectionValid W (g a).mPosition (g c).mPosition = true := by
    unfold smoothPathConnectionValid
    rw [hclear]
    rfl
  unfold smoothErase
  rw [hangle, hconn]
  simp [Point3F.sub, hz, hmax]

/-- The loop at cursor 0 erases the second node again and again while the
erase decision is taken, which ends with the two end nodes. -/
theorem smoothPathLoop_collapse (W : World F) (g : Graph F n) (a z : Fin n)
    (hmax : 0 < W.IAIPATHGLOBAL_MAX_SMOOTHED_SLOPE)
    (hclear : ∀ p q, W.castRay p q = false) :
    ∀ (mid : List (Fin n)) (fuel : Nat), mid.length + 2 < 2 ^ 32 → mid.length ≤ fuel →
      (∀ v ∈ mid, (g v).mPosition.z = (g a).mPosition.z) →
      (∀ v ∈ mid.tail ++ [z], angleInRange W (g a).mPosition (g v).mPosition = true) →
      smoothPathLoop W g fuel 0 (a :: (mid ++ [z])) = .ok [a, z] := by
  intro mid
  induction mid with
  | nil =>
    intro fuel _ _ _ _
    have hb : smoothBound ([a, z] : List (Fin n)).length = 0 := by
      simp only [List.length_cons, List.length_nil]
      rfl
    cases fuel <;> rw [List.nil_append, smoothPathLoop, if_neg (by rw [hb]; omega)]
  | cons b mid ih =>
    intro fuel hlen hfuel hflat hangle
    cases fuel with
    | zero => simp at hfuel
    | succ fuel =>
      have hl : (a :: (b :: mid ++ [z])).length = mid.length + 3 := by simp
      have hlt : 0 < smoothBound (a :: (b :: mid ++ [z])).length := by
        rw [hl, smoothBound_eq (by omega) (by simp only [List.length_cons] at hlen; omega)]
        omega
      obtain ⟨a1, b1, c1, ha, hb1, hc, hstep⟩ :=
        smoothPathLoop_step W g fuel 0 (a :: (b :: mid ++ [z])) (by rw [hl]; omega) hlt
      have ha1 : a1 = a := (Option.some.inj ha).symm
      have hb2 : b1 = b := (Option.some.inj hb1).symm
      subst ha1
      subst hb2
      have hcm : c1 ∈ mid ++ [z] := by
        have : (mid ++ [z]).get? 0 = some c1 := hc
        exact List.get?_mem this
      have he : smoothErase W g a1 b1 c1 = true :=
        smoothErase_of_flat W g hmax (hflat b1 (List.mem_cons_self b1 mid))
          (hangle c1 (by simpa using hcm)) hclear
      rw [hstep, if_pos he]
      have herase : (a1 :: (b1 :: mid ++ [z])).eraseIdx (0 + 1) = a1 :: (mid ++ [z]) := rfl
      rw [herase]
      apply ih fuel
      · simp only [List.length_cons] at hlen
        omega
      · simpa using hfuel
      · intro v hv
        exact hflat v (List.mem_cons_of_mem b1 hv)
      · intro v hv
        apply hangle v
        simp only [List.tail_cons]
        rcases List.mem_append.mp hv with h | h
        · exact List.mem_append_left _ (List.mem_of_mem_tail h)
        · exact List.mem_append_right _ h

/-- The smoother on a list of at least two nodes, with fuel for the nodes
between the ends: it returns a sublist with the same first and last element. -/
theorem smoothPath_spec (W : World F) (g : Graph F n) (fuel : Nat) (reply : List (Fin n))
    (h2 : 2 ≤ reply.length) (hfuel : reply.length ≤ fuel + 2) :
    ∃ out, smoothPath W g fuel reply = .ok out ∧ out.Sublist reply ∧
      out.head? = reply.head? ∧ out.getLast? = reply.getLast? ∧ 2 ≤ out.length := by
  obtain ⟨out, o1, o2, o3, o4, o5⟩ := smoothPathLoop_spec W g fuel 0 reply h2 (by omega)
  refine ⟨out, o1, o2, ?_, o4, o5⟩
  have := congrArg List.head? o3
  simpa [List.head?_take] using this

end Smoothing

/-! ## The call as a whole -/

section Call

variable {F : Type} [LinearOrderedField F] {n : Nat}

theorem PathTo.two_le {W : World F} {g : Graph F n} {start v : Fin n} {l : List (Fin n)}
    (h : PathTo W g start v l) (hv : v ≠ start) : 2 ≤ l.length := by
  rcases h.reach with ⟨h1, _⟩ | ⟨_, h2⟩
  · exact absurd h1 hv
  · exact h2

/-- A call on a clean graph with fuel for every node. Either the open list
runs empty, and the call returns false with graph and reply list as they
were; or the parent walk yields a path `P` from start to goal, and the call
returns true with the graph as it was and `P` in front of the reply list,
smoothed when asked for. Which of the two, and `P`, depend neither on the
reply list nor on the smoothing flag. -/
theorem generatePath_run (W : World F) (tie : Nat → Nat) {fuel : Nat} {g : Graph F n}
    (start goal : Fin n) (hclean : IsClean g) (hfuel : n ≤ fuel) :
    (∀ L smooth, generatePath W tie fuel g start goal L smooth =
        .ok { found := false, graph := g, replyList := L }) ∨
    (∃ P, PathTo W g start goal P ∧ goal ≠ start ∧ P.length ≤ n ∧
      ∀ L smooth, generatePath W tie fuel g start goal L smooth =
        if smooth = true then
          (smoothPath W g fuel (P ++ L)).map
            (fun l => { found := true, graph := g, replyList := l })
        else .ok { found := true, graph := g, replyList := P ++ L }) := by
  obtain ⟨s, hit, hs, hreset, hpos, hpath⟩ := search_core W tie start goal hclean hfuel
  cases hit with
  | false =>
    left
    intro L smooth
    simp only [generatePath, hs, hreset]
  | true =>
    right
    obtain ⟨P, hP, hne, hlen, htrace⟩ := hpath rfl
    refine ⟨P, hP, hne, hlen, ?_⟩
    intro L smooth
    simp only [generatePath, hs, htrace L, hreset]
    cases smooth with
    | false => simp
    | true =>
      simp only [if_true, smoothPath]
      rw [smoothPathLoop_congr W hpos]
      cases smoothPathLoop W g fuel 0 (P ++ L) <;> rfl

/-- A call on a clean graph, with fuel for every node and every element of the
reply list, returns and leaves the graph it started with. -/
theorem generatePath_total (W : World F) (tie : Nat → Nat) (fuel : Nat)
    (g : Graph F n) (start goal : Fin n) (replyList : List (Fin n)) (smooth : Bool)
    (hclean : IsClean g) (hfuel : n + replyList.length ≤ fuel) :
    ∃ r, generatePath W tie fuel g start goal replyList smooth = .ok r ∧
      r.graph = g ∧ IsClean r.graph ∧ ∀ v, (r.graph v).SameStatic (g v) := by
  have hfin : ∀ r : PathResult F n, r.graph = g →
      r.graph = g ∧ IsClean r.graph ∧ ∀ v, (r.graph v).SameStatic (g v) := by
    intro r hr
    rw [hr]
    exact ⟨rfl, hclean, fun v => ⟨rfl, rfl, rfl⟩⟩
  rcases generatePath_run W tie start goal hclean (by omega : n ≤ fuel) with
    h | ⟨P, hP, hne, hlen, h⟩
  · exact ⟨_, h replyList smooth, hfin _ rfl⟩
  · cases smooth with
    | false =>
      refine ⟨{ found := true, graph := g, replyList := P ++ replyList }, ?_, hfin _ rfl⟩
      rw [h replyList false]
      simp
    | true =>
      have h2 := hP.two_le hne
      obtain ⟨out, o1, _⟩ := smoothPathLoop_spec W g fuel 0 (P ++ replyList)
        (by rw [List.length_append]; omega) (by rw [List.length_append]; omega)
      refine ⟨{ found := true, graph := g, replyList := out }, ?_, hfin _ rfl⟩
      rw [h replyList true]
      simp only [if_true, smoothPath, o1]
      rfl

end Call

/-! ## The search on the line graph -/

section Line

variable {F : Type} [LinearOrderedField F] {n : Nat}

theorem visitNeighbour_closed (W : World F) (goal cur : Fin n) (s : Search F n) (nb : Fin n)
    (h : (s.graph nb).mClosed = true) :
    visitNeighbour W goal cur s nb =
      ({ s with affectedList := s.affectedList ++ [nb] }, false) := by
  unfold visitNeighbour
  simp only
  rw [if_pos (Or.inl h)]

theorem visitNeighbour_fresh (W : World F) (goal cur : Fin n) (s : Search F n) (nb : Fin n)
    (h1 : (s.graph nb).mClosed = false)
    (h2 : (s.graph nb).mMoveModifier < W.IAIPATHGLOBAL_MOVE_MODIFIER_UNTRAVERSAL)
    (h3 : (s.graph nb).mOpen = false) :
    ∃ nd : PathNode F n,
      visitNeighbour W goal cur s nb =
        ({ graph := setNode s.graph nb nd, openList := s.openList ++ [nb],
           affectedList := s.affectedList ++ [nb] }, decide (nb = goal)) ∧
      nd.mParent = some cur ∧ nd.SameStatic (s.graph nb) ∧ nd.mOpen = true ∧
      nd.mClosed = false := by
  have hc : ¬ ((s.graph nb).mClosed = true ∨
      W.IAIPATHGLOBAL_MOVE_MODIFIER_UNTRAVERSAL ≤ (s.graph nb).mMoveModifier) := by
    rintro (h | h)
    · rw [h1] at h
      exact Bool.noConfusion h
    · exact absurd h2 (not_lt_of_le h)
  refine ⟨{ s.graph nb with
      mParent := some cur
      mLowestCostFromStart :=
        (s.graph cur).mLowestCostFromStart + estimateCostToGoal W s.graph nb cur
      mHeuristicCostToGoal := estimateCostToGoal W s.graph nb goal
      mFitness := (s.graph cur).mLowestCostFromStart + estimateCostToGoal W s.graph nb cur +
        estimateCostToGoal W s.graph nb goal + (s.graph nb).mMoveModifier
      mOpen := true }, ?_, rfl, ⟨rfl, rfl, rfl⟩, rfl, h1⟩
  unfold visitNeighbour
  simp only
  rw [if_neg hc, if_pos h3]

theorem neighbourLoop_singleton (W : World F) (goal cur nb : Fin n) (s : Search F n) :
    neighbourLoop W goal cur [nb] s = visitNeighbour W goal cur s nb := by
  unfold neighbourLoop
  rcases visitNeighbour W goal cur s nb with ⟨s1, flag⟩
  cases flag
  · simp only [neighbourLoop]
  · rfl

theorem neighbourLoop_closed_prefix (W : World F) (goal cur : Fin n) (rest : List (Fin n)) :
    ∀ (pre : List (Fin n)) (s : Search F n), (∀ v ∈ pre, (s.graph v).mClosed = true) →
      ∃ aff, neighbourLoop W goal cur (pre ++ rest) s =
        neighbourLoop W goal cur rest { s with affectedList := aff } := by
  intro pre
  induction pre with
  | nil =>
    intro s _
    exact ⟨s.affectedList, rfl⟩
  | cons v pre ih =>
    intro s h
    obtain ⟨aff, ha⟩ := ih { s with affectedList := s.affectedList ++ [v] }
      (fun u hu => h u (List.mem_cons_of_mem v hu))
    refine ⟨aff, ?_⟩
    rw [List.cons_append, neighbourLoop, visitNeighbour_closed W goal cur s v
      (h v (List.mem_cons_self v pre))]
    exact ha

theorem lineNeighbours_split (n k : Nat) (hk0 : k < n) (hk : k + 1 < n) :
    ∃ pre : List (Fin n), lineNeighbours n ⟨k, hk0⟩ = pre ++ [⟨k + 1, hk⟩] ∧
      ∀ v ∈ pre, v.val < k := by
  by_cases h0 : 0 < k
  · refine ⟨[⟨k - 1, by omega⟩], ?_, ?_⟩
    · unfold lineNeighbours
      rw [dif_pos hk, dif_pos h0]
    · intro v hv
      rw [List.mem_singleton.mp hv]
      simp only
      omega
  · refine ⟨[], ?_, ?_⟩
    · unfold lineNeighbours
      rw [dif_pos hk, dif_neg h0]
    · intro v hv
      simp at hv

/-- One turn of the main loop on the line graph moves the single queued node
one to the right. -/
theorem lineInv_step (W : World F) (hU : 0 < W.IAIPATHGLOBAL_MOVE_MODIFIER_UNTRAVERSAL)
    (goal : Fin n) {k : Nat} {s : Search F n} (hinv : LineInv n k s) (hk0 : k < n)
    (hk : k + 1 < n) :
    ∃ s2, neighbourLoop W goal ⟨k, hk0⟩
        ((closeFront s ⟨k, hk0⟩).graph ⟨k, hk0⟩).mNeighbours
        (closeFront s ⟨k, hk0⟩) = (s2, decide ((⟨k + 1, hk⟩ : Fin n) = goal)) ∧
      LineInv n (k + 1) s2 := by
  have hq : s.openList = [⟨k, hk0⟩] := by
    have h := hinv.queue
    rcases hl : s.openList with _ | ⟨x, _ | ⟨y, t⟩⟩
    · rw [hl] at h
      simp at h
    · rw [hl] at h
      simp only [List.map_cons, List.map_nil, List.cons.injEq, and_true] at h
      congr 1
      exact Fin.ext h
    · rw [hl] at h
      simp at h
  obtain ⟨pre, hsplit, hpre⟩ := lineNeighbours_split n k hk0 hk
  have hcn : (⟨k, hk0⟩ : Fin n) ≠ ⟨k + 1, hk⟩ := by
    intro h
    have := congrArg Fin.val h
    simp at this
  have hnbs : ((closeFront s ⟨k, hk0⟩).graph ⟨k, hk0⟩).mNeighbours
      = pre ++ [⟨k + 1, hk⟩] := by
    simp only [closeFront, setNode_same]
    rw [(hinv.static _).2.1]
    exact hsplit
  have hg1 : ∀ v : Fin n, v.val ≠ k →
      (closeFront s ⟨k, hk0⟩).graph v = s.graph v := by
    intro v hv
    simp only [closeFront]
    apply setNode_other
    intro h
    exact hv (congrArg Fin.val h)
  obtain ⟨aff, hloop⟩ := neighbourLoop_closed_prefix W goal ⟨k, hk0⟩ [⟨k + 1, hk⟩] pre
    (closeFront s ⟨k, hk0⟩) (by
      intro v hv
      have hvk := hpre v hv
      rw [hg1 v (by omega)]
      exact hinv.closed v hvk)
  obtain ⟨f1, f2⟩ := hinv.fresh ⟨k + 1, hk⟩ (by simp)
  have hnew := hg1 ⟨k + 1, hk⟩ (by simp)
  obtain ⟨nd, hvisit, hpar, hst, hop, hcl⟩ := visitNeighbour_fresh W goal ⟨k, hk0⟩
    { (closeFront s ⟨k, hk0⟩) with affectedList := aff } ⟨k + 1, hk⟩
    (by simp only; rw [hnew]; exact f2)
    (by
      simp only
      rw [hnew, (hinv.static _).2.2]
      exact hU)
    (by simp only; rw [hnew]; exact f1)
  refine ⟨{ graph := setNode (closeFront s ⟨k, hk0⟩).graph ⟨k + 1, hk⟩ nd,
             openList := (closeFront s ⟨k, hk0⟩).openList ++ [⟨k + 1, hk⟩],
             affectedList := aff ++ [⟨k + 1, hk⟩] }, ?_, ?_⟩
  · rw [hnbs, hloop, neighbourLoop_singleton, hvisit]
  · have hgraph : ∀ v : Fin n, v.val ≠ k → v.val ≠ k + 1 →
        setNode (closeFront s ⟨k, hk0⟩).graph ⟨k + 1, hk⟩ nd v = s.graph v := by
      intro v h1 h2
      rw [setNode_other _ _ (fun h => h2 (congrArg Fin.val h))]
      exact hg1 v h1
    have hgk : setNode (closeFront s ⟨k, hk0⟩).graph ⟨k + 1, hk⟩ nd ⟨k, hk0⟩ =
        { s.graph ⟨k, hk0⟩ with mOpen := false, mClosed := true } := by
      rw [setNode_other _ _ hcn]
      simp only [closeFront, setNode_same]
    have hval : ∀ v : Fin n, v.val = k → v = ⟨k, hk0⟩ := fun v h => Fin.ext h
    have hval1 : ∀ v : Fin n, v.val = k + 1 → v = ⟨k + 1, hk⟩ := fun v h => Fin.ext h
    constructor
    · intro v
      simp only
      by_cases h1 : v.val = k
      · rw [hval v h1, hgk]
        exact hinv.static _
      · by_cases h2 : v.val = k + 1
        · rw [hval1 v h2, setNode_same]
          obtain ⟨a, b, c⟩ := hst
          simp only at a b c
          rw [hnew] at a b c
          obtain ⟨a1, b1, c1⟩ := hinv.static ⟨k + 1, hk⟩
          exact ⟨a.trans a1, b.trans b1, c.trans c1⟩
        · rw [hgraph v h1 h2]
          exact hinv.static v
    · simp only [closeFront, heapPop, hq]
      simp
    · intro v hv
      simp only
      by_cases h1 : v.val = k
      · rw [hval v h1, hgk]
        exact hinv.root _ (by simpa using h1 ▸ hv)
      · rw [hgraph v h1 (by omega)]
        exact hinv.root v hv
    · intro v hv hle
      simp only
      by_cases h1 : v.val = k
      · rw [hval v h1, hgk]
        exact hinv.parent _ (by simpa using h1 ▸ hv) (by simp)
      · by_cases h2 : v.val = k + 1
        · rw [hval1 v h2, setNode_same]
          exact ⟨⟨k, hk0⟩, hpar, by simp [h2]⟩
        · rw [hgraph v h1 h2]
          exact hinv.parent v hv (by omega)
    · intro v hv
      simp only
      by_cases h1 : v.val = k
      · rw [hval v h1, hgk]
      · rw [hgraph v h1 (by omega)]
        exact hinv.closed v (by omega)
    · intro v hv
      simp only
      rw [hgraph v (by omega) (by omega)]
      exact hinv.fresh v (by omega)
    · intro v hv
      simp only
      rw [hval1 v hv, setNode_same]
      exact hcl

/-- On the line graph the main loop, started with node `k` alone on the open
list and fuel for the nodes to the right of it, ends with the goal test
passed at the last node, every node having its left neighbour as parent. -/
theorem line_search (W : World F) (hU : 0 < W.IAIPATHGLOBAL_MOVE_MODIFIER_UNTRAVERSAL)
    (goal : Fin n) (hgoal : goal.val + 1 = n) :
    ∀ (fuel : Nat) (tie : Nat → Nat) (k : Nat) (s : Search F n), LineInv n k s →
      k + 1 < n → n ≤ fuel + k + 1 →
      ∃ s1, searchLoop W goal fuel tie s = .ok (s1, true) ∧
        (∀ v : Fin n, v.val = 0 → (s1.graph v).mParent = none) ∧
        (∀ v : Fin n, 0 < v.val →
          ∃ p : Fin n, (s1.graph v).mParent = some p ∧ p.val + 1 = v.val) := by
  intro fuel
  induction fuel with
  | zero =>
    intro tie k s _ hk hfuel
    omega
  | succ fuel ih =>
    intro tie k s hinv hk hfuel
    have hk0 : k < n := by omega
    have hq : s.openList = [⟨k, hk0⟩] := by
      have h := hinv.queue
      rcases hl : s.openList with _ | ⟨x, _ | ⟨y, t⟩⟩
      · rw [hl] at h
        simp at h
      · rw [hl] at h
        simp only [List.map_cons, List.map_nil, List.cons.injEq, and_true] at h
        congr 1
        exact Fin.ext h
      · rw [hl] at h
        simp at h
    obtain ⟨s2, hloop, hinv2⟩ := lineInv_step W hU goal hinv hk0 hk
    unfold searchLoop
    rw [hq, heapFront_singleton]
    simp only [List.length_singleton, Nat.lt_one_iff, if_true]
    rw [hloop]
    by_cases hg : (⟨k + 1, hk⟩ : Fin n) = goal
    · rw [decide_eq_true hg]
      simp only
      have hkg : k + 2 = n := by
        have := congrArg Fin.val hg
        simp only at this
        omega
      refine ⟨s2, rfl, hinv2.root, ?_⟩
      intro v hv
      exact hinv2.parent v hv (by omega)
    · rw [decide_eq_false hg]
      simp only
      have hkg : k + 2 < n := by
        have : k + 1 ≠ goal.val := fun h => hg (Fin.ext h)
        omega
      exact ih _ (k + 1) s2 hinv2 hkg (by omega)

/-- When every node has its left neighbour as parent, the parent walk from
node `m` visits `m, m - 1, ..., 0`. -/
theorem line_trace (g : Graph F n)
    (hroot : ∀ v : Fin n, v.val = 0 → (g v).mParent = none)
    (hparent : ∀ v : Fin n, 0 < v.val →
      ∃ p : Fin n, (g v).mParent = some p ∧ p.val + 1 = v.val) :
    ∀ (m : Nat) (hm : m < n), ∃ rl, IsTrace g (some ⟨m, hm⟩) rl ∧
      rl.map Fin.val = (List.range (m + 1)).reverse := by
  intro m
  induction m with
  | zero =>
    intro hm
    refine ⟨[⟨0, hm⟩], ⟨rfl, ?_⟩, rfl⟩
    rw [hroot ⟨0, hm⟩ rfl]
    rfl
  | succ m ih =>
    intro hm
    obtain ⟨p, hp1, hp2⟩ := hparent ⟨m + 1, hm⟩ (by simp)
    have hpm : p = ⟨m, by omega⟩ := Fin.ext (by simpa using hp2)
    obtain ⟨rl, h1, h2⟩ := ih (by omega)
    refine ⟨⟨m + 1, hm⟩ :: rl, ⟨rfl, ?_⟩, ?_⟩
    · rw [hp1, hpm]
      exact h1
    · rw [List.map_cons, h2, List.range_succ (m + 1), List.reverse_append]
      rfl

/-- Steps of the line graph to the right neighbour have length `mSqrt 1`. -/
theorem line_step_cost (W : World F) (a b : Fin n) (h : b.val = a.val + 1) :
    estimateCostToGoal W (lineGraph F n) a b = W.mSqrt 1 := by
  unfold estimateCostToGoal World.len
  congr 1
  simp only [lineGraph, cleanNode, Point3F.sub, Point3F.lenSquared, h]
  push_cast
  ring

theorem line_pathCost (W : World F) (hsqrt : W.mSqrt 1 = 1) :
    ∀ l : List (Fin n), List.Chain' (fun a b : Fin n => b.val = a.val + 1) l →
      pathCost W (lineGraph F n) l = (l.length : F) - 1 ∨ l = [] := by
  intro l
  induction l with
  | nil => intro _; right; rfl
  | cons a t ih =>
    intro h
    left
    cases t with
    | nil => simp [pathCost]
    | cons b t =>
      rw [List.chain'_cons] at h
      rcases ih h.2 with h1 | h1
      · rw [pathCost, h1, line_step_cost W a b h.1, hsqrt]
        simp only [List.length_cons]
        push_cast
        ring
      · cases h1

/-- The seed state of a call on the line graph from node 0. -/
theorem lineInv_seed (W : World F) (start goal : Fin n) (hstart : start.val = 0) :
    LineInv n 0 (seed W (lineGraph F n) start goal) := by
  have hother : ∀ v : Fin n, v ≠ start →
      (seed W (lineGraph F n) start goal).graph v = lineGraph F n v := by
    intro v hv
    simp only [seed]
    exact setNode_other _ _ hv
  have hs : ∀ v : Fin n, v.val = 0 → v = start := fun v h => Fin.ext (h.trans hstart.symm)
  constructor
  · intro v
    by_cases hv : v = start
    · subst hv
      simp only [seed, setNode_same]
      exact ⟨rfl, rfl, rfl⟩
    · rw [hother v hv]
      exact ⟨rfl, rfl, rfl⟩
  · simp [seed, hstart]
  · intro v hv
    rw [hs v hv]
    simp only [seed, setNode_same]
    rfl
  · intro v h1 h2
    omega
  · intro v hv
    omega
  · intro v hv
    have hne : v ≠ start := by
      intro h
      rw [h, hstart] at hv
      exact Nat.lt_irrefl 0 hv
    rw [hother v hne]
    exact ⟨rfl, rfl⟩
  · intro v hv
    rw [hs v hv]
    simp only [seed, setNode_same]
    rfl

theorem line_chain (n : Nat) :
    List.Chain' (fun a b : Fin n => b.val = a.val + 1) (List.finRange n) := by
  have h : List.Chain' (fun a b : Nat => b = a + 1) ((List.finRange n).map Fin.val) := by
    rw [List.map_coe_finRange]
    cases n with
    | zero => exact List.chain'_nil
    | succ m =>
      rw [List.chain'_range_succ]
      intro k _
      rfl
  exact (List.chain'_map Fin.val).mp h

end Line

/-! ## Further facts about the loops -/

section MoreFacts

variable {F : Type} [LinearOrderedField F] {n : Nat}

/-- On a list of at least two nodes the smoothing loop never reads outside the
list, whatever the fuel. -/
theorem smoothPathLoop_inBounds (W : World F) (g : Graph F n) :
    ∀ (fuel iter : Nat) (reply : List (Fin n)), 2 ≤ reply.length →
      smoothPathLoop W g fuel iter reply ≠ .error .outOfBounds := by
  intro fuel
  induction fuel with
  | zero =>
    intro iter reply _
    rw [smoothPathLoop]
    split_ifs <;> simp
  | succ fuel ih =>
    intro iter reply h2
    by_cases hlt : iter < smoothBound reply.length
    · have hb := smoothBound_le h2
      obtain ⟨a, b, c, _, _, _, hstep⟩ := smoothPathLoop_step W g fuel iter reply h2 hlt
      rw [hstep]
      have hl : (reply.eraseIdx (iter + 1)).length = reply.length - 1 :=
        List.length_eraseIdx_of_lt (by omega)
      split_ifs
      · exact ih iter _ (by omega)
      · exact ih (iter + 1) reply h2
    · rw [smoothPathLoop, if_neg hlt]
      simp

/-- The last step of a forward path to a node other than the start ends at a
node whose move modifier is below the untraversable mark. -/
theorem PathTo.traversable {W : World F} {g : Graph F n} {start v : Fin n}
    {l : List (Fin n)} (h : PathTo W g start v l) (hv : v ≠ start) :
    (g v).mMoveModifier < W.IAIPATHGLOBAL_MOVE_MODIFIER_UNTRAVERSAL := by
  cases h with
  | root => exact absurd rfl hv
  | snoc _ he => exact he.2

end MoreFacts

/-! ## Points of the search loop -/

section Points

variable {F : Type} [LinearOrderedField F] {n : Nat}

/-- What one neighbour visit does: the neighbour is appended to the affected
list, and then either it is skipped (closed or untraversable) with graph and
open list as they were, or only its own record is written: it comes out open
and not closed with its static fields kept, pushed if it was not open and
with open list and fitness as they were if it was. -/
theorem visitNeighbour_shape (W : World F) (goal cur nb : Fin n) (s : Search F n) :
    (visitNeighbour W goal cur s nb).1.affectedList = s.affectedList ++ [nb] ∧
    ((((s.graph nb).mClosed = true ∨
          W.IAIPATHGLOBAL_MOVE_MODIFIER_UNTRAVERSAL ≤ (s.graph nb).mMoveModifier) ∧
        (visitNeighbour W goal cur s nb).1.graph = s.graph ∧
        (visitNeighbour W goal cur s nb).1.openList = s.openList ∧
        (visitNeighbour W goal cur s nb).2 = false) ∨
     ((s.graph nb).mClosed = false ∧
        (s.graph nb).mMoveModifier < W.IAIPATHGLOBAL_MOVE_MODIFIER_UNTRAVERSAL ∧
        (visitNeighbour W goal cur s nb).2 = decide (nb = goal) ∧
        (∀ w, w ≠ nb → (visitNeighbour W goal cur s nb).1.graph w = s.graph w) ∧
        ((visitNeighbour W goal cur s nb).1.graph nb).mOpen = true ∧
        ((visitNeighbour W goal cur s nb).1.graph nb).mClosed = false ∧
        ((visitNeighbour W goal cur s nb).1.graph nb).SameStatic (s.graph nb) ∧
        (((s.graph nb).mOpen = false ∧
            (visitNeighbour W goal cur s nb).1.openList = s.openList ++ [nb]) ∨
         ((s.graph nb).mOpen = true ∧
            (visitNeighbour W goal cur s nb).1.openList = s.openList ∧
            ((visitNeighbour W goal cur s nb).1.graph nb).mFitness =
              (s.graph nb).mFitness)))) := by
  by_cases hskip : (s.graph nb).mClosed = true ∨
      W.IAIPATHGLOBAL_MOVE_MODIFIER_UNTRAVERSAL ≤ (s.graph nb).mMoveModifier
  · unfold visitNeighbour
    simp only [if_pos hskip]
    exact ⟨trivial, Or.inl ⟨hskip, trivial, trivial, trivial⟩⟩
  · have hc : (s.graph nb).mClosed = false := by
      cases h : (s.graph nb).mClosed
      · rfl
      · exact absurd (Or.inl h) hskip
    have hm : (s.graph nb).mMoveModifier < W.IAIPATHGLOBAL_MOVE_MODIFIER_UNTRAVERSAL :=
      not_le.mp (fun h => hskip (Or.inr h))
    by_cases ho : (s.graph nb).mOpen = false
    · unfold visitNeighbour
      simp only [if_neg hskip, if_pos ho]
      refine ⟨trivial, Or.inr ⟨hc, hm, trivial, ?_, ?_, ?_, ?_, Or.inl ⟨ho, trivial⟩⟩⟩
      · intro w hw
        exact setNode_other _ _ hw
      · rw [setNode_same]
      · rw [setNode_same]
        exact hc
      · rw [setNode_same]
        exact ⟨rfl, rfl, rfl⟩
    · have ho1 : (s.graph nb).mOpen = true := by
        cases h : (s.graph nb).mOpen
        · exact absurd h ho
        · rfl
      unfold visitNeighbour
      simp only [if_neg hskip, if_neg ho]
      refine ⟨trivial, Or.inr ⟨hc, hm, trivial, ?_, ?_, ?_, ?_, Or.inr ⟨ho1, trivial, ?_⟩⟩⟩
      · intro w hw
        exact setNode_other _ _ hw
      · rw [setNode_same]
        split_ifs <;> exact ho1
      · rw [setNode_same]
      · rw [setNode_same]
        split_ifs <;> exact ⟨rfl, rfl, rfl⟩
      · rw [setNode_same]
        split_ifs <;> rfl

theorem flagged_congr {g g1 : Graph F n} {v : Fin n} (h : g1 v = g v) :
    Flagged g1 v ↔ Flagged g v := by
  unfold Flagged
  rw [h]

theorem not_flagged_of_default {g : Graph F n} {v : Fin n} (h : (g v).IsDefault) :
    ¬ Flagged g v := by
  rintro (h1 | h1)
  · rw [h.2.2.2.2.1] at h1
    exact Bool.noConfusion h1
  · rw [h.2.2.2.2.2] at h1
    exact Bool.noConfusion h1

/-- The flag invariant holds after the seed. -/
theorem flagInv_seed (W : World F) {g : Graph F n} (hclean : IsClean g) (start goal : Fin n) :
    FlagInv W g start goal (seedPoint W g start goal) := by
  have hother : ∀ v, v ≠ start → (seed W g start goal).graph v = g v := by
    intro v hv
    simp only [seed]
    exact setNode_other _ _ hv
  have hso : ((seed W g start goal).graph start).mOpen = true := by
    simp only [seed, setNode_same]
  have hsc : ((seed W g start goal).graph start).mClosed = false := by
    simp only [seed, setNode_same]
    exact (hclean start).2.2.2.2.2
  have hnf : ∀ v, v ≠ start → ¬ Flagged (seed W g start goal).graph v := by
    intro v hv
    rw [flagged_congr (hother v hv)]
    exact not_flagged_of_default (hclean v)
  have hcl : ∀ v, ((seed W g start goal).graph v).mClosed = false := by
    intro v
    by_cases hv : v = start
    · rw [hv]
      exact hsc
    · rw [hother v hv]
      exact (hclean v).2.2.2.2.2
  have hnc : ∀ v, ¬ ((seed W g start goal).graph v).mClosed = true := by
    intro v h
    rw [hcl v] at h
    exact Bool.noConfusion h
  refine ⟨?_, ?_, ?_, ?_, ?_, ?_, ?_, ?_, ?_, ?_, ?_, ?_⟩
  · intro v
    show ((seed W g start goal).graph v).SameStatic (g v)
    by_cases hv : v = start
    · rw [hv]
      simp only [seed, setNode_same]
      exact ⟨rfl, rfl, rfl⟩
    · rw [hother v hv]
      exact ⟨rfl, rfl, rfl⟩
  · intro v _
    exact hcl v
  · intro v
    show v ∈ [start] ↔ ((seed W g start goal).graph v).mOpen = true
    constructor
    · intro h
      rw [List.mem_singleton.mp h]
      exact hso
    · intro h
      by_cases hv : v = start
      · rw [hv]
        exact List.mem_singleton.mpr rfl
      · exact absurd (Or.inl h) (hnf v hv)
  · exact List.nodup_singleton start
  · intro v h
    exact absurd h (hnc v)
  · intro v hv
    exact absurd hv (List.not_mem_nil v)
  · exact Or.inl hso
  · intro v hv _
    exact hnf v hv
  · intro v hv
    by_cases hs : v = start
    · rw [hs] at hv
      exact absurd (Or.inl hso) hv
    · exact hother v hs
  · intro hne _
    exact hnf goal hne
  · intro p hp
    exact absurd hp (hnc p)
  · intro cur rest h
    exact LoopPos.noConfusion h

/-- The flag invariant passes from the end of a `for` loop to the loop head. -/
theorem flagInv_next (W : World F) {g : Graph F n} {start goal : Fin n} {s : Search F n}
    {cur : Fin n}
    (h : FlagInv W g start goal { state := s, pos := .inside cur [] }) :
    FlagInv W g start goal { state := s, pos := .head } := by
  refine ⟨h.static, h.noBoth, h.queued, h.nodup, h.closedAffected, h.affected,
    h.startFlagged, h.blocked, h.fresh, ?_, ?_, ?_⟩
  · intro hne _
    exact h.goalFresh hne (fun hf => LoopPos.noConfusion hf)
  · intro p hp q hq hm
    rcases h.expanded p hp q hq hm with h1 | h1 | ⟨rest, h1, h2⟩
    · exact Or.inl h1
    · exact LoopPos.noConfusion h1
    · have hr : ([] : List (Fin n)) = rest := by
        injection h1
      rw [← hr] at h2
      exact absurd h2 (List.not_mem_nil q)
  · intro c rest hh
    exact LoopPos.noConfusion hh

/-- The flag invariant passes through a pop of a queued node. -/
theorem flagInv_pop (W : World F) {g : Graph F n} {start goal : Fin n} {s : Search F n}
    {cur : Fin n} (h : FlagInv W g start goal { state := s, pos := .head })
    (hmem : cur ∈ s.openList) :
    FlagInv W g start goal
      { state := closeFront s cur
        pos := .inside cur ((closeFront s cur).graph cur).mNeighbours } := by
  have hopen : (s.graph cur).mOpen = true := (h.queued cur).mp hmem
  have hother : ∀ v, v ≠ cur → (closeFront s cur).graph v = s.graph v := by
    intro v hv
    simp only [closeFront]
    exact setNode_other _ _ hv
  have hco : ((closeFront s cur).graph cur).mOpen = false := by
    simp only [closeFront, setNode_same]
  have hcc : ((closeFront s cur).graph cur).mClosed = true := by
    simp only [closeFront, setNode_same]
  have hst : ((closeFront s cur).graph cur).SameStatic (s.graph cur) := by
    simp only [closeFront, setNode_same]
    exact ⟨rfl, rfl, rfl⟩
  have hfl : ∀ v, Flagged s.graph v → Flagged (closeFront s cur).graph v := by
    intro v hv
    by_cases hvc : v = cur
    · rw [hvc]
      exact Or.inr hcc
    · exact (flagged_congr (hother v hvc)).mpr hv
  have hnbrs : ((closeFront s cur).graph cur).mNeighbours = (g cur).mNeighbours :=
    hst.2.1.trans (h.static cur).2.1
  have hhead : (LoopPos.head : LoopPos n) ≠ .found := fun hh => LoopPos.noConfusion hh
  refine ⟨?_, ?_, ?_, ?_, ?_, ?_, ?_, ?_, ?_, ?_, ?_, ?_⟩
  · intro v
    show ((closeFront s cur).graph v).SameStatic (g v)
    by_cases hv : v = cur
    · rw [hv]
      exact ⟨hst.1.trans (h.static cur).1, hst.2.1.trans (h.static cur).2.1,
        hst.2.2.trans (h.static cur).2.2⟩
    · rw [hother v hv]
      exact h.static v
  · intro v hv
    show ((closeFront s cur).graph v).mClosed = false
    have hv1 : ((closeFront s cur).graph v).mOpen = true := hv
    by_cases hvc : v = cur
    · rw [hvc, hco] at hv1
      exact Bool.noConfusion hv1
    · rw [hother v hvc] at hv1 ⊢
      exact h.noBoth v hv1
  · intro v
    show v ∈ s.openList.erase cur ↔ ((closeFront s cur).graph v).mOpen = true
    by_cases hvc : v = cur
    · rw [hvc, hco]
      constructor
      · intro hm
        exact absurd hm ((List.Nodup.mem_erase_iff h.nodup).not.mpr (fun hh => hh.1 rfl))
      · intro hf
        exact Bool.noConfusion hf
    · rw [hother v hvc, List.mem_erase_of_ne hvc]
      exact h.queued v
  · exact h.nodup.erase cur
  · intro v hv
    show v ∈ s.affectedList ++ [cur]
    by_cases hvc : v = cur
    · rw [hvc]
      exact List.mem_append_right _ (List.mem_singleton.mpr rfl)
    · have hv1 : ((closeFront s cur).graph v).mClosed = true := hv
      rw [hother v hvc] at hv1
      exact List.mem_append_left _ (h.closedAffected v hv1)
  · intro v hv hm
    have hv1 : v ∈ s.affectedList ++ [cur] := hv
    rcases List.mem_append.mp hv1 with h1 | h1
    · exact hfl v (h.affected v h1 hm)
    · rw [List.mem_singleton.mp h1]
      exact Or.inr hcc
  · exact hfl start h.startFlagged
  · intro v hv hm hf
    by_cases hvc : v = cur
    · rw [hvc] at hv hm
      exact h.blocked cur hv hm (Or.inl hopen)
    · exact h.blocked v hv hm ((flagged_congr (hother v hvc)).mp hf)
  · intro v hv
    show (closeFront s cur).graph v = g v
    by_cases hvc : v = cur
    · rw [hvc] at hv
      exact absurd (Or.inr hcc) hv
    · rw [hother v hvc]
      exact h.fresh v (fun hf => hv ((flagged_congr (hother v hvc)).mpr hf))
  · intro hne _ hf
    by_cases hvc : goal = cur
    · rw [← hvc] at hopen
      exact h.goalFresh hne hhead (Or.inl hopen)
    · exact h.goalFresh hne hhead ((flagged_congr (hother goal hvc)).mp hf)
  · intro p hp q hq hm
    by_cases hpc : p = cur
    · right
      right
      rw [hpc] at hq
      rw [hpc]
      refine ⟨_, rfl, ?_⟩
      rw [hnbrs]
      exact hq
    · have hp1 : ((closeFront s cur).graph p).mClosed = true := hp
      rw [hother p hpc] at hp1
      rcases h.expanded p hp1 q hq hm with h1 | h1 | ⟨rest, h1, _⟩
      · exact Or.inl (hfl q h1)
      · exact LoopPos.noConfusion h1
      · exact LoopPos.noConfusion h1
  · intro c rest hh
    injection hh with e1 e2
    rw [← e1, ← e2]
    refine ⟨hcc, ?_⟩
    intro q hq
    rw [hnbrs] at hq
    exact hq

/-- The flag invariant passes through a skipped neighbour. -/
theorem flagInv_skip (W : World F) {g : Graph F n} {start goal : Fin n} {s : Search F n}
    {cur nb : Fin n} {rest : List (Fin n)}
    (h : FlagInv W g start goal { state := s, pos := .inside cur (nb :: rest) })
    (hskip : (s.graph nb).mClosed = true ∨
      W.IAIPATHGLOBAL_MOVE_MODIFIER_UNTRAVERSAL ≤ (s.graph nb).mMoveModifier) :
    FlagInv W g start goal
      { state := { s with affectedList := s.affectedList ++ [nb] }, pos := .inside cur rest } := by
  have hin := h.inside cur (nb :: rest) rfl
  have hpos : (LoopPos.inside cur (nb :: rest) : LoopPos n) ≠ .found :=
    fun hh => LoopPos.noConfusion hh
  have hnb : (g nb).mMoveModifier < W.IAIPATHGLOBAL_MOVE_MODIFIER_UNTRAVERSAL →
      Flagged s.graph nb := by
    intro hm
    rcases hskip with hc | hu
    · exact Or.inr hc
    · rw [(h.static nb).2.2] at hu
      exact absurd hm (not_lt.mpr hu)
  refine ⟨h.static, h.noBoth, h.queued, h.nodup, ?_, ?_, h.startFlagged, h.blocked,
    h.fresh, ?_, ?_, ?_⟩
  · intro v hv
    exact List.mem_append_left _ (h.closedAffected v hv)
  · intro v hv hm
    have hv1 : v ∈ s.affectedList ++ [nb] := hv
    rcases List.mem_append.mp hv1 with h1 | h1
    · exact h.affected v h1 hm
    · rw [List.mem_singleton.mp h1] at hm ⊢
      exact hnb hm
  · intro hne _
    exact h.goalFresh hne hpos
  · intro p hp q hq hm
    rcases h.expanded p hp q hq hm with h1 | h1 | ⟨rest0, h1, h2⟩
    · exact Or.inl h1
    · exact LoopPos.noConfusion h1
    · injection h1 with e1 e2
      rw [← e2] at h2
      rcases List.mem_cons.mp h2 with h3 | h3
      · rw [h3] at hm ⊢
        exact Or.inl (hnb hm)
      · right
        right
        rw [← e1]
        exact ⟨rest, rfl, h3⟩
  · intro c r hh
    injection hh with e1 e2
    rw [← e1, ← e2]
    exact ⟨hin.1, fun q hq => hin.2 q (List.mem_cons_of_mem _ hq)⟩

/-- The flag invariant passes through a neighbour whose record is written. -/
theorem flagInv_write (W : World F) {g : Graph F n} {start goal : Fin n} {s s1 : Search F n}
    {cur nb : Fin n} {rest : List (Fin n)} {pos1 : LoopPos n}
    (h : FlagInv W g start goal { state := s, pos := .inside cur (nb :: rest) })
    (haff : s1.affectedList = s.affectedList ++ [nb])
    (hc : (s.graph nb).mClosed = false)
    (hm : (s.graph nb).mMoveModifier < W.IAIPATHGLOBAL_MOVE_MODIFIER_UNTRAVERSAL)
    (hother : ∀ w, w ≠ nb → s1.graph w = s.graph w)
    (ho1 : (s1.graph nb).mOpen = true) (hc1 : (s1.graph nb).mClosed = false)
    (hst : (s1.graph nb).SameStatic (s.graph nb))
    (hsub : ((s.graph nb).mOpen = false ∧ s1.openList = s.openList ++ [nb]) ∨
      ((s.graph nb).mOpen = true ∧ s1.openList = s.openList))
    (hposI : pos1 = .found ∨ pos1 = .inside cur rest)
    (hposF : pos1 ≠ .found → nb ≠ goal) :
    FlagInv W g start goal { state := s1, pos := pos1 } := by
  have hin := h.inside cur (nb :: rest) rfl
  have hpos : (LoopPos.inside cur (nb :: rest) : LoopPos n) ≠ .found :=
    fun hh => LoopPos.noConfusion hh
  have hfl : ∀ v, Flagged s.graph v → Flagged s1.graph v := by
    intro v hv
    by_cases hvc : v = nb
    · rw [hvc]
      exact Or.inl ho1
    · exact (flagged_congr (hother v hvc)).mpr hv
  have hcurne : cur ≠ nb := ne_of_closed hin.1 hc
  refine ⟨?_, ?_, ?_, ?_, ?_, ?_, ?_, ?_, ?_, ?_, ?_, ?_⟩
  · intro v
    show (s1.graph v).SameStatic (g v)
    by_cases hv : v = nb
    · rw [hv]
      exact ⟨hst.1.trans (h.static nb).1, hst.2.1.trans (h.static nb).2.1,
        hst.2.2.trans (h.static nb).2.2⟩
    · rw [hother v hv]
      exact h.static v
  · intro v hv
    show (s1.graph v).mClosed = false
    have hv1 : (s1.graph v).mOpen = true := hv
    by_cases hvc : v = nb
    · rw [hvc]
      exact hc1
    · rw [hother v hvc] at hv1 ⊢
      exact h.noBoth v hv1
  · intro v
    show v ∈ s1.openList ↔ (s1.graph v).mOpen = true
    rcases hsub with ⟨_, hol⟩ | ⟨ho, hol⟩
    · rw [hol]
      by_cases hvc : v = nb
      · rw [hvc]
        exact iff_of_true (List.mem_append_right _ (List.mem_singleton.mpr rfl)) ho1
      · rw [hother v hvc, List.mem_append]
        constructor
        · rintro (h1 | h1)
          · exact (h.queued v).mp h1
          · exact absurd (List.mem_singleton.mp h1) hvc
        · intro h1
          exact Or.inl ((h.queued v).mpr h1)
    · rw [hol]
      by_cases hvc : v = nb
      · rw [hvc]
        exact iff_of_true ((h.queued nb).mpr ho) ho1
      · rw [hother v hvc]
        exact h.queued v
  · show s1.openList.Nodup
    rcases hsub with ⟨ho, hol⟩ | ⟨_, hol⟩
    · rw [hol]
      refine List.nodup_append.mpr ⟨h.nodup, List.nodup_singleton nb, ?_⟩
      intro x hx hx2
      rw [List.mem_singleton.mp hx2] at hx
      have := (h.queued nb).mp hx
      rw [ho] at this
      exact Bool.noConfusion this
    · rw [hol]
      exact h.nodup
  · intro v hv
    show v ∈ s1.affectedList
    have hv1 : (s1.graph v).mClosed = true := hv
    rw [haff]
    by_cases hvc : v = nb
    · rw [hvc, hc1] at hv1
      exact Bool.noConfusion hv1
    · rw [hother v hvc] at hv1
      exact List.mem_append_left _ (h.closedAffected v hv1)
  · intro v hv hmv
    have hv1 : v ∈ s1.affectedList := hv
    rw [haff] at hv1
    rcases List.mem_append.mp hv1 with h1 | h1
    · exact hfl v (h.affected v h1 hmv)
    · rw [List.mem_singleton.mp h1]
      exact Or.inl ho1
  · exact hfl start h.startFlagged
  · intro v hv hmv hf
    by_cases hvc : v = nb
    · rw [hvc, ← (h.static nb).2.2] at hmv
      exact absurd hm (not_lt.mpr hmv)
    · exact h.blocked v hv hmv ((flagged_congr (hother v hvc)).mp hf)
  · intro v hv
    show s1.graph v = g v
    by_cases hvc : v = nb
    · rw [hvc] at hv
      exact absurd (Or.inl ho1) hv
    · rw [hother v hvc]
      exact h.fresh v (fun hf => hv (hfl v hf))
  · intro hne hp1 hf
    have hng : goal ≠ nb := fun e => hposF hp1 e.symm
    exact h.goalFresh hne hpos ((flagged_congr (hother goal hng)).mp hf)
  · intro p hp q hq hmq
    have hp1 : (s1.graph p).mClosed = true := hp
    have hpn : p ≠ nb := ne_of_closed hp1 hc1
    rw [hother p hpn] at hp1
    rcases h.expanded p hp1 q hq hmq with h1 | h1 | ⟨rest0, h1, h2⟩
    · exact Or.inl (hfl q h1)
    · exact LoopPos.noConfusion h1
    · injection h1 with e1 e2
      rw [← e2] at h2
      rcases List.mem_cons.mp h2 with h3 | h3
      · rw [h3]
        exact Or.inl (Or.inl ho1)
      · right
        rcases hposI with hp2 | hp2
        · exact Or.inl hp2
        · right
          rw [← e1]
          exact ⟨rest, hp2, h3⟩
  · intro c r hh
    rcases hposI with hp2 | hp2
    · have hh1 : pos1 = .inside c r := hh
      rw [hp2] at hh1
      exact LoopPos.noConfusion hh1
    · have hh1 : pos1 = .inside c r := hh
      rw [hp2] at hh1
      injection hh1 with e1 e2
      rw [← e1, ← e2]
      refine ⟨?_, fun q hq => hin.2 q (List.mem_cons_of_mem _ hq)⟩
      show (s1.graph cur).mClosed = true
      rw [hother cur hcurne]
      exact hin.1

theorem mem_of_heapFront {t : Nat} {g : Graph F n} {items : List (Fin n)} {cur : Fin n}
    (h : heapFront t g items = some cur) : cur ∈ items := by
  have hne : items ≠ [] := by
    intro he
    rw [he] at h
    simp [heapFront, frontCandidates] at h
  obtain ⟨c, h1, h2⟩ := heapFront_mem t g hne
  rw [h] at h1
  rw [Option.some.inj h1]
  exact h2

/-- The flag invariant passes through one neighbour visit. -/
theorem flagInv_visit (W : World F) {g : Graph F n} {start goal : Fin n} {s : Search F n}
    {cur nb : Fin n} {rest : List (Fin n)}
    (h : FlagInv W g start goal { state := s, pos := .inside cur (nb :: rest) }) :
    FlagInv W g start goal
      { state := (visitNeighbour W goal cur s nb).1
        pos := if (visitNeighbour W goal cur s nb).2 = true then .found
          else .inside cur rest } := by
  obtain ⟨haff, hcase⟩ := visitNeighbour_shape W goal cur nb s
  rcases hcase with ⟨hskip, hg, hol, hhit⟩ | ⟨hc, hm, hhit, hother, ho1, hc1, hst, hsub⟩
  · have hs1 : (visitNeighbour W goal cur s nb).1 =
        { s with affectedList := s.affectedList ++ [nb] } := by
      rcases hv : (visitNeighbour W goal cur s nb).1 with ⟨g1, ol1, af1⟩
      rw [hv] at hg hol haff
      simp only at hg hol haff
      rw [hg, hol, haff]
    rw [hs1, hhit]
    simp only [Bool.false_eq_true, if_false]
    exact flagInv_skip W h hskip
  · refine flagInv_write W h haff hc hm hother ho1 hc1 hst ?_ ?_ ?_
    · rcases hsub with ⟨a, b⟩ | ⟨a, b, _⟩
      · exact Or.inl ⟨a, b⟩
      · exact Or.inr ⟨a, b⟩
    · split_ifs
      · exact Or.inl rfl
      · exact Or.inr rfl
    · intro hp hng
      apply hp
      rw [hhit, if_pos (decide_eq_true hng)]

/-- The flag invariant passes through every step of the search. -/
theorem flagInv_step (W : World F) {g : Graph F n} {start goal : Fin n} {c c1 : Config F n}
    (h : FlagInv W g start goal c) (hstep : SearchStep W goal c c1) :
    FlagInv W g start goal c1 := by
  cases hstep with
  | pop s t cur _ hfront => exact flagInv_pop W h (mem_of_heapFront hfront)
  | visit s cur nb rest => exact flagInv_visit W h
  | next s cur => exact flagInv_next W h

/-- The flag invariant holds at every point of a search from a clean graph. -/
theorem flagInv_point (W : World F) {g : Graph F n} (hclean : IsClean g) {start goal : Fin n}
    {c : Config F n} (hc : SearchPoint W g start goal c) : FlagInv W g start goal c := by
  induction hc with
  | refl => exact flagInv_seed W hclean start goal
  | tail _ hstep ih => exact flagInv_step W ih hstep

theorem wallGraph_clean : IsClean wallGraph := by
  intro v
  unfold wallGraph
  split_ifs <;> exact ⟨rfl, rfl, rfl, rfl, rfl, rfl⟩

/-- The point `wallPoint` is reached by the pop of node 0 and the visit of its
neighbour 1. -/
theorem wallPoint_reached : SearchPoint sampleWorld wallGraph 0 1 wallPoint := by
  have hnb : ((closeFront (seed sampleWorld wallGraph 0 1) 0).graph 0).mNeighbours = [1] := by
    simp only [closeFront, setNode_same]
    simp only [seed, setNode_same]
    rfl
  have hhit :
      (visitNeighbour sampleWorld 1 0 (closeFront (seed sampleWorld wallGraph 0 1) 0) 1).2 =
        false := by
    obtain ⟨_, hcase⟩ := visitNeighbour_shape sampleWorld 1 0 1
      (closeFront (seed sampleWorld wallGraph 0 1) 0)
    rcases hcase with ⟨_, _, _, h⟩ | ⟨_, hm, _⟩
    · exact h
    · exfalso
      have hg : (closeFront (seed sampleWorld wallGraph 0 1) 0).graph 1 = wallGraph 1 := by
        simp only [closeFront, seed]
        rw [setNode_other _ _ (by decide), setNode_other _ _ (by decide)]
      rw [hg] at hm
      exact absurd hm (by decide!)
  have h1 := @SearchStep.pop ℚ _ 2 sampleWorld 1 (seed sampleWorld wallGraph 0 1) 0 0
    Nat.zero_lt_one (heapFront_singleton 0 _ 0)
  have h2 := @SearchStep.visit ℚ _ 2 sampleWorld 1
    (closeFront (seed sampleWorld wallGraph 0 1) 0) 0 1 []
  rw [hnb] at h1
  rw [hhit] at h2
  simp only [Bool.false_eq_true, if_false] at h2
  exact Relation.ReflTransGen.tail (Relation.ReflTransGen.single h1) h2

theorem not_flagged_iff {g : Graph F n} {v : Fin n} :
    ¬ Flagged g v ↔ (g v).mOpen = false ∧ (g v).mClosed = false := by
  unfold Flagged
  cases (g v).mOpen <;> cases (g v).mClosed <;> simp

/-- From the first pop on, every point of a search from a clean graph
satisfies the search invariant. -/
theorem inv_point (W : World F) {g : Graph F n} (hclean : IsClean g) {start goal : Fin n}
    {c : Config F n} (hc : SearchPoint W g start goal c) :
    c = seedPoint W g start goal ∨ Inv W g start c.state := by
  induction hc with
  | refl => exact Or.inl rfl
  | @tail b c1 hreach hstep ih =>
    have hfl := flagInv_point W hclean hreach
    right
    cases hstep with
    | pop s t cur _ hfront =>
      rcases ih with ih | ih
      · have hs : s = seed W g start goal := congrArg Config.state ih
        rw [hs] at hfront ⊢
        have hfront1 : heapFront t (seed W g start goal).graph [start] = some cur := hfront
        rw [heapFront_singleton] at hfront1
        rw [← Option.some.inj hfront1]
        exact (inv_first W hclean start goal).1
      · exact (inv_closeFront ih (mem_of_heapFront hfront)).1
    | visit s cur nb rest =>
      rcases ih with ih | ih
      · have hp := congrArg Config.pos ih
        exact LoopPos.noConfusion hp
      · have hin := hfl.inside cur (nb :: rest) rfl
        exact (visitNeighbour_spec ih goal hin.1 (hin.2 nb (List.mem_cons_self nb rest))).1
    | next s cur =>
      rcases ih with ih | ih
      · have hp := congrArg Config.pos ih
        exact LoopPos.noConfusion hp
      · exact ih

theorem isTrace_unique (g : Graph F n) :
    ∀ (l1 l2 : List (Fin n)) (o : Option (Fin n)), IsTrace g o l1 → IsTrace g o l2 →
      l1 = l2 := by
  intro l1
  induction l1 with
  | nil =>
    intro l2 o h1 h2
    cases l2 with
    | nil => rfl
    | cons v r =>
      have h1a : o = none := h1
      have h2a : o = some v := h2.1
      rw [h1a] at h2a
      exact Option.noConfusion h2a
  | cons v1 r1 ih =>
    intro l2 o h1 h2
    cases l2 with
    | nil =>
      have h1a : o = some v1 := h1.1
      have h2a : o = none := h2
      rw [h2a] at h1a
      exact Option.noConfusion h1a
    | cons v2 r2 =>
      have h1a : o = some v1 := h1.1
      have h2a : o = some v2 := h2.1
      rw [h1a] at h2a
      have hv : v1 = v2 := Option.some.inj h2a
      subst hv
      rw [ih r2 (g v1).mParent h1.2 h2.2]

/-- Following one or more parent links shortens the parent walk. -/
theorem parent_walk_shorter (g : Graph F n) {a b : Fin n}
    (h : Relation.TransGen (fun x y => (g x).mParent = some y) a b) :
    ∀ la, IsTrace g (some a) la → ∃ lb, IsTrace g (some b) lb ∧ lb.length < la.length := by
  have hstep : ∀ (x y : Fin n) (lx : List (Fin n)), (g x).mParent = some y →
      IsTrace g (some x) lx → ∃ ly, IsTrace g (some y) ly ∧ ly.length < lx.length := by
    intro x y lx hxy hlx
    cases lx with
    | nil =>
      have : some x = none := hlx
      exact Option.noConfusion this
    | cons v r =>
      have hv : some x = some v := hlx.1
      have hr : IsTrace g (g v).mParent r := hlx.2
      rw [← Option.some.inj hv, hxy] at hr
      exact ⟨r, hr, Nat.lt_succ_self _⟩
  induction h with
  | single hab =>
    intro la hla
    exact hstep a _ la hab hla
  | tail _ hbc ih =>
    intro la hla
    obtain ⟨lb, hlb, hlt⟩ := ih la hla
    obtain ⟨lc, hlc, hlt2⟩ := hstep _ _ lb hbc hlb
    exact ⟨lc, hlc, lt_trans hlt2 hlt⟩

/-- The parent links at a point of a search from a clean graph: start has no
parent, and a node with parent `p` is not start, `p` is closed, `p` to the
node is a traversable edge, and the parent walk from the node is a path from
start read backwards of at most `n` nodes. -/
theorem point_parent (W : World F) {g : Graph F n} (hclean : IsClean g) {start goal : Fin n}
    {c : Config F n} (hc : SearchPoint W g start goal c) :
    (c.state.graph start).mParent = none ∧
    ∀ v p, (c.state.graph v).mParent = some p →
      v ≠ start ∧ (c.state.graph p).mClosed = true ∧ Edge W g p v ∧
      ∃ rl, IsTrace c.state.graph (some v) rl ∧ PathTo W g start v rl.reverse ∧
        rl.length ≤ n := by
  have hfl := flagInv_point W hclean hc
  rcases inv_point W hclean hc with hseed | hinv
  · have hnone : ∀ v, (c.state.graph v).mParent = none := by
      intro v
      rw [hseed]
      show ((seed W g start goal).graph v).mParent = none
      by_cases hv : v = start
      · rw [hv]
        simp only [seed, setNode_same]
        exact (hclean start).2.2.2.1
      · simp only [seed]
        rw [setNode_other _ _ hv]
        exact (hclean v).2.2.2.1
    refine ⟨hnone start, ?_⟩
    intro v p hvp
    rw [hnone v] at hvp
    exact Option.noConfusion hvp
  · refine ⟨hinv.startRoot, ?_⟩
    intro v p hvp
    have hne : v ≠ start := by
      intro e
      rw [e, hinv.startRoot] at hvp
      exact Option.noConfusion hvp
    have hflag : Flagged c.state.graph v := by
      by_contra hnf
      rw [hfl.fresh v hnf, (hclean v).2.2.2.1] at hvp
      exact Option.noConfusion hvp
    obtain ⟨p1, hp1, hcl, hedge⟩ := hinv.parentOf v hne hflag
    rw [hvp] at hp1
    have hpp : p = p1 := Option.some.inj hp1
    rw [← hpp] at hcl hedge
    refine ⟨hne, hcl, hedge, ?_⟩
    cases hvc : (c.state.graph v).mClosed
    · obtain ⟨rl, htr, _, hlen⟩ := hinv.chains p hcl
      have htr1 : IsTrace c.state.graph (some v) (v :: rl) := by
        refine ⟨rfl, ?_⟩
        rw [hvp]
        exact htr
      refine ⟨v :: rl, htr1, pathTo_of_isTrace hinv (v :: rl) v htr1 hflag, ?_⟩
      have := openCount_pos hvc
      rw [List.length_cons]
      omega
    · obtain ⟨rl, htr, _, hlen⟩ := hinv.chains v hvc
      exact ⟨rl, htr, pathTo_of_isTrace hinv rl v htr hflag, by omega⟩

/-- The point `linePoint` is reached by the pop of node 0 and the visit of its
neighbour 1, which is the goal. -/
theorem linePoint_reached : SearchPoint sampleWorld (lineGraph ℚ 2) 0 1 linePoint := by
  have hnb :
      ((closeFront (seed sampleWorld (lineGraph ℚ 2) 0 1) 0).graph 0).mNeighbours = [1] := by
    simp only [closeFront, setNode_same]
    simp only [seed, setNode_same]
    rfl
  have hhit :
      (visitNeighbour sampleWorld 1 0
        (closeFront (seed sampleWorld (lineGraph ℚ 2) 0 1) 0) 1).2 = true := by
    obtain ⟨_, hcase⟩ := visitNeighbour_shape sampleWorld 1 0 1
      (closeFront (seed sampleWorld (lineGraph ℚ 2) 0 1) 0)
    have hg : (closeFront (seed sampleWorld (lineGraph ℚ 2) 0 1) 0).graph 1 =
        lineGraph ℚ 2 1 := by
      simp only [closeFront, seed]
      rw [setNode_other _ _ (by decide), setNode_other _ _ (by decide)]
    rcases hcase with ⟨hskip, _⟩ | ⟨_, _, h, _⟩
    · exfalso
      rw [hg] at hskip
      rcases hskip with h1 | h1
      · exact Bool.noConfusion h1
      · exact absurd h1 (by decide!)
    · rw [h]
      rfl
  have h1 := @SearchStep.pop ℚ _ 2 sampleWorld 1 (seed sampleWorld (lineGraph ℚ 2) 0 1) 0 0
    Nat.zero_lt_one (heapFront_singleton 0 _ 0)
  have h2 := @SearchStep.visit ℚ _ 2 sampleWorld 1
    (closeFront (seed sampleWorld (lineGraph ℚ 2) 0 1) 0) 0 1 []
  rw [hnb] at h1
  rw [hhit] at h2
  simp only [if_true] at h2
  exact Relation.ReflTransGen.tail (Relation.ReflTransGen.single h1) h2

/-- What one step of the search leaves alone: a flagged node stays flagged
with the same fitness, a node enters the open list only if it had no flag,
and the record of a closed node is not written. -/
theorem step_frame (W : World F) {g : Graph F n} {start goal : Fin n} {c c1 : Config F n}
    (h : FlagInv W g start goal c) (hstep : SearchStep W goal c c1) :
    (∀ v, Flagged c.state.graph v → Flagged c1.state.graph v ∧
      (c1.state.graph v).mFitness = (c.state.graph v).mFitness) ∧
    (∀ v, v ∈ c1.state.openList → v ∈ c.state.openList ∨ ¬ Flagged c.state.graph v) ∧
    (∀ v, (c.state.graph v).mClosed = true → c1.state.graph v = c.state.graph v) := by
  cases hstep with
  | pop s t cur _ hfront =>
    have hmem := mem_of_heapFront hfront
    have hopen : (s.graph cur).mOpen = true := (h.queued cur).mp hmem
    have hother : ∀ v, v ≠ cur → (closeFront s cur).graph v = s.graph v := by
      intro v hv
      simp only [closeFront]
      exact setNode_other _ _ hv
    refine ⟨?_, ?_, ?_⟩
    · intro v hv
      show Flagged (closeFront s cur).graph v ∧
        ((closeFront s cur).graph v).mFitness = (s.graph v).mFitness
      by_cases hvc : v = cur
      · rw [hvc]
        simp only [closeFront, setNode_same, Flagged]
        exact ⟨Or.inr trivial, trivial⟩
      · rw [flagged_congr (hother v hvc), hother v hvc]
        exact ⟨hv, rfl⟩
    · intro v hv
      exact Or.inl (List.mem_of_mem_erase hv)
    · intro v hv
      have hvc : v ≠ cur := by
        intro e
        rw [e, h.noBoth cur hopen] at hv
        exact Bool.noConfusion hv
      exact hother v hvc
  | visit s cur nb rest =>
    obtain ⟨_, hcase⟩ := visitNeighbour_shape W goal cur nb s
    rcases hcase with ⟨_, hg, hol, _⟩ | ⟨hc, _, _, hother, ho1, _, _, hsub⟩
    · refine ⟨?_, ?_, ?_⟩
      · intro v hv
        show Flagged (visitNeighbour W goal cur s nb).1.graph v ∧
          ((visitNeighbour W goal cur s nb).1.graph v).mFitness = (s.graph v).mFitness
        rw [hg]
        exact ⟨hv, rfl⟩
      · intro v hv
        have hv1 : v ∈ (visitNeighbour W goal cur s nb).1.openList := hv
        rw [hol] at hv1
        exact Or.inl hv1
      · intro v _
        show (visitNeighbour W goal cur s nb).1.graph v = s.graph v
        rw [hg]
    · refine ⟨?_, ?_, ?_⟩
      · intro v hv
        show Flagged (visitNeighbour W goal cur s nb).1.graph v ∧
          ((visitNeighbour W goal cur s nb).1.graph v).mFitness = (s.graph v).mFitness
        by_cases hvc : v = nb
        · rw [hvc] at hv ⊢
          refine ⟨Or.inl ho1, ?_⟩
          rcases hsub with ⟨ho, _⟩ | ⟨_, _, hfit⟩
          · exact absurd hv (not_flagged_iff.mpr ⟨ho, hc⟩)
          · exact hfit
        · rw [flagged_congr (hother v hvc), hother v hvc]
          exact ⟨hv, rfl⟩
      · intro v hv
        have hv1 : v ∈ (visitNeighbour W goal cur s nb).1.openList := hv
        rcases hsub with ⟨ho, hol⟩ | ⟨_, hol, _⟩
        · rw [hol] at hv1
          rcases List.mem_append.mp hv1 with h1 | h1
          · exact Or.inl h1
          · rw [List.mem_singleton.mp h1]
            exact Or.inr (not_flagged_iff.mpr ⟨ho, hc⟩)
        · rw [hol] at hv1
          exact Or.inl hv1
      · intro v hv
        exact hother v (ne_of_closed hv hc)
  | next s cur => exact ⟨fun v hv => ⟨hv, rfl⟩, fun v hv => Or.inl hv, fun v _ => rfl⟩

/-- The frame of `step_frame` along any number of steps from a point of the
search. -/
theorem steps_frame (W : World F) {g : Graph F n} (hclean : IsClean g) {start goal : Fin n}
    {c c2 : Config F n} (hc : SearchPoint W g start goal c)
    (hsteps : Relation.ReflTransGen (SearchStep W goal) c c2) :
    SearchPoint W g start goal c2 ∧
    (∀ v, Flagged c.state.graph v → Flagged c2.state.graph v ∧
      (c2.state.graph v).mFitness = (c.state.graph v).mFitness) ∧
    (∀ v, v ∈ c2.state.openList → v ∈ c.state.openList ∨ ¬ Flagged c.state.graph v) ∧
    (∀ v, (c.state.graph v).mClosed = true → c2.state.graph v = c.state.graph v) := by
  induction hsteps with
  | refl => exact ⟨hc, fun v hv => ⟨hv, rfl⟩, fun v hv => Or.inl hv, fun v _ => rfl⟩
  | @tail b c3 _ hstep ih =>
    obtain ⟨hb, ha, hq, hcl⟩ := ih
    obtain ⟨sa, sq, scl⟩ := step_frame W (flagInv_point W hclean hb) hstep
    refine ⟨Relation.ReflTransGen.tail hb hstep, ?_, ?_, ?_⟩
    · intro v hv
      obtain ⟨h1, h2⟩ := ha v hv
      obtain ⟨h3, h4⟩ := sa v h1
      exact ⟨h3, h4.trans h2⟩
    · intro v hv
      rcases sq v hv with h1 | h1
      · exact hq v h1
      · exact Or.inr (fun hf => h1 (ha v hf).1)
    · intro v hv
      have h1 := hcl v hv
      have h2 : (b.state.graph v).mClosed = true := by
        rw [h1]
        exact hv
      rw [scl v h2, h1]

/-- The neighbour loop runs through steps of the search. -/
theorem neighbourLoop_steps (W : World F) (goal cur : Fin n) :
    ∀ (nbs : List (Fin n)) (s : Search F n),
      Relation.ReflTransGen (SearchStep W goal) { state := s, pos := .inside cur nbs }
        { state := (neighbourLoop W goal cur nbs s).1
          pos := if (neighbourLoop W goal cur nbs s).2 = true then .found
            else .inside cur [] } := by
  intro nbs
  induction nbs with
  | nil =>
    intro s
    simp only [neighbourLoop, Bool.false_eq_true, if_false]
    exact Relation.ReflTransGen.refl
  | cons nb rest ih =>
    intro s
    have hstep := @SearchStep.visit F _ n W goal s cur nb rest
    rw [neighbourLoop]
    rcases hv : visitNeighbour W goal cur s nb with ⟨s1, hit⟩
    rw [hv] at hstep
    cases hit with
    | true =>
      simp only [if_true] at hstep ⊢
      exact Relation.ReflTransGen.single hstep
    | false =>
      simp only [Bool.false_eq_true, if_false] at hstep ⊢
      exact Relation.ReflTransGen.head hstep (ih s1)

/-- The main loop runs through steps of the search, and it returns false only
with an empty open list. -/
theorem searchLoop_steps (W : World F) (goal : Fin n) :
    ∀ (fuel : Nat) (tie : Nat → Nat) (s s1 : Search F n) (hit : Bool),
      searchLoop W goal fuel tie s = .ok (s1, hit) →
      Relation.ReflTransGen (SearchStep W goal) { state := s, pos := .head }
        { state := s1, pos := if hit = true then .found else .head } ∧
      (hit = false → s1.openList = []) := by
  intro fuel
  induction fuel with
  | zero =>
    intro tie s s1 hit h
    rw [searchLoop] at h
    split_ifs at h with hlen
    have hp := Except.ok.inj h
    have e1 : s = s1 := congrArg Prod.fst hp
    have e2 : false = hit := congrArg Prod.snd hp
    rw [← e1, ← e2]
    simp only [Bool.false_eq_true, if_false]
    refine ⟨Relation.ReflTransGen.refl, fun _ => ?_⟩
    exact List.eq_nil_of_length_eq_zero (by omega)
  | succ fuel ih =>
    intro tie s s1 hit h
    rw [searchLoop] at h
    split_ifs at h with hlen
    · cases hf : heapFront (tie 0) s.graph s.openList with
      | none =>
        rw [hf] at h
        exact Except.noConfusion h
      | some cur =>
        rw [hf] at h
        simp only at h
        have hpop := @SearchStep.pop F _ n W goal s (tie 0) cur hlen hf
        have hloop := neighbourLoop_steps W goal cur
          ((closeFront s cur).graph cur).mNeighbours (closeFront s cur)
        rcases hn : neighbourLoop W goal cur ((closeFront s cur).graph cur).mNeighbours
          (closeFront s cur) with ⟨s2, hit2⟩
        rw [hn] at h hloop
        cases hit2 with
        | true =>
          simp only at h
          have hp := Except.ok.inj h
          have e1 : s2 = s1 := congrArg Prod.fst hp
          have e2 : true = hit := congrArg Prod.snd hp
          rw [← e1, ← e2]
          simp only [if_true] at hloop ⊢
          exact ⟨Relation.ReflTransGen.head hpop hloop,
            fun hh => Bool.noConfusion hh⟩
        | false =>
          simp only at h
          simp only [Bool.false_eq_true, if_false] at hloop
          obtain ⟨h1, h2⟩ := ih (fun k => tie (k + 1)) s2 s1 hit h
          refine ⟨?_, h2⟩
          exact Relation.ReflTransGen.head hpop
            (Relation.ReflTransGen.trans hloop
              (Relation.ReflTransGen.head (@SearchStep.next F _ n W goal s2 cur) h1))
    · have hp := Except.ok.inj h
      have e1 : s = s1 := congrArg Prod.fst hp
      have e2 : false = hit := congrArg Prod.snd hp
      rw [← e1, ← e2]
      simp only [Bool.false_eq_true, if_false]
      refine ⟨Relation.ReflTransGen.refl, fun _ => ?_⟩
      exact List.eq_nil_of_length_eq_zero (by omega)

/-- With a chain of traversable neighbour steps from start to a different
goal, the main loop cannot return false. -/
theorem search_hit (W : World F) {g : Graph F n} (hclean : IsClean g) {start goal : Fin n}
    (hne : goal ≠ start) (hchain : Relation.TransGen (Edge W g) start goal)
    {fuel : Nat} {tie : Nat → Nat} {s : Search F n} {hit : Bool}
    (hs : searchLoop W goal fuel tie (seed W g start goal) = .ok (s, hit)) : hit = true := by
  cases hit with
  | true => rfl
  | false =>
    exfalso
    obtain ⟨hsteps, hempty⟩ := searchLoop_steps W goal fuel tie _ s false hs
    simp only [Bool.false_eq_true, if_false] at hsteps
    have hpt : SearchPoint W g start goal { state := s, pos := .head } := hsteps
    have hfl := flagInv_point W hclean hpt
    have hhead : (LoopPos.head : LoopPos n) ≠ .found := fun hh => LoopPos.noConfusion hh
    have hcl : ∀ v, Flagged s.graph v → (s.graph v).mClosed = true := by
      intro v hv
      rcases hv with h1 | h1
      · have hmem : v ∈ s.openList := (hfl.queued v).mpr h1
        rw [hempty rfl] at hmem
        exact absurd hmem (List.not_mem_nil v)
      · exact h1
    have hnext : ∀ p q, (s.graph p).mClosed = true → Edge W g p q →
        (s.graph q).mClosed = true := by
      intro p q hp he
      rcases hfl.expanded p hp q he.1 he.2 with h1 | h1 | ⟨rest, h1, _⟩
      · exact hcl q h1
      · exact absurd h1 hhead
      · exact LoopPos.noConfusion h1
    have hall : ∀ v, Relation.TransGen (Edge W g) start v → (s.graph v).mClosed = true := by
      intro v hv
      induction hv with
      | single he => exact hnext start _ (hcl start hfl.startFlagged) he
      | tail _ he ih => exact hnext _ _ ih he
    exact hfl.goalFresh hne hhead (Or.inr (hall goal hchain))

/-- With a chain of traversable neighbour steps from start to a different
goal, the main loop on a clean graph returns with the goal found. -/
theorem searchLoop_found (W : World F) (tie : Nat → Nat) {fuel : Nat} {g : Graph F n}
    (start goal : Fin n) (hclean : IsClean g) (hfuel : n ≤ fuel) (hne : start ≠ goal)
    (hchain : Relation.TransGen (Edge W g) start goal) :
    ∃ s, searchLoop W goal fuel tie (seed W g start goal) = .ok (s, true) := by
  obtain ⟨s, hit, hs, _⟩ := search_core W tie start goal hclean hfuel
  have hhit : hit = true := search_hit W hclean (Ne.symm hne) hchain hs
  rw [hhit] at hs
  exact ⟨s, hs⟩

/-- With a chain of traversable neighbour steps from start to a different
goal, the call on a clean graph returns true. -/
theorem generatePath_found (W : World F) (tie : Nat → Nat) (fuel : Nat)
    (g : Graph F n) (start goal : Fin n) (replyList : List (Fin n)) (smooth : Bool)
    (hclean : IsClean g) (hfuel : n + replyList.length ≤ fuel) (hne : start ≠ goal)
    (hchain : Relation.TransGen (Edge W g) start goal) :
    ∃ r, generatePath W tie fuel g start goal replyList smooth = .ok r ∧ r.found = true := by
  obtain ⟨s, hit, hs, hreset, _, hpath⟩ :=
    search_core W tie start goal hclean (by omega : n ≤ fuel)
  have hhit : hit = true := search_hit W hclean (Ne.symm hne) hchain hs
  obtain ⟨P, _, _, _, htrace⟩ := hpath hhit
  rw [hhit] at hs
  rcases generatePath_run W tie start goal hclean (by omega : n ≤ fuel) with
    hno | ⟨P1, hP1, hne1, hlen1, hrun⟩
  · have h1 := hno replyList false
    simp [generatePath, hs, htrace replyList] at h1
  · rw [hrun replyList smooth]
    cases smooth with
    | false => exact ⟨_, rfl, rfl⟩
    | true =>
      have h2 := hP1.two_le hne1
      obtain ⟨out, o1, _⟩ := smoothPath_spec W g fuel (P1 ++ replyList)
        (by rw [List.length_append]; omega) (by rw [List.length_append]; omega)
      simp only [if_true, o1]
      exact ⟨_, rfl, rfl⟩

/-- On the five-node line in the sample world the neighbour steps 0, 1, 2, 3,
4 are a chain of traversable edges. -/
theorem line5_chain : Relation.TransGen (Edge sampleWorld (lineGraph ℚ 5)) 0 4 := by
  have hedge : ∀ (a b : Fin 5), b.val = a.val + 1 → Edge sampleWorld (lineGraph ℚ 5) a b := by
    intro a b hab
    refine ⟨?_, ?_⟩
    · revert hab
      revert a b
      decide
    · show (0 : ℚ) < 1000
      norm_num
  exact Relation.TransGen.tail (Relation.TransGen.tail (Relation.TransGen.tail
    (Relation.TransGen.single (hedge 0 1 rfl)) (hedge 1 2 rfl)) (hedge 2 3 rfl))
    (hedge 3 4 rfl)

end Points

/-! ## The claims -/

section Claims

variable {F : Type} [LinearOrderedField F] {n : Nat}

/-- C1, path validity: on a clean graph, with fuel for every node and an empty
reply list, `generatePath` without smoothing returns; when it returns true the
reply list is non-empty, its first element is the start node, its last
element is the goal node, and for every consecutive pair `(p, q)` of it `q` is
in the neighbour list of `p` and the move modifier of `q` is strictly below
`IAIPATHGLOBAL_MOVE_MODIFIER_UNTRAVERSAL`. -/
theorem generatePath_path_valid (W : World F) (tie : Nat → Nat) (fuel : Nat) (g : Graph F n)
    (start goal : Fin n) (hclean : IsClean g) (hfuel : n ≤ fuel) :
    ∃ r, generatePath W tie fuel g start goal [] false = .ok r ∧
      (r.found = true →
        r.replyList ≠ [] ∧ r.replyList.head? = some start ∧
        r.replyList.getLast? = some goal ∧
        List.Chain' (fun p q => q ∈ (g p).mNeighbours ∧
          (g q).mMoveModifier < W.IAIPATHGLOBAL_MOVE_MODIFIER_UNTRAVERSAL) r.replyList) := by
  rcases generatePath_run W tie start goal hclean hfuel with h | ⟨P, hP, hne, _, h⟩
  · refine ⟨_, h [] false, ?_⟩
    intro hf
    exact Bool.noConfusion hf
  · refine ⟨{ found := true, graph := g, replyList := P ++ [] }, ?_, ?_⟩
    · rw [h [] false]
      simp
    · intro _
      simp only [List.append_nil]
      have h2 := hP.two_le hne
      refine ⟨?_, hP.head, hP.last, hP.chain⟩
      intro hnil
      rw [hnil] at h2
      simp at h2

/-- Witness of C1 on the line graph of five nodes, where the call returns
true. -/
theorem generatePath_path_valid_witness :
    IsClean (lineGraph ℚ 5) ∧ 5 ≤ 5 ∧
    (∃ r, generatePath sampleWorld (fun _ => 0) 5 (lineGraph ℚ 5) 0 4 [] false = .ok r ∧
      (r.found = true →
        r.replyList ≠ [] ∧ r.replyList.head? = some 0 ∧
        r.replyList.getLast? = some 4 ∧
        List.Chain' (fun p q => q ∈ (lineGraph ℚ 5 p).mNeighbours ∧
          (lineGraph ℚ 5 q).mMoveModifier <
            sampleWorld.IAIPATHGLOBAL_MOVE_MODIFIER_UNTRAVERSAL) r.replyList)) ∧
    ∃ r, generatePath sampleWorld (fun _ => 0) 5 (lineGraph ℚ 5) 0 4 [] false = .ok r ∧
      r.found = true :=
  ⟨fun _ => ⟨rfl, rfl, rfl, rfl, rfl, rfl⟩, le_refl 5,
    generatePath_path_valid sampleWorld (fun _ => 0) 5 (lineGraph ℚ 5) 0 4
      (fun _ => ⟨rfl, rfl, rfl, rfl, rfl, rfl⟩) (le_refl 5),
    generatePath_found sampleWorld (fun _ => 0) 5 (lineGraph ℚ 5) 0 4 [] false
      (fun _ => ⟨rfl, rfl, rfl, rfl, rfl, rfl⟩) (le_refl 5) (by decide) line5_chain⟩

/-- C2, graph left as found: on a clean graph, for every start, goal, reply
list and smoothing flag, with fuel for every node and every element of the
reply list, `generatePath` returns, and afterwards the graph is the one the
call started with: every node has default transient fields again and its
position, neighbour list and move modifier are unchanged. -/
theorem generatePath_graph_restored (W : World F) (tie : Nat → Nat) (fuel : Nat)
    (g : Graph F n) (start goal : Fin n) (replyList : List (Fin n)) (smooth : Bool)
    (hclean : IsClean g) (hfuel : n + replyList.length ≤ fuel) :
    ∃ r, generatePath W tie fuel g start goal replyList smooth = .ok r ∧
      r.graph = g ∧ IsClean r.graph ∧ ∀ v, (r.graph v).SameStatic (g v) :=
  generatePath_total W tie fuel g start goal replyList smooth hclean hfuel

/-- Witness of C2 on the line graph of five nodes, with smoothing. -/
theorem generatePath_graph_restored_witness :
    IsClean (lineGraph ℚ 5) ∧ 5 + ([] : List (Fin 5)).length ≤ 5 ∧
    ∃ r, generatePath sampleWorld (fun _ => 0) 5 (lineGraph ℚ 5) 0 4 [] true = .ok r ∧
      r.graph = lineGraph ℚ 5 ∧ IsClean r.graph ∧
      ∀ v, (r.graph v).SameStatic (lineGraph ℚ 5 v) :=
  ⟨fun _ => ⟨rfl, rfl, rfl, rfl, rfl, rfl⟩, le_refl 5,
    generatePath_graph_restored sampleWorld (fun _ => 0) 5 (lineGraph ℚ 5) 0 4 [] true
      (fun _ => ⟨rfl, rfl, rfl, rfl, rfl, rfl⟩) (le_refl 5)⟩

/-- C3, no-path correctness: on a clean graph where no chain of one or more
neighbour steps leads from start to goal, `generatePath` (with fuel for every
node) returns false, and afterwards every node has default transient fields. -/
theorem generatePath_no_path (W : World F) (tie : Nat → Nat) (fuel : Nat) (g : Graph F n)
    (start goal : Fin n) (replyList : List (Fin n)) (smooth : Bool)
    (hclean : IsClean g) (hfuel : n ≤ fuel)
    (hunreach : ¬ Relation.TransGen (fun p q => q ∈ (g p).mNeighbours) start goal) :
    ∃ r, generatePath W tie fuel g start goal replyList smooth = .ok r ∧
      r.found = false ∧ IsClean r.graph := by
  rcases generatePath_run W tie start goal hclean hfuel with h | ⟨P, hP, hne, _, _⟩
  · exact ⟨_, h replyList smooth, rfl, hclean⟩
  · rcases hP.reach with ⟨h1, _⟩ | ⟨h1, _⟩
    · exact absurd h1 hne
    · exact absurd h1 hunreach

/-- Witness of C3 on two nodes without neighbours. -/
theorem generatePath_no_path_witness :
    IsClean isolatedGraph ∧ 2 ≤ 2 ∧
    ¬ Relation.TransGen (fun p q => q ∈ (isolatedGraph p).mNeighbours) 0 1 ∧
    ∃ r, generatePath sampleWorld (fun _ => 0) 2 isolatedGraph 0 1 [] false = .ok r ∧
      r.found = false ∧ IsClean r.graph :=
  have hun : ¬ Relation.TransGen (fun p q => q ∈ (isolatedGraph p).mNeighbours) 0 1 := by
    intro h
    obtain ⟨c, hc, _⟩ := Relation.TransGen.head'_iff.mp h
    simp [isolatedGraph, cleanNode] at hc
  ⟨fun _ => ⟨rfl, rfl, rfl, rfl, rfl, rfl⟩, le_refl 2, hun,
    generatePath_no_path sampleWorld (fun _ => 0) 2 isolatedGraph 0 1 [] false
      (fun _ => ⟨rfl, rfl, rfl, rfl, rfl, rfl⟩) (le_refl 2) hun⟩

/-- C6, state cleanliness across calls: on a clean graph, calling
`generatePath` twice in succession with the same arguments, the same heap
tie-breaking and the same world, each time with an empty reply list, returns
both times, with the same flag and the same path. -/
theorem generatePath_twice (W : World F) (tie : Nat → Nat) (fuel : Nat) (g : Graph F n)
    (start goal : Fin n) (smooth : Bool) (hclean : IsClean g) (hfuel : n ≤ fuel) :
    ∃ r1 r2, generatePath W tie fuel g start goal [] smooth = .ok r1 ∧
      generatePath W tie fuel r1.graph start goal [] smooth = .ok r2 ∧
      r2.found = r1.found ∧ r2.replyList = r1.replyList := by
  obtain ⟨r, hr, hg, _⟩ := generatePath_total W tie fuel g start goal [] smooth
    hclean (by simpa using hfuel)
  refine ⟨r, r, hr, ?_, rfl, rfl⟩
  rw [hg]
  exact hr

/-- Witness of C6 on the line graph of five nodes, with smoothing. -/
theorem generatePath_twice_witness :
    IsClean (lineGraph ℚ 5) ∧ 5 ≤ 5 ∧
    ∃ r1 r2, generatePath sampleWorld (fun _ => 0) 5 (lineGraph ℚ 5) 0 4 [] true = .ok r1 ∧
      generatePath sampleWorld (fun _ => 0) 5 r1.graph 0 4 [] true = .ok r2 ∧
      r2.found = r1.found ∧ r2.replyList = r1.replyList :=
  ⟨fun _ => ⟨rfl, rfl, rfl, rfl, rfl, rfl⟩, le_refl 5,
    generatePath_twice sampleWorld (fun _ => 0) 5 (lineGraph ℚ 5) 0 4 true
      (fun _ => ⟨rfl, rfl, rfl, rfl, rfl, rfl⟩) (le_refl 5)⟩

/-- C7, smoothing shortens or preserves: for every path of at least two nodes
and every world (so every behaviour of the ray cast), `smoothPath` returns a
list that is an order-preserving sublist of the input, is at most as long, and
has the same first and the same last element. -/
theorem smoothPath_shortens (W : World F) (g : Graph F n) (fuel : Nat)
    (reply : List (Fin n)) (h2 : 2 ≤ reply.length) (hfuel : reply.length ≤ fuel + 2) :
    ∃ out, smoothPath W g fuel reply = .ok out ∧ out.Sublist reply ∧
      out.length ≤ reply.length ∧ out.head? = reply.head? ∧
      out.getLast? = reply.getLast? := by
  obtain ⟨out, o1, o2, o3, o4, _⟩ := smoothPath_spec W g fuel reply h2 hfuel
  exact ⟨out, o1, o2, o2.length_le, o3, o4⟩

/-- Witness of C7 on the five nodes of the line graph. -/
theorem smoothPath_shortens_witness :
    2 ≤ ([0, 1, 2, 3, 4] : List (Fin 5)).length ∧
    ([0, 1, 2, 3, 4] : List (Fin 5)).length ≤ 3 + 2 ∧
    ∃ out, smoothPath sampleWorld (lineGraph ℚ 5) 3 [0, 1, 2, 3, 4] = .ok out ∧
      out.Sublist [0, 1, 2, 3, 4] ∧ out.length ≤ ([0, 1, 2, 3, 4] : List (Fin 5)).length ∧
      out.head? = ([0, 1, 2, 3, 4] : List (Fin 5)).head? ∧
      out.getLast? = ([0, 1, 2, 3, 4] : List (Fin 5)).getLast? :=
  ⟨by decide, by decide,
    smoothPath_shortens sampleWorld (lineGraph ℚ 5) 3 [0, 1, 2, 3, 4] (by decide) (by decide)⟩

/-- C9, smoothing respects obstruction: when the ray cast reports the segment
between the clearance-raised positions of `a` and `c` as obstructed,
`smoothPath` leaves the three-node path `[a, b, c]` as it is, whatever the
positions, the other constants and the fuel (at least one iteration) are; and
on every path of at least two nodes, in every world, `smoothPath` returns a
list that is reached from the input by erasures each of which
`smoothPathConnectionValid` allowed for the erased node's neighbours in the
list at that moment. -/
theorem smoothPath_respects_obstruction (W : World F) (g : Graph F n) (fuel : Nat)
    (a b c : Fin n) (reply : List (Fin n))
    (h2 : 2 ≤ reply.length) (hfuel : reply.length ≤ fuel + 2) :
    (W.castRay (W.raise (g a).mPosition) (W.raise (g c).mPosition) = true →
      ∀ k, smoothPath W g (k + 1) [a, b, c] = .ok [a, b, c]) ∧
    ∃ out, smoothPath W g fuel reply = .ok out ∧
      Relation.ReflTransGen (ValidErase W g) reply out := by
  constructor
  · intro hobst k
    have hconn : smoothPathConnectionValid W (g a).mPosition (g c).mPosition = false := by
      unfold smoothPathConnectionValid
      rw [if_pos hobst]
    have hb : smoothBound ([a, b, c] : List (Fin n)).length = 1 := by
      simp only [List.length_cons, List.length_nil]
      rfl
    have hstop : smoothPathLoop W g k (0 + 1) [a, b, c] = .ok [a, b, c] := by
      cases k <;> rw [smoothPathLoop, if_neg (by rw [hb]; omega)]
    obtain ⟨a1, b1, c1, ha, hb1, hc, hstep⟩ := smoothPathLoop_step W g k 0 [a, b, c]
      (Nat.le_add_left 2 1) (by rw [hb]; exact Nat.one_pos)
    have ha1 : a1 = a := (Option.some.inj ha).symm
    have hc1 : c1 = c := (Option.some.inj hc).symm
    subst ha1
    subst hc1
    have he : smoothErase W g a1 b1 c1 = false := by
      unfold smoothErase
      rw [hconn]
      simp
    unfold smoothPath
    rw [hstep, he]
    exact hstop
  · obtain ⟨out, o1, _⟩ := smoothPath_spec W g fuel reply h2 hfuel
    exact ⟨out, o1, smoothPathLoop_erases W g fuel 0 reply out o1⟩

/-- Witness of C9 on nodes 1 to 5 of the six-node line, in the world whose
only obstruction lies between node 1 and node 3. The triple `[1, 2, 3]`
passes the slope test and the angle test: without the obstruction node 2 is
erased, with it node 2 is kept. On `[1, 2, 3, 4, 5]` node 2 is kept and the
nodes 3 and 4, whose neighbours are connected, are erased. -/
theorem smoothPath_respects_obstruction_witness :
    2 ≤ ([1, 2, 3, 4, 5] : List (Fin 6)).length ∧
    ([1, 2, 3, 4, 5] : List (Fin 6)).length ≤ 3 + 2 ∧
    ((pillarWorld.castRay (pillarWorld.raise (lineGraph ℚ 6 1).mPosition)
        (pillarWorld.raise (lineGraph ℚ 6 3).mPosition) = true →
      ∀ k, smoothPath pillarWorld (lineGraph ℚ 6) (k + 1) [1, 2, 3] = .ok [1, 2, 3]) ∧
    ∃ out, smoothPath pillarWorld (lineGraph ℚ 6) 3 [1, 2, 3, 4, 5] = .ok out ∧
      Relation.ReflTransGen (ValidErase pillarWorld (lineGraph ℚ 6)) [1, 2, 3, 4, 5] out) ∧
    pillarWorld.castRay (pillarWorld.raise (lineGraph ℚ 6 1).mPosition)
      (pillarWorld.raise (lineGraph ℚ 6 3).mPosition) = true ∧
    smoothPath sampleWorld (lineGraph ℚ 6) 1 [1, 2, 3] = .ok [1, 3] ∧
    smoothPath pillarWorld (lineGraph ℚ 6) 1 [1, 2, 3] = .ok [1, 2, 3] ∧
    smoothPath pillarWorld (lineGraph ℚ 6) 3 [1, 2, 3, 4, 5] = .ok [1, 2, 5] :=
  ⟨by decide, by decide,
    smoothPath_respects_obstruction pillarWorld (lineGraph ℚ 6) 3 1 2 3 [1, 2, 3, 4, 5]
      (by decide) (by decide),
    by decide!, eq_ok_of_toOption (by decide!), eq_ok_of_toOption (by decide!),
    eq_ok_of_toOption (by decide!)⟩

/-- C10, smoothing is applied to the search result: on a clean graph, for
every start, goal, reply list and world, `generatePath` with smoothing returns
true exactly when it does without; in that case its reply list is `smoothPath`
applied to the reply list of the call without smoothing, it starts at the
start node, and it ends at the goal node when the reply list was empty at the
call; when both return false the reply lists agree. -/
theorem generatePath_smooth_applied (W : World F) (tie : Nat → Nat) (fuel : Nat)
    (g : Graph F n) (start goal : Fin n) (replyList : List (Fin n))
    (hclean : IsClean g) (hfuel : n + replyList.length ≤ fuel) :
    ∃ raw sm, generatePath W tie fuel g start goal replyList false = .ok raw ∧
      generatePath W tie fuel g start goal replyList true = .ok sm ∧
      sm.found = raw.found ∧
      (raw.found = false → sm.replyList = raw.replyList) ∧
      (raw.found = true →
        smoothPath W g fuel raw.replyList = .ok sm.replyList ∧
        sm.replyList.head? = some start ∧
        (replyList = [] → sm.replyList.getLast? = some goal)) := by
  rcases generatePath_run W tie start goal hclean (by omega : n ≤ fuel) with
    h | ⟨P, hP, hne, hlen, h⟩
  · refine ⟨_, _, h replyList false, h replyList true, rfl, fun _ => rfl, ?_⟩
    intro hf
    exact Bool.noConfusion hf
  · have h2 := hP.two_le hne
    obtain ⟨out, o1, _, o3, o4, _⟩ := smoothPath_spec W g fuel (P ++ replyList)
      (by rw [List.length_append]; omega) (by rw [List.length_append]; omega)
    refine ⟨{ found := true, graph := g, replyList := P ++ replyList },
      { found := true, graph := g, replyList := out }, ?_, ?_, rfl, ?_, ?_⟩
    · rw [h replyList false]
      simp
    · rw [h replyList true]
      simp only [if_true, o1]
      rfl
    · intro hf
      exact Bool.noConfusion hf
    · intro _
      refine ⟨o1, ?_, ?_⟩
      · simp only
        rw [o3, List.head?_append, hP.head]
        rfl
      · intro hnil
        simp only
        rw [o4, hnil, List.append_nil, hP.last]

/-- Witness of C10 on the line graph of five nodes, where the call returns
true. -/
theorem generatePath_smooth_applied_witness :
    IsClean (lineGraph ℚ 5) ∧ 5 + ([] : List (Fin 5)).length ≤ 5 ∧
    (∃ raw sm, generatePath sampleWorld (fun _ => 0) 5 (lineGraph ℚ 5) 0 4 [] false = .ok raw ∧
      generatePath sampleWorld (fun _ => 0) 5 (lineGraph ℚ 5) 0 4 [] true = .ok sm ∧
      sm.found = raw.found ∧
      (raw.found = false → sm.replyList = raw.replyList) ∧
      (raw.found = true →
        smoothPath sampleWorld (lineGraph ℚ 5) 5 raw.replyList = .ok sm.replyList ∧
        sm.replyList.head? = some 0 ∧
        (([] : List (Fin 5)) = [] → sm.replyList.getLast? = some 4))) ∧
    ∃ raw, generatePath sampleWorld (fun _ => 0) 5 (lineGraph ℚ 5) 0 4 [] false = .ok raw ∧
      raw.found = true :=
  ⟨fun _ => ⟨rfl, rfl, rfl, rfl, rfl, rfl⟩, le_refl 5,
    generatePath_smooth_applied sampleWorld (fun _ => 0) 5 (lineGraph ℚ 5) 0 4 []
      (fun _ => ⟨rfl, rfl, rfl, rfl, rfl, rfl⟩) (le_refl 5),
    generatePath_found sampleWorld (fun _ => 0) 5 (lineGraph ℚ 5) 0 4 [] false
      (fun _ => ⟨rfl, rfl, rfl, rfl, rfl, rfl⟩) (le_refl 5) (by decide) line5_chain⟩

/-- C8, the code on the corridor from the origin: the flat, straight,
unobstructed corridor `(0,0,0), (1,0,0), ..., (4,0,0)` is not reduced to its
two end nodes. The first node is the origin, so the divisor `(A*C).len()` of
line 182 is `mSqrt 0`: in every world where that is zero the angle test fails
for the first triple and the smoothed list still begins with nodes 0 and 1;
in the sample world the result is `[0, 1, 4]`, where the claim says `[0, 4]`. -/
theorem smoothPath_corridor_origin :
    (∀ W : World ℚ, W.mSqrt 0 = 0 → ∀ fuel out,
      smoothPath W (lineGraph ℚ 5) fuel [0, 1, 2, 3, 4] = .ok out → out.take 2 = [0, 1]) ∧
    smoothPath sampleWorld (lineGraph ℚ 5) 3 [0, 1, 2, 3, 4] = .ok [0, 1, 4] := by
  constructor
  · intro W hW fuel out h
    have h2 : 2 ≤ ([0, 1, 2, 3, 4] : List (Fin 5)).length := by decide
    have hb : smoothBound ([0, 1, 2, 3, 4] : List (Fin 5)).length = 3 := by
      simp only [List.length_cons, List.length_nil]
      rfl
    unfold smoothPath at h
    cases fuel with
    | zero =>
      rw [smoothPathLoop, if_pos (by rw [hb]; omega)] at h
      cases h
    | succ fuel =>
      obtain ⟨a, b, c, ha, _, hc, hstep⟩ := smoothPathLoop_step W (lineGraph ℚ 5) fuel 0
        [0, 1, 2, 3, 4] h2 (by rw [hb]; omega)
      have ha1 : a = 0 := (Option.some.inj ha).symm
      have hc1 : c = 2 := (Option.some.inj hc).symm
      subst ha1
      subst hc1
      have hang : angleInRange W (lineGraph ℚ 5 0).mPosition (lineGraph ℚ 5 2).mPosition
          = false := by
        have hd : W.len ((lineGraph ℚ 5 0).mPosition.mul (lineGraph ℚ 5 2).mPosition) = 0 := by
          simp [World.len, Point3F.mul, Point3F.lenSquared, lineGraph, cleanNode, hW]
        unfold angleInRange
        simp only [hd, if_true]
      have he : smoothErase W (lineGraph ℚ 5) 0 b 2 = false := by
        unfold smoothErase
        rw [hang]
        simp
      rw [hstep, he] at h
      exact smoothPathLoop_prefix W (lineGraph ℚ 5) fuel 1 [0, 1, 2, 3, 4] out h2 h
  · exact eq_ok_of_toOption (by decide!)

/-- Where the collapse does happen: for a path `a :: mid ++ [z]` (fewer than
`2 ^ 32` nodes) in which every node of `mid` is at the height of `a`, with a
positive `IAIPATHGLOBAL_MAX_SMOOTHED_SLOPE`, a ray cast that reports no
obstruction, and the test of lines 182-185 on the position vectors passing
between `a` and every node from the third on, `smoothPath` reduces the path
to `[a, z]`. -/
theorem smoothPath_corridor_collapse (W : World F) (g : Graph F n) (fuel : Nat)
    (a z : Fin n) (mid : List (Fin n))
    (hlen : mid.length + 2 < 2 ^ 32) (hfuel : mid.length ≤ fuel)
    (hmax : 0 < W.IAIPATHGLOBAL_MAX_SMOOTHED_SLOPE)
    (hclear : ∀ p q, W.castRay p q = false)
    (hflat : ∀ v ∈ mid, (g v).mPosition.z = (g a).mPosition.z)
    (hangle : ∀ v ∈ mid.tail ++ [z],
      angleInRange W (g a).mPosition (g v).mPosition = true) :
    smoothPath W g fuel (a :: (mid ++ [z])) = .ok [a, z] :=
  smoothPathLoop_collapse W g a z hmax hclear mid fuel hlen hfuel hflat hangle

/-- The corridor `(1,0,0), ..., (5,0,0)` in the sample world, which has the
shape of the corridor from the origin moved by one unit, is reduced to its
two end nodes. -/
theorem smoothPath_corridor_collapse_witness :
    smoothPath sampleWorld (lineGraph ℚ 6) 3 (1 :: ([2, 3, 4] ++ [5])) = .ok [1, 5] :=
  smoothPath_corridor_collapse sampleWorld (lineGraph ℚ 6) 3 1 5 [2, 3, 4]
    (by decide) (by decide) (by decide!) (fun _ _ => rfl) (by decide!) (by decide!)

/-- C5, line-graph scenario: for every `n ≥ 2`, on the clean line graph of `n`
nodes at unit spacing with all modifiers zero (zero being below the
untraversable mark, and the engine's square root of 1 being 1),
`generatePath` from node 0 to node `n - 1` without smoothing and with an
empty reply list returns true, leaves the graph as it was, and the path is
exactly `[0, 1, ..., n - 1]`, whose summed step lengths are `n - 1`. -/
theorem generatePath_line (W : World F) (tie : Nat → Nat) (n fuel : Nat)
    (start goal : Fin n) (hn : 2 ≤ n) (hstart : start.val = 0) (hgoal : goal.val = n - 1)
    (hfuel : n ≤ fuel) (hU : 0 < W.IAIPATHGLOBAL_MOVE_MODIFIER_UNTRAVERSAL)
    (hsqrt : W.mSqrt 1 = 1) :
    generatePath W tie fuel (lineGraph F n) start goal [] false =
      .ok { found := true, graph := lineGraph F n, replyList := List.finRange n } ∧
    pathCost W (lineGraph F n) (List.finRange n) = (n : F) - 1 := by
  have hclean : IsClean (lineGraph F n) := fun _ => ⟨rfl, rfl, rfl, rfl, rfl, rfl⟩
  constructor
  · obtain ⟨s1, hsearch, hroot, hparent⟩ :=
      line_search W hU goal (by omega) fuel tie 0
        (seed W (lineGraph F n) start goal) (lineInv_seed W start goal hstart)
        (by omega) (by omega)
    obtain ⟨s, hit, hs, hreset, _, _⟩ := search_core W tie start goal hclean hfuel
    rw [hsearch] at hs
    have hpair := Except.ok.inj hs
    have hs1 : s1 = s := congrArg Prod.fst hpair
    subst hs1
    obtain ⟨rl, htrace, hmap⟩ := line_trace s1.graph hroot hparent (n - 1) (by omega)
    have hg : (⟨n - 1, by omega⟩ : Fin n) = goal := Fin.ext hgoal.symm
    rw [hg] at htrace
    have hlen : rl.length = n := by
      have := congrArg List.length hmap
      simp only [List.length_map, List.length_reverse, List.length_range] at this
      omega
    have hrev : rl.reverse = List.finRange n := by
      apply List.map_injective_iff.mpr Fin.val_injective
      rw [List.map_reverse, hmap, List.reverse_reverse, List.map_coe_finRange]
      congr 1
      omega
    have hwalk := tracePath_of_isTrace s1.graph rl fuel (some goal) [] htrace (by omega)
    simp only [generatePath, hsearch, hwalk, hreset, hrev, List.append_nil]
    rfl
  · rcases line_pathCost W hsqrt (List.finRange n) (line_chain n) with h | h
    · rw [h, List.length_finRange]
    · have := congrArg List.length h
      simp only [List.length_finRange, List.length_nil] at this
      omega

/-- Witness of C5 for `n = 5` in the sample world. -/
theorem generatePath_line_witness :
    generatePath sampleWorld (fun _ => 0) 5 (lineGraph ℚ 5) 0 4 [] false =
      .ok { found := true, graph := lineGraph ℚ 5, replyList := List.finRange 5 } ∧
    pathCost sampleWorld (lineGraph ℚ 5) (List.finRange 5) = ((5 : Nat) : ℚ) - 1 :=
  generatePath_line sampleWorld (fun _ => 0) 5 5 0 4 (by decide) rfl rfl (le_refl 5)
    (by decide!) (by decide!)

end Claims

/-! ## The claims, continued -/

section Claims2

variable {F : Type} [LinearOrderedField F] {n : Nat}

/-- C11, reset contract: for every list of node handles (duplicates and nodes
never relaxed included) `resetNodeVariables` leaves every listed node with
fitness, lowest cost and heuristic 0, no parent, open and closed false, and
its static fields as they were; leaves every node not in the list unchanged;
and applying it twice gives the same graph as applying it once. -/
theorem resetNodeVariables_contract (g : Graph F n) (affectedList : List (Fin n)) :
    (∀ v ∈ affectedList,
      (resetNodeVariables g affectedList v).IsDefault ∧
      (resetNodeVariables g affectedList v).SameStatic (g v)) ∧
    (∀ v, v ∉ affectedList → resetNodeVariables g affectedList v = g v) ∧
    resetNodeVariables (resetNodeVariables g affectedList) affectedList =
      resetNodeVariables g affectedList := by
  refine ⟨?_, ?_, ?_⟩
  · intro v hv
    rw [resetNodeVariables_apply, if_pos hv]
    exact ⟨⟨rfl, rfl, rfl, rfl, rfl, rfl⟩, ⟨rfl, rfl, rfl⟩⟩
  · intro v hv
    rw [resetNodeVariables_apply, if_neg hv]
  · funext v
    rw [resetNodeVariables_apply, resetNodeVariables_apply]
    by_cases hv : v ∈ affectedList
    · simp only [if_pos hv, PathNode.reset_reset]
    · simp only [if_neg hv]

/-- C12, smoothing terminates: on a path of at least two nodes, in every world,
the smoothing loop from cursor `iter` returns when it has fuel for
`length - 2 - iter` iterations. While `iter` is below the bound each iteration
either erases the node at `iter + 1` (one node fewer, cursor unchanged) or
advances the cursor by one, and either way `length - 2 - iter` strictly
decreases; when `iter` is not below the bound the loop stops with the list as
it is; and for a list of fewer than `2 ^ 32` nodes `iter` is below the bound
exactly when `iter + 2 < length`. -/
theorem smoothPath_terminates (W : World F) (g : Graph F n) (fuel iter : Nat)
    (reply : List (Fin n)) (h2 : 2 ≤ reply.length) (hfuel : reply.length ≤ fuel + iter + 2) :
    (∃ out, smoothPathLoop W g fuel iter reply = .ok out) ∧
    (iter < smoothBound reply.length →
      ∃ a b c, reply.get? iter = some a ∧ reply.get? (iter + 1) = some b ∧
        reply.get? (iter + 2) = some c ∧
        (∀ k, smoothPathLoop W g (k + 1) iter reply =
          if smoothErase W g a b c = true then
            smoothPathLoop W g k iter (reply.eraseIdx (iter + 1))
          else smoothPathLoop W g k (iter + 1) reply) ∧
        (reply.eraseIdx (iter + 1)).length + 1 = reply.length ∧
        (reply.eraseIdx (iter + 1)).length - 2 - iter < reply.length - 2 - iter ∧
        reply.length - 2 - (iter + 1) < reply.length - 2 - iter) ∧
    (¬ iter < smoothBound reply.length →
      ∀ k, smoothPathLoop W g k iter reply = .ok reply) ∧
    (reply.length < 2 ^ 32 → (iter < smoothBound reply.length ↔ iter + 2 < reply.length)) := by
  refine ⟨?_, ?_, ?_, ?_⟩
  · obtain ⟨out, o1, _⟩ := smoothPathLoop_spec W g fuel iter reply h2 hfuel
    exact ⟨out, o1⟩
  · intro hlt
    have hb := smoothBound_le h2
    obtain ⟨a, b, c, ha, hb1, hc, _⟩ := smoothPathLoop_step W g 0 iter reply h2 hlt
    have hl : (reply.eraseIdx (iter + 1)).length = reply.length - 1 :=
      List.length_eraseIdx_of_lt (by omega)
    refine ⟨a, b, c, ha, hb1, hc, ?_, by omega, by omega, by omega⟩
    intro k
    obtain ⟨a1, b1, c1, ha1, hb2, hc1, hstep⟩ := smoothPathLoop_step W g k iter reply h2 hlt
    rw [ha] at ha1
    rw [hb1] at hb2
    rw [hc] at hc1
    rw [Option.some.inj ha1, Option.some.inj hb2, Option.some.inj hc1]
    exact hstep
  · intro hlt k
    cases k <;> rw [smoothPathLoop, if_neg hlt]
  · intro h32
    rw [smoothBound_eq h2 h32]
    omega

/-- Witness of C12 on the five nodes of the line graph. -/
theorem smoothPath_terminates_witness :
    (∃ out, smoothPathLoop sampleWorld (lineGraph ℚ 5) 3 0 [0, 1, 2, 3, 4] = .ok out) ∧
    (0 < smoothBound ([0, 1, 2, 3, 4] : List (Fin 5)).length →
      ∃ a b c, ([0, 1, 2, 3, 4] : List (Fin 5)).get? 0 = some a ∧
        ([0, 1, 2, 3, 4] : List (Fin 5)).get? (0 + 1) = some b ∧
        ([0, 1, 2, 3, 4] : List (Fin 5)).get? (0 + 2) = some c ∧
        (∀ k, smoothPathLoop sampleWorld (lineGraph ℚ 5) (k + 1) 0 [0, 1, 2, 3, 4] =
          if smoothErase sampleWorld (lineGraph ℚ 5) a b c = true then
            smoothPathLoop sampleWorld (lineGraph ℚ 5) k 0
              (([0, 1, 2, 3, 4] : List (Fin 5)).eraseIdx (0 + 1))
          else smoothPathLoop sampleWorld (lineGraph ℚ 5) k (0 + 1) [0, 1, 2, 3, 4]) ∧
        (([0, 1, 2, 3, 4] : List (Fin 5)).eraseIdx (0 + 1)).length + 1 =
          ([0, 1, 2, 3, 4] : List (Fin 5)).length ∧
        (([0, 1, 2, 3, 4] : List (Fin 5)).eraseIdx (0 + 1)).length - 2 - 0 <
          ([0, 1, 2, 3, 4] : List (Fin 5)).length - 2 - 0 ∧
        ([0, 1, 2, 3, 4] : List (Fin 5)).length - 2 - (0 + 1) <
          ([0, 1, 2, 3, 4] : List (Fin 5)).length - 2 - 0) ∧
    (¬ 0 < smoothBound ([0, 1, 2, 3, 4] : List (Fin 5)).length →
      ∀ k, smoothPathLoop sampleWorld (lineGraph ℚ 5) k 0 [0, 1, 2, 3, 4] =
        .ok [0, 1, 2, 3, 4]) ∧
    (([0, 1, 2, 3, 4] : List (Fin 5)).length < 2 ^ 32 →
      (0 < smoothBound ([0, 1, 2, 3, 4] : List (Fin 5)).length ↔
        0 + 2 < ([0, 1, 2, 3, 4] : List (Fin 5)).length)) :=
  smoothPath_terminates sampleWorld (lineGraph ℚ 5) 3 0 [0, 1, 2, 3, 4] (by decide) (by decide)

/-- C16, already-open relaxation step: when the expanded node `cur` meets a
neighbour `nb` that is open, not closed and traversable, the step replaces
parent and lowest cost by `cur` and the candidate
`cur.lowest + distance(cur, nb) + nb.modifier` when the parent is not `cur`
and the candidate is strictly less than the lowest cost, and leaves both as
they were otherwise; in every case fitness, heuristic, flags and static fields
of `nb` are as before, every other node is unchanged, the open list is
unchanged (no second push), `nb` is appended to the affected list, and the
goal test that follows is `nb = goal`. -/
theorem visitNeighbour_alreadyOpen (W : World F) (goal cur nb : Fin n) (s : Search F n)
    (hopen : (s.graph nb).mOpen = true) (hclosed : (s.graph nb).mClosed = false)
    (htrav : (s.graph nb).mMoveModifier < W.IAIPATHGLOBAL_MOVE_MODIFIER_UNTRAVERSAL) :
    (visitNeighbour W goal cur s nb).1.openList = s.openList ∧
    (visitNeighbour W goal cur s nb).1.affectedList = s.affectedList ++ [nb] ∧
    (visitNeighbour W goal cur s nb).2 = decide (nb = goal) ∧
    (∀ w, w ≠ nb → (visitNeighbour W goal cur s nb).1.graph w = s.graph w) ∧
    ((visitNeighbour W goal cur s nb).1.graph nb).mFitness = (s.graph nb).mFitness ∧
    ((visitNeighbour W goal cur s nb).1.graph nb).mHeuristicCostToGoal =
      (s.graph nb).mHeuristicCostToGoal ∧
    ((visitNeighbour W goal cur s nb).1.graph nb).mOpen = true ∧
    ((visitNeighbour W goal cur s nb).1.graph nb).mClosed = false ∧
    ((visitNeighbour W goal cur s nb).1.graph nb).SameStatic (s.graph nb) ∧
    (((s.graph nb).mParent ≠ some cur ∧
        (s.graph cur).mLowestCostFromStart + estimateCostToGoal W s.graph nb cur +
          (s.graph nb).mMoveModifier < (s.graph nb).mLowestCostFromStart) →
      ((visitNeighbour W goal cur s nb).1.graph nb).mParent = some cur ∧
      ((visitNeighbour W goal cur s nb).1.graph nb).mLowestCostFromStart =
        (s.graph cur).mLowestCostFromStart + estimateCostToGoal W s.graph nb cur +
          (s.graph nb).mMoveModifier) ∧
    (¬ ((s.graph nb).mParent ≠ some cur ∧
        (s.graph cur).mLowestCostFromStart + estimateCostToGoal W s.graph nb cur +
          (s.graph nb).mMoveModifier < (s.graph nb).mLowestCostFromStart) →
      ((visitNeighbour W goal cur s nb).1.graph nb).mParent = (s.graph nb).mParent ∧
      ((visitNeighbour W goal cur s nb).1.graph nb).mLowestCostFromStart =
        (s.graph nb).mLowestCostFromStart) := by
  have hskip : ¬ ((s.graph nb).mClosed = true ∨
      W.IAIPATHGLOBAL_MOVE_MODIFIER_UNTRAVERSAL ≤ (s.graph nb).mMoveModifier) := by
    rintro (h | h)
    · rw [hclosed] at h
      exact Bool.noConfusion h
    · exact absurd htrav (not_lt.mpr h)
  have hno : ¬ (s.graph nb).mOpen = false := by
    rw [hopen]
    exact fun h => Bool.noConfusion h
  unfold visitNeighbour
  simp only [if_neg hskip, if_neg hno]
  refine ⟨trivial, trivial, trivial, ?_, ?_, ?_, ?_, ?_, ?_, ?_, ?_⟩
  · intro w hw
    exact setNode_other _ _ hw
  · rw [setNode_same]
    split_ifs <;> rfl
  · rw [setNode_same]
    split_ifs <;> rfl
  · rw [setNode_same]
    split_ifs <;> exact hopen
  · rw [setNode_same]
  · rw [setNode_same]
    split_ifs <;> exact ⟨rfl, rfl, rfl⟩
  · intro h
    rw [setNode_same, if_pos h]
    exact ⟨rfl, rfl⟩
  · intro h
    rw [setNode_same, if_neg h]
    exact ⟨rfl, rfl⟩

/-- Witness of C16: node 0 expands and meets the queued node 1. -/
theorem visitNeighbour_alreadyOpen_witness :
    (relaxState.graph 1).mOpen = true ∧ (relaxState.graph 1).mClosed = false ∧
    (relaxState.graph 1).mMoveModifier < sampleWorld.IAIPATHGLOBAL_MOVE_MODIFIER_UNTRAVERSAL ∧
    (visitNeighbour sampleWorld 1 0 relaxState 1).1.openList = relaxState.openList ∧
    (visitNeighbour sampleWorld 1 0 relaxState 1).1.affectedList = relaxState.affectedList ++ [1] ∧
    (visitNeighbour sampleWorld 1 0 relaxState 1).2 = decide ((1 : Fin 2) = 1) ∧
    (∀ w, w ≠ 1 → (visitNeighbour sampleWorld 1 0 relaxState 1).1.graph w = relaxState.graph w) ∧
    ((visitNeighbour sampleWorld 1 0 relaxState 1).1.graph 1).mFitness = (relaxState.graph 1).mFitness ∧
    ((visitNeighbour sampleWorld 1 0 relaxState 1).1.graph 1).mHeuristicCostToGoal =
      (relaxState.graph 1).mHeuristicCostToGoal ∧
    ((visitNeighbour sampleWorld 1 0 relaxState 1).1.graph 1).mOpen = true ∧
    ((visitNeighbour sampleWorld 1 0 relaxState 1).1.graph 1).mClosed = false ∧
    ((visitNeighbour sampleWorld 1 0 relaxState 1).1.graph 1).SameStatic (relaxState.graph 1) ∧
    (((relaxState.graph 1).mParent ≠ some 0 ∧
        (relaxState.graph 0).mLowestCostFromStart +
          estimateCostToGoal sampleWorld relaxState.graph 1 0 +
          (relaxState.graph 1).mMoveModifier < (relaxState.graph 1).mLowestCostFromStart) →
      ((visitNeighbour sampleWorld 1 0 relaxState 1).1.graph 1).mParent = some 0 ∧
      ((visitNeighbour sampleWorld 1 0 relaxState 1).1.graph 1).mLowestCostFromStart =
        (relaxState.graph 0).mLowestCostFromStart +
          estimateCostToGoal sampleWorld relaxState.graph 1 0 +
          (relaxState.graph 1).mMoveModifier) ∧
    (¬ ((relaxState.graph 1).mParent ≠ some 0 ∧
        (relaxState.graph 0).mLowestCostFromStart +
          estimateCostToGoal sampleWorld relaxState.graph 1 0 +
          (relaxState.graph 1).mMoveModifier < (relaxState.graph 1).mLowestCostFromStart) →
      ((visitNeighbour sampleWorld 1 0 relaxState 1).1.graph 1).mParent = (relaxState.graph 1).mParent ∧
      ((visitNeighbour sampleWorld 1 0 relaxState 1).1.graph 1).mLowestCostFromStart =
        (relaxState.graph 1).mLowestCostFromStart) :=
  ⟨rfl, rfl, by decide!,
    visitNeighbour_alreadyOpen sampleWorld 1 0 1 relaxState rfl rfl (by decide!)⟩

/-- C18, start equals goal never succeeds: on a clean graph, with every heap
tie-break, whatever the neighbour lists are, a call whose goal is the start
node, and likewise a call whose goal has a move modifier at or above the
untraversable mark, returns false with the output list and the graph as they
were, with smoothing on or off. -/
theorem generatePath_goal_unreachable (W : World F) (tie : Nat → Nat) (fuel : Nat)
    (g : Graph F n) (start goal : Fin n) (replyList : List (Fin n)) (smooth : Bool)
    (hclean : IsClean g) (hfuel : n ≤ fuel)
    (h : goal = start ∨
      W.IAIPATHGLOBAL_MOVE_MODIFIER_UNTRAVERSAL ≤ (g goal).mMoveModifier) :
    generatePath W tie fuel g start goal replyList smooth =
      .ok { found := false, graph := g, replyList := replyList } := by
  rcases generatePath_run W tie start goal hclean hfuel with hno | ⟨P, hP, hne, _, _⟩
  · exact hno replyList smooth
  · rcases h with h | h
    · exact absurd h hne
    · exact absurd (hP.traversable hne) (not_lt.mpr h)

/-- Witness of C18: start and goal both node 2 of the five-node line. -/
theorem generatePath_goal_unreachable_witness :
    IsClean (lineGraph ℚ 5) ∧ 5 ≤ 5 ∧
    ((2 : Fin 5) = 2 ∨
      sampleWorld.IAIPATHGLOBAL_MOVE_MODIFIER_UNTRAVERSAL ≤
        (lineGraph ℚ 5 2).mMoveModifier) ∧
    generatePath sampleWorld (fun _ => 0) 5 (lineGraph ℚ 5) 2 2 [0, 1] true =
      .ok { found := false, graph := lineGraph ℚ 5, replyList := [0, 1] } :=
  ⟨fun _ => ⟨rfl, rfl, rfl, rfl, rfl, rfl⟩, le_refl 5, Or.inl rfl,
    generatePath_goal_unreachable sampleWorld (fun _ => 0) 5 (lineGraph ℚ 5) 2 2 [0, 1] true
      (fun _ => ⟨rfl, rfl, rfl, rfl, rfl, rfl⟩) (le_refl 5) (Or.inl rfl)⟩

/-- C19, output list is prepended to: on a clean graph, with every heap
tie-break, a call that returns false (smoothing on or off) leaves the output
list exactly `L`; and with smoothing off either every call returns false with
`L`, or there is one path `P` from start to goal (first node start, last node
goal, each step an edge to a traversable node) such that for every initial
list `L` the call returns true with output list `P ++ L`. -/
theorem generatePath_prepends (W : World F) (tie : Nat → Nat) (fuel : Nat)
    (g : Graph F n) (start goal : Fin n) (hclean : IsClean g) (hfuel : n ≤ fuel) :
    (∀ L smooth r, generatePath W tie fuel g start goal L smooth = .ok r →
      r.found = false → r.replyList = L) ∧
    ((∀ L, generatePath W tie fuel g start goal L false =
        .ok { found := false, graph := g, replyList := L }) ∨
     (∃ P, PathTo W g start goal P ∧ P.head? = some start ∧ P.getLast? = some goal ∧
        List.Chain' (Edge W g) P ∧
        ∀ L, generatePath W tie fuel g start goal L false =
          .ok { found := true, graph := g, replyList := P ++ L })) := by
  rcases generatePath_run W tie start goal hclean hfuel with hno | ⟨P, hP, _, _, hrun⟩
  · refine ⟨?_, Or.inl (fun L => hno L false)⟩
    intro L smooth r hr _
    rw [hno L smooth] at hr
    rw [← Except.ok.inj hr]
  · refine ⟨?_, Or.inr ⟨P, hP, hP.head, hP.last, hP.chain, fun L => ?_⟩⟩
    · intro L smooth r hr hfalse
      rw [hrun L smooth] at hr
      cases smooth with
      | false =>
        simp only [Bool.false_eq_true, if_false] at hr
        rw [← Except.ok.inj hr] at hfalse
        exact Bool.noConfusion hfalse
      | true =>
        simp only [if_true] at hr
        cases hsm : smoothPath W g fuel (P ++ L) with
        | error e =>
          rw [hsm] at hr
          exact Except.noConfusion hr
        | ok l =>
          rw [hsm] at hr
          have hr1 := Except.ok.inj hr
          rw [← hr1] at hfalse
          exact Bool.noConfusion hfalse
    · have := hrun L false
      simpa using this

/-- Witness of C19 on the five-node line, where the call returns true. -/
theorem generatePath_prepends_witness :
    IsClean (lineGraph ℚ 5) ∧ 5 ≤ 5 ∧
    ((∀ L smooth r, generatePath sampleWorld (fun _ => 0) 5 (lineGraph ℚ 5) 0 4 L smooth = .ok r →
      r.found = false → r.replyList = L) ∧
    ((∀ L, generatePath sampleWorld (fun _ => 0) 5 (lineGraph ℚ 5) 0 4 L false =
        .ok { found := false, graph := lineGraph ℚ 5, replyList := L }) ∨
     (∃ P, PathTo sampleWorld (lineGraph ℚ 5) 0 4 P ∧ P.head? = some 0 ∧
        P.getLast? = some 4 ∧ List.Chain' (Edge sampleWorld (lineGraph ℚ 5)) P ∧
        ∀ L, generatePath sampleWorld (fun _ => 0) 5 (lineGraph ℚ 5) 0 4 L false =
          .ok { found := true, graph := lineGraph ℚ 5, replyList := P ++ L }))) ∧
    ∃ r, generatePath sampleWorld (fun _ => 0) 5 (lineGraph ℚ 5) 0 4 [] false = .ok r ∧
      r.found = true :=
  ⟨fun _ => ⟨rfl, rfl, rfl, rfl, rfl, rfl⟩, le_refl 5,
    generatePath_prepends sampleWorld (fun _ => 0) 5 (lineGraph ℚ 5) 0 4
      (fun _ => ⟨rfl, rfl, rfl, rfl, rfl, rfl⟩) (le_refl 5),
    generatePath_found sampleWorld (fun _ => 0) 5 (lineGraph ℚ 5) 0 4 [] false
      (fun _ => ⟨rfl, rfl, rfl, rfl, rfl, rfl⟩) (le_refl 5) (by decide) line5_chain⟩

/-- C20, smoother indexing is in bounds when called from the search: on a
clean graph, with every heap tie-break and every initial output list, the
search returns, and whenever it has found the goal the parent walk returns a
list `reply` of at least 2 nodes; on it the 32-bit bound `size - 2` does not
wrap (it is `length - 2` for a list of fewer than `2 ^ 32` nodes, and never
above it); no run of the smoothing loop on `reply`, however long, reads
outside the list (with cursor below the bound the reads at `iter`, `iter + 1`,
`iter + 2` and the erase at `iter + 1` are below the current length); with
fuel for `length - 2` iterations the loop returns; and the call with
smoothing on never faults on an index. -/
theorem generatePath_smooth_inBounds (W : World F) (tie : Nat → Nat) (fuel : Nat)
    (g : Graph F n) (start goal : Fin n) (L : List (Fin n))
    (hclean : IsClean g) (hfuel : n ≤ fuel) :
    (∃ s hit, searchLoop W goal fuel tie (seed W g start goal) = .ok (s, hit)) ∧
    (∀ s, searchLoop W goal fuel tie (seed W g start goal) = .ok (s, true) →
      ∃ reply, tracePath s.graph fuel (some goal) L = .ok reply ∧
        2 ≤ reply.length ∧
        smoothBound reply.length ≤ reply.length - 2 ∧
        (reply.length < 2 ^ 32 → smoothBound reply.length = reply.length - 2) ∧
        (∀ k, smoothPath W s.graph k reply ≠ .error .outOfBounds) ∧
        (∀ k iter (r : List (Fin n)), 2 ≤ r.length → iter < smoothBound r.length →
          (∃ a b c, r.get? iter = some a ∧ r.get? (iter + 1) = some b ∧
            r.get? (iter + 2) = some c) ∧
          2 ≤ (r.eraseIdx (iter + 1)).length ∧
          smoothPathLoop W s.graph k iter r ≠ .error .outOfBounds) ∧
        (∀ k, reply.length ≤ k + 2 → ∃ out, smoothPath W s.graph k reply = .ok out) ∧
        generatePath W tie fuel g start goal L true ≠ .error .outOfBounds) := by
  obtain ⟨s, hit, hs, _, _, hpath⟩ := search_core W tie start goal hclean hfuel
  refine ⟨⟨s, hit, hs⟩, ?_⟩
  intro s1 hs1
  rw [hs1] at hs
  have hpair := Except.ok.inj hs
  have e1 : s1 = s := congrArg Prod.fst hpair
  have e2 : true = hit := congrArg Prod.snd hpair
  subst e1
  obtain ⟨P, hP, hne, _, htrace⟩ := hpath e2.symm
  have h2 : 2 ≤ (P ++ L).length := by
    have := hP.two_le hne
    rw [List.length_append]
    omega
  refine ⟨P ++ L, htrace L, h2, smoothBound_le h2, smoothBound_eq h2, ?_, ?_, ?_, ?_⟩
  · intro k
    exact smoothPathLoop_inBounds W s1.graph k 0 (P ++ L) h2
  · intro k iter r hr hlt
    have hb := smoothBound_le hr
    obtain ⟨a, b, c, ha, hb1, hc, _⟩ := smoothPathLoop_step W s1.graph 0 iter r hr hlt
    have hl : (r.eraseIdx (iter + 1)).length = r.length - 1 :=
      List.length_eraseIdx_of_lt (by omega)
    exact ⟨⟨a, b, c, ha, hb1, hc⟩, by omega, smoothPathLoop_inBounds W s1.graph k iter r hr⟩
  · intro k hk
    obtain ⟨out, o1, _⟩ := smoothPath_spec W s1.graph k (P ++ L) h2 hk
    exact ⟨out, o1⟩
  · simp only [generatePath, hs1, htrace L, if_true]
    cases hsm : smoothPath W s1.graph fuel (P ++ L) with
    | error e =>
      have := smoothPathLoop_inBounds W s1.graph fuel 0 (P ++ L) h2
      intro h
      apply this
      have he : e = Fault.outOfBounds := by
        simpa using h
      rw [← he]
      exact hsm
    | ok l => simp

/-- Witness of C20 on the five-node line, where the search finds the goal. -/
theorem generatePath_smooth_inBounds_witness :
    IsClean (lineGraph ℚ 5) ∧ 5 ≤ 5 ∧
    ((∃ s hit, searchLoop sampleWorld 4 5 (fun _ => 0) (seed sampleWorld (lineGraph ℚ 5) 0 4) = .ok (s, hit)) ∧
    (∀ s, searchLoop sampleWorld 4 5 (fun _ => 0) (seed sampleWorld (lineGraph ℚ 5) 0 4) = .ok (s, true) →
      ∃ reply, tracePath s.graph 5 (some 4) [] = .ok reply ∧
        2 ≤ reply.length ∧
        smoothBound reply.length ≤ reply.length - 2 ∧
        (reply.length < 2 ^ 32 → smoothBound reply.length = reply.length - 2) ∧
        (∀ k, smoothPath sampleWorld s.graph k reply ≠ .error .outOfBounds) ∧
        (∀ k iter (r : List (Fin 5)), 2 ≤ r.length → iter < smoothBound r.length →
          (∃ a b c, r.get? iter = some a ∧ r.get? (iter + 1) = some b ∧
            r.get? (iter + 2) = some c) ∧
          2 ≤ (r.eraseIdx (iter + 1)).length ∧
          smoothPathLoop sampleWorld s.graph k iter r ≠ .error .outOfBounds) ∧
        (∀ k, reply.length ≤ k + 2 → ∃ out, smoothPath sampleWorld s.graph k reply = .ok out) ∧
        generatePath sampleWorld (fun _ => 0) 5 (lineGraph ℚ 5) 0 4 [] true ≠ .error .outOfBounds)) ∧
    ∃ s, searchLoop sampleWorld 4 5 (fun _ => 0) (seed sampleWorld (lineGraph ℚ 5) 0 4) =
      .ok (s, true) :=
  ⟨fun _ => ⟨rfl, rfl, rfl, rfl, rfl, rfl⟩, le_refl 5,
    generatePath_smooth_inBounds sampleWorld (fun _ => 0) 5 (lineGraph ℚ 5) 0 4 []
      (fun _ => ⟨rfl, rfl, rfl, rfl, rfl, rfl⟩) (le_refl 5),
    searchLoop_found sampleWorld (fun _ => 0) 0 4
      (fun _ => ⟨rfl, rfl, rfl, rfl, rfl, rfl⟩) (le_refl 5) (by decide) line5_chain⟩

/-- Counterexample to C13 as stated: in the search from node 0 to node 1 on the
clean two-node graph `wallGraph`, at the point after node 0 was popped and its
neighbour 1 was visited, node 1 is recorded in the affected list (line 74) and
has neither flag set, because its move modifier is at the untraversable mark
and line 77 skips it. -/
theorem search_flags_counterexample :
    IsClean wallGraph ∧ SearchPoint sampleWorld wallGraph 0 1 wallPoint ∧
    (1 : Fin 2) ∈ wallPoint.state.affectedList ∧
    (wallPoint.state.graph 1).mOpen = false ∧ (wallPoint.state.graph 1).mClosed = false :=
  ⟨wallGraph_clean, wallPoint_reached,
    by
      have h := (visitNeighbour_shape sampleWorld 1 0 1
        (closeFront (seed sampleWorld wallGraph 0 1) 0)).1
      show (1 : Fin 2) ∈ (visitNeighbour sampleWorld 1 0
        (closeFront (seed sampleWorld wallGraph 0 1) 0) 1).1.affectedList
      rw [h]
      exact List.mem_append_right _ (List.mem_singleton.mpr rfl),
    by decide!, by decide!⟩

/-- C13 amended, open/closed invariant: at every point of a search from a clean
graph (after the seed, after each pop, after each neighbour visit) no node has
open and closed both true; every enqueued node is open and not closed; every
node of the affected list that is the start node or has a move modifier below
the untraversable mark has exactly one of open, closed true; every node other
than start with a move modifier at or above the mark has both false, also
when line 74 has recorded it in the affected list; and every node that is
neither in the affected list nor enqueued has both false. -/
theorem search_flags_invariant (W : World F) (g : Graph F n) (start goal : Fin n)
    (c : Config F n) (hclean : IsClean g) (hc : SearchPoint W g start goal c) :
    (∀ v, ¬ ((c.state.graph v).mOpen = true ∧ (c.state.graph v).mClosed = true)) ∧
    (∀ v ∈ c.state.openList,
      (c.state.graph v).mOpen = true ∧ (c.state.graph v).mClosed = false) ∧
    (∀ v ∈ c.state.affectedList,
      (v = start ∨
        (c.state.graph v).mMoveModifier < W.IAIPATHGLOBAL_MOVE_MODIFIER_UNTRAVERSAL) →
      ((c.state.graph v).mOpen = true ∧ (c.state.graph v).mClosed = false) ∨
      ((c.state.graph v).mOpen = false ∧ (c.state.graph v).mClosed = true)) ∧
    (∀ v, v ≠ start →
      W.IAIPATHGLOBAL_MOVE_MODIFIER_UNTRAVERSAL ≤ (c.state.graph v).mMoveModifier →
      (c.state.graph v).mOpen = false ∧ (c.state.graph v).mClosed = false) ∧
    (∀ v, v ∉ c.state.affectedList → v ∉ c.state.openList →
      (c.state.graph v).mOpen = false ∧ (c.state.graph v).mClosed = false) := by
  have h := flagInv_point W hclean hc
  have hone : ∀ v, Flagged c.state.graph v →
      ((c.state.graph v).mOpen = true ∧ (c.state.graph v).mClosed = false) ∨
      ((c.state.graph v).mOpen = false ∧ (c.state.graph v).mClosed = true) := by
    intro v hv
    cases ho : (c.state.graph v).mOpen
    · rcases hv with hv | hv
      · rw [ho] at hv
        exact Bool.noConfusion hv
      · exact Or.inr ⟨rfl, hv⟩
    · exact Or.inl ⟨rfl, h.noBoth v ho⟩
  refine ⟨?_, ?_, ?_, ?_, ?_⟩
  · rintro v ⟨h1, h2⟩
    rw [h.noBoth v h1] at h2
    exact Bool.noConfusion h2
  · intro v hv
    exact ⟨(h.queued v).mp hv, h.noBoth v ((h.queued v).mp hv)⟩
  · intro v hv hcond
    rcases hcond with hs | hm
    · rw [hs]
      exact hone start h.startFlagged
    · rw [(h.static v).2.2] at hm
      exact hone v (h.affected v hv hm)
  · intro v hv hm
    rw [(h.static v).2.2] at hm
    exact not_flagged_iff.mp (h.blocked v hv hm)
  · intro v ha hq
    apply not_flagged_iff.mp
    rintro (h1 | h1)
    · exact hq ((h.queued v).mpr h1)
    · exact ha (h.closedAffected v h1)

/-- Witness of C13 amended at the point `wallPoint`. -/
theorem search_flags_invariant_witness :
    IsClean wallGraph ∧ SearchPoint sampleWorld wallGraph 0 1 wallPoint ∧
    ((∀ v, ¬ ((wallPoint.state.graph v).mOpen = true ∧ (wallPoint.state.graph v).mClosed = true)) ∧
    (∀ v ∈ wallPoint.state.openList,
      (wallPoint.state.graph v).mOpen = true ∧ (wallPoint.state.graph v).mClosed = false) ∧
    (∀ v ∈ wallPoint.state.affectedList,
      (v = 0 ∨
        (wallPoint.state.graph v).mMoveModifier < sampleWorld.IAIPATHGLOBAL_MOVE_MODIFIER_UNTRAVERSAL) →
      ((wallPoint.state.graph v).mOpen = true ∧ (wallPoint.state.graph v).mClosed = false) ∨
      ((wallPoint.state.graph v).mOpen = false ∧ (wallPoint.state.graph v).mClosed = true)) ∧
    (∀ v, v ≠ 0 →
      sampleWorld.IAIPATHGLOBAL_MOVE_MODIFIER_UNTRAVERSAL ≤ (wallPoint.state.graph v).mMoveModifier →
      (wallPoint.state.graph v).mOpen = false ∧ (wallPoint.state.graph v).mClosed = false) ∧
    (∀ v, v ∉ wallPoint.state.affectedList → v ∉ wallPoint.state.openList →
      (wallPoint.state.graph v).mOpen = false ∧ (wallPoint.state.graph v).mClosed = false)) :=
  ⟨wallGraph_clean, wallPoint_reached,
    search_flags_invariant sampleWorld wallGraph 0 1 wallPoint wallGraph_clean
      wallPoint_reached⟩

/-- C14, parent tree invariant: at every point of a search from a clean graph
(after the seed, after each pop, after each neighbour visit) start has no
parent; every node with a parent `p` has `p` closed and is listed in the
neighbour list of `p`, and the parent walk from it is a finite list of at
most `n` nodes that ends at start; and the parent links are acyclic: no node
reaches itself by one or more parent links. -/
theorem search_parent_tree (W : World F) (g : Graph F n) (start goal : Fin n)
    (c : Config F n) (hclean : IsClean g) (hc : SearchPoint W g start goal c) :
    (c.state.graph start).mParent = none ∧
    (∀ v p, (c.state.graph v).mParent = some p →
      (c.state.graph p).mClosed = true ∧ v ∈ (c.state.graph p).mNeighbours ∧
      ∃ rl, IsTrace c.state.graph (some v) rl ∧ rl.getLast? = some start ∧
        rl.length ≤ n) ∧
    (∀ v, ¬ Relation.TransGen (fun a b => (c.state.graph a).mParent = some b) v v) := by
  have hfl := flagInv_point W hclean hc
  obtain ⟨hroot, hpar⟩ := point_parent W hclean hc
  have htrace : ∀ v, ∃ rl, IsTrace c.state.graph (some v) rl := by
    intro v
    cases hvp : (c.state.graph v).mParent with
    | none =>
      refine ⟨[v], rfl, ?_⟩
      rw [hvp]
      rfl
    | some p =>
      obtain ⟨_, _, _, rl, htr, _⟩ := hpar v p hvp
      exact ⟨rl, htr⟩
  refine ⟨hroot, ?_, ?_⟩
  · intro v p hvp
    obtain ⟨_, hcl, hedge, rl, htr, hpath, hlen⟩ := hpar v p hvp
    refine ⟨hcl, ?_, rl, htr, ?_, hlen⟩
    · rw [(hfl.static p).2.1]
      exact hedge.1
    · rw [← List.head?_reverse]
      exact hpath.head
  · intro v hcyc
    obtain ⟨la, hla⟩ := htrace v
    obtain ⟨lb, hlb, hlt⟩ := parent_walk_shorter c.state.graph hcyc la hla
    rw [isTrace_unique c.state.graph lb la (some v) hlb hla] at hlt
    exact lt_irrefl _ hlt

/-- Witness of C14 at the point `linePoint`, where node 1 has parent 0. -/
theorem search_parent_tree_witness :
    IsClean (lineGraph ℚ 2) ∧ SearchPoint sampleWorld (lineGraph ℚ 2) 0 1 linePoint ∧
    ((linePoint.state.graph 0).mParent = none ∧
    (∀ v p, (linePoint.state.graph v).mParent = some p →
      (linePoint.state.graph p).mClosed = true ∧ v ∈ (linePoint.state.graph p).mNeighbours ∧
      ∃ rl, IsTrace linePoint.state.graph (some v) rl ∧ rl.getLast? = some 0 ∧
        rl.length ≤ 2) ∧
    (∀ v, ¬ Relation.TransGen (fun a b => (linePoint.state.graph a).mParent = some b) v v)) :=
  ⟨fun _ => ⟨rfl, rfl, rfl, rfl, rfl, rfl⟩, linePoint_reached,
    search_parent_tree sampleWorld (lineGraph ℚ 2) 0 1 linePoint
      (fun _ => ⟨rfl, rfl, rfl, rfl, rfl, rfl⟩) linePoint_reached⟩

/-- C17, completeness: on a clean graph with start and goal different, if a
chain of one or more steps leads from start to goal in which each node is in
the neighbour list of the one before and has a move modifier below the
untraversable mark, then the call returns, and it returns true, whatever the
positions, the modifiers, the world, the initial reply list, the smoothing
flag and the heap tie-breaking are. -/
theorem generatePath_complete (W : World F) (tie : Nat → Nat) (fuel : Nat)
    (g : Graph F n) (start goal : Fin n) (replyList : List (Fin n)) (smooth : Bool)
    (hclean : IsClean g) (hfuel : n + replyList.length ≤ fuel) (hne : start ≠ goal)
    (hchain : Relation.TransGen (Edge W g) start goal) :
    ∃ r, generatePath W tie fuel g start goal replyList smooth = .ok r ∧ r.found = true :=
  generatePath_found W tie fuel g start goal replyList smooth hclean hfuel hne hchain

/-- Witness of C17 on the five-node line, from node 0 to node 4. -/
theorem generatePath_complete_witness :
    IsClean (lineGraph ℚ 5) ∧ 5 + ([] : List (Fin 5)).length ≤ 5 ∧ (0 : Fin 5) ≠ 4 ∧
    Relation.TransGen (Edge sampleWorld (lineGraph ℚ 5)) 0 4 ∧
    ∃ r, generatePath sampleWorld (fun _ => 0) 5 (lineGraph ℚ 5) 0 4 [] true = .ok r ∧
      r.found = true :=
  ⟨fun _ => ⟨rfl, rfl, rfl, rfl, rfl, rfl⟩, le_refl 5, by decide, line5_chain,
    generatePath_complete sampleWorld (fun _ => 0) 5 (lineGraph ℚ 5) 0 4 [] true
      (fun _ => ⟨rfl, rfl, rfl, rfl, rfl, rfl⟩) (le_refl 5) (by decide) line5_chain⟩

/-- C15, search terminates without re-queuing: on a clean graph the call
returns; the main loop returns within `n` dequeues and the parent walk within
`n` steps; the run of the main loop passes only through points of the search;
and from any point of the search to any later one the open list has no
duplicate, a node is on the later open list only if it was on the earlier one
or had no flag then (so a node that was pushed and dequeued is never pushed
again), a node that had a flag keeps a flag and its fitness, and a closed
node keeps its whole record and is not on the open list. -/
theorem search_no_requeue (W : World F) (tie : Nat → Nat) (fuel : Nat)
    (g : Graph F n) (start goal : Fin n) (replyList : List (Fin n)) (smooth : Bool)
    (hclean : IsClean g) (hfuel : n + replyList.length ≤ fuel) :
    (∃ r, generatePath W tie fuel g start goal replyList smooth = .ok r) ∧
    (∃ s hit, searchLoop W goal n tie (seed W g start goal) = .ok (s, hit) ∧
      SearchPoint W g start goal
        { state := s, pos := if hit = true then .found else .head } ∧
      (hit = true → ∃ reply, tracePath s.graph n (some goal) replyList = .ok reply)) ∧
    (∀ c c2, SearchPoint W g start goal c →
      Relation.ReflTransGen (SearchStep W goal) c c2 →
      c2.state.openList.Nodup ∧
      (∀ v, v ∈ c2.state.openList → v ∈ c.state.openList ∨ ¬ Flagged c.state.graph v) ∧
      (∀ v, Flagged c.state.graph v → Flagged c2.state.graph v ∧
        (c2.state.graph v).mFitness = (c.state.graph v).mFitness) ∧
      (∀ v, (c.state.graph v).mClosed = true →
        c2.state.graph v = c.state.graph v ∧ v ∉ c2.state.openList)) := by
  refine ⟨?_, ?_, ?_⟩
  · obtain ⟨r, hr, _⟩ :=
      generatePath_total W tie fuel g start goal replyList smooth hclean hfuel
    exact ⟨r, hr⟩
  · obtain ⟨s, hit, hs, _, _, hpath⟩ := search_core W tie start goal hclean (le_refl n)
    refine ⟨s, hit, hs, (searchLoop_steps W goal n tie _ s hit hs).1, ?_⟩
    intro hh
    obtain ⟨P, _, _, _, htrace⟩ := hpath hh
    exact ⟨P ++ replyList, htrace replyList⟩
  · intro c c2 hc hsteps
    obtain ⟨hc2, ha, hq, hcl⟩ := steps_frame W hclean hc hsteps
    have hfl := flagInv_point W hclean hc2
    refine ⟨hfl.nodup, hq, ha, ?_⟩
    intro v hv
    refine ⟨hcl v hv, ?_⟩
    intro hmem
    have ho := (hfl.queued v).mp hmem
    have hnc := hfl.noBoth v ho
    rw [hcl v hv, hv] at hnc
    exact Bool.noConfusion hnc

/-- Witness of C15 on the five-node line. -/
theorem search_no_requeue_witness :
    IsClean (lineGraph ℚ 5) ∧ 5 + ([] : List (Fin 5)).length ≤ 5 ∧
    ((∃ r, generatePath sampleWorld (fun _ => 0) 5 (lineGraph ℚ 5) 0 4 [] true = .ok r) ∧
    (∃ s hit, searchLoop sampleWorld 4 5 (fun _ => 0) (seed sampleWorld (lineGraph ℚ 5) 0 4) = .ok (s, hit) ∧
      SearchPoint sampleWorld (lineGraph ℚ 5) 0 4
        { state := s, pos := if hit = true then .found else .head } ∧
      (hit = true → ∃ reply, tracePath s.graph 5 (some 4) [] = .ok reply)) ∧
    (∀ c c2, SearchPoint sampleWorld (lineGraph ℚ 5) 0 4 c →
      Relation.ReflTransGen (SearchStep sampleWorld 4) c c2 →
      c2.state.openList.Nodup ∧
      (∀ v, v ∈ c2.state.openList → v ∈ c.state.openList ∨ ¬ Flagged c.state.graph v) ∧
      (∀ v, Flagged c.state.graph v → Flagged c2.state.graph v ∧
        (c2.state.graph v).mFitness = (c.state.graph v).mFitness) ∧
      (∀ v, (c.state.graph v).mClosed = true →
        c2.state.graph v = c.state.graph v ∧ v ∉ c2.state.openList))) :=
  ⟨fun _ => ⟨rfl, rfl, rfl, rfl, rfl, rfl⟩, le_refl 5,
    search_no_requeue sampleWorld (fun _ => 0) 5 (lineGraph ℚ 5) 0 4 [] true
      (fun _ => ⟨rfl, rfl, rfl, rfl, rfl, rfl⟩) (le_refl 5)⟩

end Claims2

end iAIPathFind
